import Mathlib

/-!
# UTF-8 helpers of `src/shared/utf8.c`

A shallow embedding of the validation, filtering and escaping routines of
`src/shared/utf8.c`, followed by theorems about them.

Conventions of the embedding.

* A byte is a `Nat` below 256; a `uint32_t` is a `Nat` below `2^32`; a `size_t`
  is a `Nat` below `2^64`; an `int` is an `Int`.
* A NUL-terminated C string is the `List Nat` of the bytes that precede its
  terminator.  Reading at an offset (`rd`) gives the stored byte, and `0` (the
  terminator) once the stored bytes are used up.  A pointer into a string is the
  suffix of the list that starts there, so `p++` is `p.drop 1`.
* Loops are functions with a fuel argument; they return `none` only when the
  fuel runs out.  The entry points pass `length + 1`; for the scans that stop at
  the terminator the theorems show this to be enough.
-/

namespace Utf8

/-! ## Data model -/

/-- Value of a returned `char *`: `NULL`, or the string the pointer refers to. -/
inductive CPtr where
  | NULL : CPtr
  | ptr (s : List Nat) : CPtr
  deriving DecidableEq

/-- Read of `p[k]` in a NUL-terminated string whose stored bytes are `p`. -/
def rd (p : List Nat) (k : Nat) : Nat := p.getD k 0

/-- All elements are bytes. -/
abbrev IsBytes (s : List Nat) : Prop := ∀ b ∈ s, b < 256

/-- No element is the terminator. -/
abbrev NulFree (s : List Nat) : Prop := ∀ b ∈ s, b ≠ 0

/-- The line `#define FILTER_CHAR '_'`. -/
def FILTER_CHAR : Nat := 95

/-- Unsigned subtraction `a - b` of two `size_t` values. -/
def size_sub (a b : Nat) : Nat := (a + 18446744073709551616 - b) % 18446744073709551616

/-! ## Code point classifier (`utf8.c` lines 56-91) -/

/-- The C function `is_unicode_valid(uint32_t ch)`. -/
def is_unicode_valid (ch : Nat) : Bool :=
  if ch ≥ 0x110000 then false
  else if ch &&& 0xFFFFF800 = 0xD800 then false
  else if ch ≥ 0xFDD0 ∧ ch ≤ 0xFDEF then false
  else if ch &&& 0xFFFE = 0xFFFE then false
  else true

/-- The C function `is_continuation_char(uint8_t ch)`. -/
def is_continuation_char (ch : Nat) : Bool :=
  if ch &&& 0xc0 ≠ 0x80 then false else true

/-- The C function `merge_continuation_char`, returning the new `*u_ch`. -/
def merge_continuation_char (u_ch ch : Nat) : Nat :=
  ((u_ch <<< 6) % 4294967296) ||| (ch &&& 0x3f)

/-- The C function `is_unicode_control(uint32_t ch)`. -/
def is_unicode_control (ch : Nat) : Bool :=
  (decide (ch < 32) && decide (ch ≠ 9) && decide (ch ≠ 10)) ||
    (decide (0x7F ≤ ch) && decide (ch ≤ 0x9F))

/-! ## `utf8_is_printable` (lines 93-147)

The argument `str` lists the bytes found in memory from the start of the buffer
on; the buffer proper is its first `length` bytes.  The state of the scan is the
index `pos` of `p`, the bytes `p` from there on, and the remaining `length` (a
`size_t`, decremented modulo `2^64`).  The second component of every result
lists the indexes that were dereferenced, in program order. -/

/-- The label `ONE_REMAINING` up to `if (val < min) return false;`: `none` for
`return false`, else the new `val`, `pos`, `p` and `length`. -/
def printable_one_remaining (min val pos : Nat) (p : List Nat) (length : Nat) :
    Option (Nat × Nat × List Nat × Nat) × List Nat :=
  let pos1 := pos + 1
  let p1 := p.drop 1
  let length1 := size_sub length 1
  if !is_continuation_char (rd p1 0) then (none, [pos1])
  else
    let val1 := merge_continuation_char val (rd p1 0)
    if val1 < min then (none, [pos1])
    else (some (val1, pos1, p1, length1), [pos1])

/-- The label `TWO_REMAINING`, falling through to `ONE_REMAINING`. -/
def printable_two_remaining (min val pos : Nat) (p : List Nat) (length : Nat) :
    Option (Nat × Nat × List Nat × Nat) × List Nat :=
  let pos1 := pos + 1
  let p1 := p.drop 1
  let length1 := size_sub length 1
  if !is_continuation_char (rd p1 0) then (none, [pos1])
  else
    let r := printable_one_remaining min (merge_continuation_char val (rd p1 0)) pos1 p1 length1
    (r.1, pos1 :: r.2)

/-- The `else` branch of the loop body (first byte at least 128). -/
def printable_multibyte (pos : Nat) (p : List Nat) (length : Nat) :
    Option (Nat × Nat × List Nat × Nat) × List Nat :=
  let c := rd p 0
  if c &&& 0xe0 = 0xc0 then
    printable_one_remaining 128 (c &&& 0x1e) pos p length
  else if c &&& 0xf0 = 0xe0 then
    printable_two_remaining (1 <<< 11) (c &&& 0x0f) pos p length
  else if c &&& 0xf8 = 0xf0 then
    let pos1 := pos + 1
    let p1 := p.drop 1
    let length1 := size_sub length 1
    if length1 = 0 then (none, [])
    else if !is_continuation_char (rd p1 0) then (none, [pos1])
    else
      let r := printable_two_remaining (1 <<< 16)
        (merge_continuation_char (c &&& 0x07) (rd p1 0)) pos1 p1 length1
      (r.1, pos1 :: r.2)
  else (none, [])

/-- The `for` loop of `utf8_is_printable`. -/
def utf8_is_printable_go : Nat → Nat → List Nat → Nat → Option Bool × List Nat
  | 0, _, _, _ => (none, [])
  | fuel + 1, pos, p, length =>
    if length = 0 then (some true, [])
    else
      let c := rd p 0
      let r : Option (Nat × Nat × List Nat × Nat) × List Nat :=
        if c < 128 then (some (c, pos, p, length), [])
        else printable_multibyte pos p length
      match r.1 with
      | none => (some false, pos :: r.2)
      | some (val, pos1, p1, length1) =>
        if is_unicode_control val then (some false, pos :: r.2)
        else
          let rest := utf8_is_printable_go fuel (pos1 + 1) (p1.drop 1) (size_sub length1 1)
          (rest.1, pos :: r.2 ++ rest.2)

/-- The C function `utf8_is_printable(str, length)`: the result and the indexes
of `str` it read.  The fuel `length + 1` is enough for every scan that stays
inside the buffer; the result is `none` only when the scan is still running
after `length + 1` iterations, which needs `length` to have wrapped around, and
`utf8_is_printable_go` with more fuel then follows the C loop further. -/
def utf8_is_printable (str : List Nat) (length : Nat) : Option Bool × List Nat :=
  utf8_is_printable_go (length + 1) 0 str length

/-! ## `utf8_validate`, `utf8_is_valid`, `utf8_filter` (lines 149-250) -/

/-- The label `ONE_REMAINING` of `utf8_validate` with `p = last + k`, up to the
call of `is_unicode_valid`: `none` for `goto error`, else the decoded `val`. -/
def validate_one_remaining (min val : Nat) (last : List Nat) (k : Nat) : Option Nat :=
  let c := rd last (k + 1)
  if !is_continuation_char c then none
  else
    let val1 := merge_continuation_char val c
    if val1 < min then none
    else if !is_unicode_valid val1 then none
    else some val1

/-- The label `TWO_REMAINING` of `utf8_validate` with `p = last + k`. -/
def validate_two_remaining (min val : Nat) (last : List Nat) (k : Nat) : Option Nat :=
  let c := rd last (k + 1)
  if !is_continuation_char c then none
  else validate_one_remaining min (merge_continuation_char val c) last (k + 1)

/-- The `else` branch of the loop body of `utf8_validate` at `last`: `some size`
when control reaches `continue`, `none` when it reaches `error`. -/
def utf8_validate_seq (last : List Nat) : Option Nat :=
  let c := rd last 0
  if c &&& 0xe0 = 0xc0 then
    (validate_one_remaining 128 (c &&& 0x1e) last 0).map fun _ => 2
  else if c &&& 0xf0 = 0xe0 then
    (validate_two_remaining (1 <<< 11) (c &&& 0x0f) last 0).map fun _ => 3
  else if c &&& 0xf8 = 0xf0 then
    let c1 := rd last 1
    if !is_continuation_char c1 then none
    else
      (validate_two_remaining (1 <<< 16) (merge_continuation_char (c &&& 0x07) c1) last 1).map
        fun _ => 4
  else none

/-- The `for` loop of `utf8_validate(str, output)`.  `o` is `none` when `output`
is `NULL` and otherwise holds the bytes stored through `o` so far. -/
def utf8_validate_go (str : List Nat) : Nat → List Nat → Option (List Nat) → Option CPtr
  | 0, _, _ => none
  | fuel + 1, p, o =>
    if rd p 0 = 0 then
      match o with
      | some out => some (CPtr.ptr out)
      | none => some (CPtr.ptr str)
    else if rd p 0 < 128 then
      utf8_validate_go str fuel (p.drop 1) (o.map fun out => out ++ [rd p 0])
    else
      match utf8_validate_seq p with
      | some size =>
        utf8_validate_go str fuel (p.drop size) (o.map fun out => out ++ p.take size)
      | none =>
        match o with
        | some out => utf8_validate_go str fuel (p.drop 1) (some (out ++ [FILTER_CHAR]))
        | none => some CPtr.NULL

/-- The C function `utf8_validate(str, output)`. -/
def utf8_validate (str : List Nat) (output : Option (List Nat)) : Option CPtr :=
  utf8_validate_go str (str.length + 1) str output

/-- The C function `utf8_is_valid(str)`. -/
def utf8_is_valid (str : List Nat) : Option CPtr :=
  utf8_validate str none

/-- The C function `utf8_filter(str)`, the allocation having succeeded. -/
def utf8_filter (str : List Nat) : Option CPtr :=
  utf8_validate str (some [])

/-! ## Single character helpers (lines 321-424) -/

/-- The C function `utf8_encoded_expected_len(str)`. -/
def utf8_encoded_expected_len (str : List Nat) : Int :=
  let c := rd str 0
  if c < 0x80 then 1
  else if c &&& 0xe0 = 0xc0 then 2
  else if c &&& 0xf0 = 0xe0 then 3
  else if c &&& 0xf8 = 0xf0 then 4
  else if c &&& 0xfc = 0xf8 then 5
  else if c &&& 0xfe = 0xfc then 6
  else 0

/-- The loop `for (i = 1; i < len; i++)` of `utf8_encoded_to_unichar` with `n`
iterations left.  `unichar` stays in `[0, 2^31)`, so it is kept as a `Nat`. -/
def utf8_encoded_to_unichar_loop (str : List Nat) : Nat → Nat → Nat → Int
  | 0, _, unichar => (unichar : Int)
  | n + 1, i, unichar =>
    if rd str i &&& 0xc0 ≠ 0x80 then -1
    else utf8_encoded_to_unichar_loop str n (i + 1) ((unichar <<< 6) ||| (rd str i &&& 0x3f))

/-- The C function `utf8_encoded_to_unichar(str)`. -/
def utf8_encoded_to_unichar (str : List Nat) : Int :=
  let len := utf8_encoded_expected_len str
  if len = 1 then (rd str 0 : Int)
  else if len = 2 then utf8_encoded_to_unichar_loop str 1 1 (rd str 0 &&& 0x1f)
  else if len = 3 then utf8_encoded_to_unichar_loop str 2 1 (rd str 0 &&& 0x0f)
  else if len = 4 then utf8_encoded_to_unichar_loop str 3 1 (rd str 0 &&& 0x07)
  else if len = 5 then utf8_encoded_to_unichar_loop str 4 1 (rd str 0 &&& 0x03)
  else if len = 6 then utf8_encoded_to_unichar_loop str 5 1 (rd str 0 &&& 0x01)
  else -1

/-- The C function `utf8_unichar_to_encoded_len(unichar)`. -/
def utf8_unichar_to_encoded_len (unichar : Int) : Int :=
  if unichar < 0x80 then 1
  else if unichar < 0x800 then 2
  else if unichar < 0x10000 then 3
  else if unichar < 0x200000 then 4
  else if unichar < 0x4000000 then 5
  else 6

/-- The loop `for (i = 0; i < len; i++)` of `utf8_encoded_valid_unichar` with
`n` iterations left: `false` when it returns `-1`. -/
def utf8_encoded_check_loop (str : List Nat) : Nat → Nat → Bool
  | 0, _ => true
  | n + 1, i =>
    if rd str i &&& 0x80 ≠ 0x80 then false
    else utf8_encoded_check_loop str n (i + 1)

/-- The C function `utf8_encoded_valid_unichar(str)`. -/
def utf8_encoded_valid_unichar (str : List Nat) : Int :=
  let len := utf8_encoded_expected_len str
  if len = 0 then -1
  else if len = 1 then 1
  else if !utf8_encoded_check_loop str len.toNat 0 then -1
  else
    let unichar := utf8_encoded_to_unichar str
    if utf8_unichar_to_encoded_len unichar ≠ len then -1
    else if !is_unicode_valid (unichar % 4294967296).toNat then -1
    else len

/-! ## `udev_encode_string` (lines 426-470) -/

/-- The C library call `strchr(s, c) != NULL`: the terminator matches too. -/
def strchr (s : List Nat) (c : Nat) : Bool :=
  decide (c ∈ s) || decide (c = 0)

/-- The C function `is_utf8_encoding_whitelisted(c, white)`; `c` is given by its
unsigned value, which is above every range below when the plain `char` is
negative. -/
def is_utf8_encoding_whitelisted (c : Nat) (white : Option (List Nat)) : Int :=
  if (decide (48 ≤ c) && decide (c ≤ 57)) ||
     (decide (65 ≤ c) && decide (c ≤ 90)) ||
     (decide (97 ≤ c) && decide (c ≤ 122)) ||
     strchr [35, 43, 45, 46, 58, 61, 64, 95] c ||
     (match white with
      | none => false
      | some w => strchr w c)
  then 1 else 0

/-- One digit of the `%02x` conversion. -/
def hexdigit (n : Nat) : Nat := if n < 10 then 48 + n else 87 + n

/-- Stores of `memcpy(&str_enc[j], src, |src|)` as (index, byte) pairs. -/
def memcpy_writes (j : Nat) : List Nat → List (Nat × Nat)
  | [] => []
  | b :: bs => (j, b) :: memcpy_writes (j + 1) bs

/-- Stores of `sprintf(&str_enc[j], "\\x%02x", c)`: four characters and the
terminating NUL that `sprintf` appends. -/
def sprintf_writes (j c : Nat) : List (Nat × Nat) :=
  [(j, 92), (j + 1, 120), (j + 2, hexdigit (c / 16)), (j + 3, hexdigit (c % 16)), (j + 4, 0)]

/-- The `for` loop and the tail of `udev_encode_string(str, str_enc, len)`, at
`&str[i] = s` with the stores into `str_enc` made so far in `w`.  The result is
the returned `int` and all stores, in program order. -/
def udev_encode_string_go (len : Nat) :
    Nat → List Nat → Nat → List (Nat × Nat) → Option (Int × List (Nat × Nat))
  | 0, _, _, _ => none
  | fuel + 1, s, j, w =>
    if rd s 0 = 0 then
      if size_sub len j < 1 then some (-1, w)
      else some (0, w ++ [(j, 0)])
    else
      let seqlen := utf8_encoded_valid_unichar s
      if seqlen > 1 then
        if size_sub len j < seqlen.toNat then some (-1, w)
        else
          udev_encode_string_go len fuel (s.drop seqlen.toNat) (j + seqlen.toNat)
            (w ++ memcpy_writes j (s.take seqlen.toNat))
      else if rd s 0 = 92 ∨ is_utf8_encoding_whitelisted (rd s 0) none = 0 then
        if size_sub len j < 4 then some (-1, w)
        else udev_encode_string_go len fuel (s.drop 1) (j + 4) (w ++ sprintf_writes j (rd s 0))
      else
        if size_sub len j < 1 then some (-1, w)
        else udev_encode_string_go len fuel (s.drop 1) (j + 1) (w ++ [(j, rd s 0)])

/-- The C function `udev_encode_string(str, str_enc, len)` for non-null `str`
and `str_enc`. -/
def udev_encode_string (str : List Nat) (len : Nat) : Option (Int × List (Nat × Nat)) :=
  udev_encode_string_go len (str.length + 1) str 0 []

/-- Contents of the output buffer after the stores `w`, starting from `init`. -/
def apply_writes (init : Nat → Nat) (w : List (Nat × Nat)) : Nat → Nat :=
  w.foldl (fun m a => Function.update m a.1 a.2) init

/-! ## Reference definitions used in the statements -/

/-- UTF-8 encoding of `v` in exactly `utf8_unichar_to_encoded_len v` bytes: the
leader pattern of that length followed by continuation bytes that carry six
bits each, most significant first. -/
def utf8_enc (v : Nat) : List Nat :=
  let n := utf8_unichar_to_encoded_len (v : Int)
  if n = 1 then [v]
  else if n = 2 then [0xC0 + v / 64, 0x80 + v % 64]
  else if n = 3 then [0xE0 + v / 4096, 0x80 + v / 64 % 64, 0x80 + v % 64]
  else if n = 4 then
    [0xF0 + v / 262144, 0x80 + v / 4096 % 64, 0x80 + v / 64 % 64, 0x80 + v % 64]
  else if n = 5 then
    [0xF8 + v / 16777216, 0x80 + v / 262144 % 64, 0x80 + v / 4096 % 64,
      0x80 + v / 64 % 64, 0x80 + v % 64]
  else
    [0xFC + v / 1073741824, 0x80 + v / 16777216 % 64, 0x80 + v / 262144 % 64,
      0x80 + v / 4096 % 64, 0x80 + v / 64 % 64, 0x80 + v % 64]

/-- A multi-byte character: the minimal 2-, 3- or 4-byte UTF-8 encoding of a
scalar that `is_unicode_valid` accepts. -/
def IsMultibyteChar (u : List Nat) : Prop :=
  ∃ v : Nat, (utf8_unichar_to_encoded_len (v : Int) = 2 ∨
      utf8_unichar_to_encoded_len (v : Int) = 3 ∨
      utf8_unichar_to_encoded_len (v : Int) = 4) ∧
    is_unicode_valid v = true ∧ u = utf8_enc v

/-- A unit of valid text: one byte below `0x80`, or a multi-byte character. -/
def IsValidUnit (u : List Nat) : Prop :=
  (∃ b : Nat, b < 0x80 ∧ u = [b]) ∨ IsMultibyteChar u

/-- Arithmetic reading of a well-formed, minimal multi-byte character of `n`
bytes at the start of `p`, with a scalar that `is_unicode_valid` accepts. -/
def CharAt (p : List Nat) (n : Nat) : Prop :=
  (n = 2 ∧ 194 ≤ rd p 0 ∧ rd p 0 < 224 ∧ (128 ≤ rd p 1 ∧ rd p 1 < 192)) ∨
  (n = 3 ∧ 224 ≤ rd p 0 ∧ rd p 0 < 240 ∧ (128 ≤ rd p 1 ∧ rd p 1 < 192) ∧
    (128 ≤ rd p 2 ∧ rd p 2 < 192) ∧
    2048 ≤ (rd p 0 % 16 * 64 + rd p 1 % 64) * 64 + rd p 2 % 64 ∧
    is_unicode_valid ((rd p 0 % 16 * 64 + rd p 1 % 64) * 64 + rd p 2 % 64) = true) ∨
  (n = 4 ∧ 240 ≤ rd p 0 ∧ rd p 0 < 248 ∧ (128 ≤ rd p 1 ∧ rd p 1 < 192) ∧
    (128 ≤ rd p 2 ∧ rd p 2 < 192) ∧ (128 ≤ rd p 3 ∧ rd p 3 < 192) ∧
    65536 ≤ ((rd p 0 % 8 * 64 + rd p 1 % 64) * 64 + rd p 2 % 64) * 64 + rd p 3 % 64 ∧
    is_unicode_valid
      (((rd p 0 % 8 * 64 + rd p 1 % 64) * 64 + rd p 2 % 64) * 64 + rd p 3 % 64) = true)

instance instDecidableCharAt (p : List Nat) (n : Nat) : Decidable (CharAt p n) := by
  unfold CharAt
  infer_instance

/-- The string that `utf8_filter str` returns (empty when it returns none). -/
def utf8_filter_bytes (str : List Nat) : List Nat :=
  match utf8_filter str with
  | some (CPtr.ptr r) => r
  | _ => []

/-- Text made of valid units only. -/
def IsValidText (s : List Nat) : Prop :=
  ∃ us : List (List Nat), (∀ u ∈ us, IsValidUnit u) ∧ s = us.flatten

/-- Membership in the alphabet `[0-9A-Za-z#+-.:=@_]` of the escaped encoding. -/
def in_udev_alphabet (c : Nat) : Bool :=
  (decide (48 ≤ c) && decide (c ≤ 57)) || (decide (65 ≤ c) && decide (c ≤ 90)) ||
    (decide (97 ≤ c) && decide (c ≤ 122)) ||
    decide (c = 35 ∨ c = 43 ∨ c = 45 ∨ c = 46 ∨ c = 58 ∨ c = 61 ∨ c = 64 ∨ c = 95)

/-- The scan that defines `E`: at each position, a character for which
`utf8_encoded_valid_unichar` returns `n > 1` is kept verbatim and `n` bytes are
skipped; otherwise a backslash or a byte outside the alphabet becomes the four
bytes `\xHH` (lowercase hexadecimal), and any other byte is kept. -/
def udev_escape_go : Nat → List Nat → List Nat
  | 0, _ => []
  | fuel + 1, s =>
    if rd s 0 = 0 then []
    else if utf8_encoded_valid_unichar s > 1 then
      s.take (utf8_encoded_valid_unichar s).toNat ++
        udev_escape_go fuel (s.drop (utf8_encoded_valid_unichar s).toNat)
    else if rd s 0 = 92 ∨ in_udev_alphabet (rd s 0) = false then
      [92, 120, hexdigit (rd s 0 / 16), hexdigit (rd s 0 % 16)] ++ udev_escape_go fuel (s.drop 1)
    else rd s 0 :: udev_escape_go fuel (s.drop 1)

/-- The encoding `E(s)` of a NUL-terminated string `s`; every step of the scan
consumes at least one byte, so `s.length` steps reach the end. -/
def udev_escape (s : List Nat) : List Nat := udev_escape_go s.length s

/-- Value of a lowercase hexadecimal digit. -/
def unhex (c : Nat) : Option Nat :=
  if 48 ≤ c ∧ c ≤ 57 then some (c - 48)
  else if 97 ≤ c ∧ c ≤ 102 then some (c - 87)
  else none

/-- The scan of the companion decoder; `skip` counts the bytes of an escape
group that remain to be passed over. -/
def udev_decode_go : Nat → List Nat → List Nat
  | _, [] => []
  | skip + 1, _ :: rest => udev_decode_go skip rest
  | 0, c :: rest =>
    if c = 92 ∧ rd rest 0 = 120 ∧ (unhex (rd rest 1)).isSome ∧ (unhex (rd rest 2)).isSome then
      (16 * (unhex (rd rest 1)).getD 0 + (unhex (rd rest 2)).getD 0) :: udev_decode_go 3 rest
    else c :: udev_decode_go 0 rest

/-- The companion decoder: every group `\xHH` becomes the byte `0xHH`, every
other byte is kept. -/
def udev_decode (s : List Nat) : List Nat := udev_decode_go 0 s

/-- The NUL-terminated string found in memory `m` from index `i` on, looking at
no more than `cap` bytes. -/
def read_cstr (m : Nat → Nat) : Nat → Nat → List Nat
  | 0, _ => []
  | cap + 1, i => if m i = 0 then [] else m i :: read_cstr m cap (i + 1)

/-! ## ASCII helpers (lines 252-283) -/

/-- The loop of `ascii_is_valid(str)` with `p` at the given suffix. -/
def ascii_is_valid_go (str : List Nat) : List Nat → CPtr
  | [] => CPtr.ptr str
  | c :: rest =>
    if c = 0 then CPtr.ptr str
    else if c ≥ 128 then CPtr.NULL
    else ascii_is_valid_go str rest

/-- The C function `ascii_is_valid(str)`. -/
def ascii_is_valid (str : List Nat) : CPtr := ascii_is_valid_go str str

/-- The loop of `ascii_filter(str)` with `s` at the given suffix and the bytes
stored through `d` so far. -/
def ascii_filter_go : List Nat → List Nat → List Nat
  | [], d => d
  | c :: rest, d =>
    if c = 0 then d
    else if c < 128 then ascii_filter_go rest (d ++ [c])
    else ascii_filter_go rest d

/-- The C function `ascii_filter(str)`, the allocation having succeeded: the
string in `r` once `*d = 0` is stored. -/
def ascii_filter (str : List Nat) : CPtr := CPtr.ptr (ascii_filter_go str [])

/-! ## `utf16_to_utf8` (lines 285-319)

The macro `new` is not part of this file; `new(char, n)` is taken to allocate
`n` bytes.  The result lists the bytes stored through `t`, the final NUL
included, and the indexes of `s` that were read. -/

/-- The argument of `new(char, ...)`, computed in `size_t`. -/
def utf16_alloc_size (length : Nat) : Nat :=
  ((length * 3 + 1) % 18446744073709551616 / 2 + 1) % 18446744073709551616

/-- The `for` loop of `utf16_to_utf8(s, length)`: `f` is at index `pos`, `p` is
the memory from there on, `t` holds the bytes stored so far. -/
def utf16_to_utf8_go (length : Nat) :
    Nat → Nat → List Nat → List Nat → List Nat → Option (List Nat × List Nat)
  | 0, _, _, _, _ => none
  | fuel + 1, pos, p, t, reads =>
    if pos < length then
      let c := ((rd p 1 <<< 8) ||| rd p 0) % 65536
      let reads1 := reads ++ [pos + 1, pos]
      if c = 0 then some (t ++ [0], reads1)
      else if c < 0x80 then
        utf16_to_utf8_go length fuel (pos + 2) (p.drop 2) (t ++ [c % 256]) reads1
      else if c < 0x800 then
        utf16_to_utf8_go length fuel (pos + 2) (p.drop 2)
          (t ++ [(0xc0 ||| (c >>> 6)) % 256, (0x80 ||| (c &&& 0x3f)) % 256]) reads1
      else
        utf16_to_utf8_go length fuel (pos + 2) (p.drop 2)
          (t ++ [(0xe0 ||| (c >>> 12)) % 256, (0x80 ||| ((c >>> 6) &&& 0x3f)) % 256,
            (0x80 ||| (c &&& 0x3f)) % 256]) reads1
    else some (t ++ [0], reads)

/-- The C function `utf16_to_utf8(s, length)`, the allocation having succeeded.
The loop runs at most `(length + 1) / 2` times. -/
def utf16_to_utf8 (s : List Nat) (length : Nat) : Option (List Nat × List Nat) :=
  utf16_to_utf8_go length ((length + 1) / 2 + 1) 0 s [] []

/-! ## Reference definitions for the later statements -/

/-- A well-formed 2-, 3- or 4-byte sequence whose scalar fits in fewer bytes. -/
def IsOverlong (o : List Nat) : Prop :=
  (∃ c0 c1 : Nat, o = [c0, c1] ∧ 192 ≤ c0 ∧ c0 < 224 ∧ (128 ≤ c1 ∧ c1 < 192) ∧
    c0 % 32 * 64 + c1 % 64 < 0x80) ∨
  (∃ c0 c1 c2 : Nat, o = [c0, c1, c2] ∧ 224 ≤ c0 ∧ c0 < 240 ∧ (128 ≤ c1 ∧ c1 < 192) ∧
    (128 ≤ c2 ∧ c2 < 192) ∧ (c0 % 16 * 64 + c1 % 64) * 64 + c2 % 64 < 0x800) ∨
  (∃ c0 c1 c2 c3 : Nat, o = [c0, c1, c2, c3] ∧ 240 ≤ c0 ∧ c0 < 248 ∧ (128 ≤ c1 ∧ c1 < 192) ∧
    (128 ≤ c2 ∧ c2 < 192) ∧ (128 ≤ c3 ∧ c3 < 192) ∧
    ((c0 % 8 * 64 + c1 % 64) * 64 + c2 % 64) * 64 + c3 % 64 < 0x10000)

/-- A byte that is a control character on its own: `0x00..0x1F` other than tab
and newline, or `0x7F`. -/
def is_control_byte (b : Nat) : Bool :=
  (decide (b < 0x20) && decide (b ≠ 0x09) && decide (b ≠ 0x0A)) || decide (b = 0x7F)

/-- The walk over `p` that calls `utf8_encoded_valid_unichar` at the current
position and advances by the returned length: `true` when it reaches the
terminating NUL, `false` when a call returns -1. -/
def unichar_walk : Nat → List Nat → Option Bool
  | 0, _ => none
  | fuel + 1, p =>
    if rd p 0 = 0 then some true
    else if utf8_encoded_valid_unichar p = -1 then some false
    else unichar_walk fuel (p.drop (utf8_encoded_valid_unichar p).toNat)

/-- The 16-bit units of a little-endian byte buffer of even length. -/
def utf16_units : List Nat → List Nat
  | b0 :: b1 :: rest => (b0 + 256 * b1) :: utf16_units rest
  | _ => []

/-- The units that precede the first zero unit (all of them if there is none). -/
def units_before_zero : List Nat → List Nat
  | [] => []
  | c :: rest => if c = 0 then [] else c :: units_before_zero rest

/-- The encoding of one 16-bit unit on its own, in 1, 2 or 3 bytes. -/
def utf16_unit_enc (c : Nat) : List Nat :=
  if c < 0x80 then [c]
  else if c < 0x800 then [0xC0 ||| (c >>> 6), 0x80 ||| (c &&& 0x3F)]
  else [0xE0 ||| (c >>> 12), 0x80 ||| ((c >>> 6) &&& 0x3F), 0x80 ||| (c &&& 0x3F)]

/-! ## Bit masks as arithmetic -/

set_option maxRecDepth 100000 in
theorem byte_masks : ∀ b < 256,
    ((b &&& 0xe0 = 0xc0) ↔ (192 ≤ b ∧ b < 224)) ∧
    ((b &&& 0xf0 = 0xe0) ↔ (224 ≤ b ∧ b < 240)) ∧
    ((b &&& 0xf8 = 0xf0) ↔ (240 ≤ b ∧ b < 248)) ∧
    ((b &&& 0xfc = 0xf8) ↔ (248 ≤ b ∧ b < 252)) ∧
    ((b &&& 0xfe = 0xfc) ↔ (252 ≤ b ∧ b < 254)) ∧
    ((b &&& 0xc0 = 0x80) ↔ (128 ≤ b ∧ b < 192)) ∧
    ((b &&& 0x80 = 0x80) ↔ 128 ≤ b) ∧
    (b &&& 0x1e = b % 32 - b % 2) := by decide

theorem and_3f (b : Nat) : b &&& 0x3f = b % 64 := Nat.and_pow_two_sub_one_eq_mod b 6
theorem and_1f (b : Nat) : b &&& 0x1f = b % 32 := Nat.and_pow_two_sub_one_eq_mod b 5
theorem and_0f (b : Nat) : b &&& 0x0f = b % 16 := Nat.and_pow_two_sub_one_eq_mod b 4
theorem and_07 (b : Nat) : b &&& 0x07 = b % 8 := Nat.and_pow_two_sub_one_eq_mod b 3
theorem and_03 (b : Nat) : b &&& 0x03 = b % 4 := Nat.and_pow_two_sub_one_eq_mod b 2
theorem and_01 (b : Nat) : b &&& 0x01 = b % 2 := Nat.and_pow_two_sub_one_eq_mod b 1

theorem shl6_or (x b : Nat) : (x <<< 6) ||| (b &&& 0x3f) = x * 64 + b % 64 := by
  rw [and_3f, Nat.shiftLeft_eq]
  have h := Nat.mul_add_lt_is_or (i := 6) (b := b % 64) (by omega) x
  rw [show x * 2 ^ 6 = 2 ^ 6 * x by ring, ← h]
  omega

theorem merge_eq (val c : Nat) (h : val < 67108864) :
    merge_continuation_char val c = val * 64 + c % 64 := by
  unfold merge_continuation_char
  have h1 : (val <<< 6) % 4294967296 = val <<< 6 := by
    rw [Nat.shiftLeft_eq]; omega
  rw [h1, shl6_or]

theorem is_continuation_char_iff (c : Nat) (h : c < 256) :
    is_continuation_char c = true ↔ (128 ≤ c ∧ c < 192) := by
  have := (byte_masks c h).2.2.2.2.2.1
  unfold is_continuation_char
  by_cases hc : c &&& 0xc0 = 0x80
  · simp [hc]; exact this.mp hc
  · simp [hc]; intro h1; by_contra h2; exact hc (this.mpr ⟨h1, by omega⟩)

theorem is_unicode_valid_small (v : Nat) (h : v < 0x800) : is_unicode_valid v = true := by
  have h1 : v &&& 0xFFFFF800 ≤ v := Nat.and_le_left
  have h2 : v &&& 0xFFFE ≤ v := Nat.and_le_left
  unfold is_unicode_valid
  have a1 : ¬ (v ≥ 0x110000) := by omega
  have a2 : ¬ (v &&& 0xFFFFF800 = 0xD800) := by omega
  have a3 : ¬ (v ≥ 0xFDD0 ∧ v ≤ 0xFDEF) := by omega
  have a4 : ¬ (v &&& 0xFFFE = 0xFFFE) := by omega
  simp only [a1, a2, a3, a4, if_false]

theorem is_unicode_valid_lt (v : Nat) (h : is_unicode_valid v = true) : v < 0x110000 := by
  unfold is_unicode_valid at h
  by_contra hc
  have : v ≥ 0x110000 := by omega
  simp [this] at h

theorem rd_lt (p : List Nat) (hp : IsBytes p) (k : Nat) : rd p k < 256 := by
  unfold rd
  rw [List.getD_eq_getElem?_getD]
  cases h : p[k]? with
  | none => simp
  | some b =>
    simp
    exact hp b (List.getElem?_mem h)

theorem unichar_len_nat (v : Nat) :
    utf8_unichar_to_encoded_len (v : Int) =
      if v < 0x80 then 1 else if v < 0x800 then 2 else if v < 0x10000 then 3
      else if v < 0x200000 then 4 else if v < 0x4000000 then 5 else 6 := by
  unfold utf8_unichar_to_encoded_len
  simp only [Nat.cast_lt_ofNat]

/-! ## Shape of a string from its reads -/

theorem rd_nil (k : Nat) : rd [] k = 0 := by simp [rd]
theorem rd_cons_zero (b : Nat) (t : List Nat) : rd (b :: t) 0 = b := by simp [rd]
theorem rd_cons_succ (b : Nat) (t : List Nat) (k : Nat) : rd (b :: t) (k + 1) = rd t k := by
  simp [rd]

theorem shape1 (p : List Nat) (h0 : rd p 0 ≠ 0) : p = rd p 0 :: p.drop 1 := by
  cases p with
  | nil => simp [rd] at h0
  | cons b t => simp [rd]

theorem shape2 (p : List Nat) (h0 : rd p 0 ≠ 0) (h1 : rd p 1 ≠ 0) :
    p = rd p 0 :: rd p 1 :: p.drop 2 := by
  rcases p with _ | ⟨b0, _ | ⟨b1, t⟩⟩ <;> simp_all [rd]

theorem shape3 (p : List Nat) (h0 : rd p 0 ≠ 0) (h1 : rd p 1 ≠ 0) (h2 : rd p 2 ≠ 0) :
    p = rd p 0 :: rd p 1 :: rd p 2 :: p.drop 3 := by
  rcases p with _ | ⟨b0, _ | ⟨b1, _ | ⟨b2, t⟩⟩⟩ <;> simp_all [rd]

theorem shape4 (p : List Nat) (h0 : rd p 0 ≠ 0) (h1 : rd p 1 ≠ 0) (h2 : rd p 2 ≠ 0)
    (h3 : rd p 3 ≠ 0) : p = rd p 0 :: rd p 1 :: rd p 2 :: rd p 3 :: p.drop 4 := by
  rcases p with _ | ⟨b0, _ | ⟨b1, _ | ⟨b2, _ | ⟨b3, t⟩⟩⟩⟩ <;> simp_all [rd]

/-! ## One character of `utf8_validate` -/

theorem validate_one_remaining_iff (min val : Nat) (last : List Nat) (k w : Nat)
    (hl : rd last (k + 1) < 256) (hv : val < 67108864) :
    validate_one_remaining min val last k = some w ↔
      (128 ≤ rd last (k + 1) ∧ rd last (k + 1) < 192) ∧
      w = val * 64 + rd last (k + 1) % 64 ∧ min ≤ w ∧ is_unicode_valid w = true := by
  have c := is_continuation_char_iff _ hl
  unfold validate_one_remaining
  simp only [merge_eq val _ hv]
  by_cases hc : is_continuation_char (rd last (k + 1)) = true
  · have hc2 := c.mp hc
    simp only [hc, Bool.not_true, Bool.false_eq_true, if_false]
    by_cases hm : val * 64 + rd last (k + 1) % 64 < min
    · simp only [hm, if_true]
      constructor
      · intro h; cases h
      · rintro ⟨_, rfl, h3, _⟩; omega
    · simp only [hm, if_false]
      by_cases hu : is_unicode_valid (val * 64 + rd last (k + 1) % 64) = true
      · simp only [hu, Bool.not_true, Bool.false_eq_true, if_false, Option.some.injEq]
        constructor
        · rintro rfl; exact ⟨hc2, rfl, by omega, hu⟩
        · rintro ⟨_, rfl, _, _⟩; rfl
      · simp only [Bool.not_eq_true] at hu
        simp only [hu, Bool.not_false, if_true]
        constructor
        · intro h; cases h
        · rintro ⟨_, rfl, _, h4⟩; rw [hu] at h4; cases h4
  · have hc3 : is_continuation_char (rd last (k + 1)) = false := by
      simpa using hc
    simp only [hc3, Bool.not_false, if_true]
    constructor
    · intro h; cases h
    · rintro ⟨h1, _⟩; exact absurd (c.mpr h1) hc

theorem validate_two_remaining_iff (min val : Nat) (last : List Nat) (k w : Nat)
    (hl1 : rd last (k + 1) < 256) (hl2 : rd last (k + 2) < 256) (hv : val < 1048576) :
    validate_two_remaining min val last k = some w ↔
      (128 ≤ rd last (k + 1) ∧ rd last (k + 1) < 192) ∧
      (128 ≤ rd last (k + 2) ∧ rd last (k + 2) < 192) ∧
      w = (val * 64 + rd last (k + 1) % 64) * 64 + rd last (k + 2) % 64 ∧
      min ≤ w ∧ is_unicode_valid w = true := by
  have c := is_continuation_char_iff _ hl1
  unfold validate_two_remaining
  simp only [merge_eq val _ (by omega : val < 67108864)]
  by_cases hc : is_continuation_char (rd last (k + 1)) = true
  · simp only [hc, Bool.not_true, Bool.false_eq_true, if_false]
    rw [validate_one_remaining_iff _ _ _ _ _ hl2 (by omega)]
    have := c.mp hc
    constructor
    · rintro ⟨h1, h2, h3, h4⟩; exact ⟨this, h1, h2, h3, h4⟩
    · rintro ⟨_, h1, h2, h3, h4⟩; exact ⟨h1, h2, h3, h4⟩
  · have hc3 : is_continuation_char (rd last (k + 1)) = false := by
      simpa using hc
    simp only [hc3, Bool.not_false, if_true]
    constructor
    · intro h; cases h
    · rintro ⟨h1, _⟩; exact absurd (c.mpr h1) hc

theorem validate_seq_iff (p : List Nat) (hp : IsBytes p) (n : Nat) :
    utf8_validate_seq p = some n ↔ CharAt p n := by
  have l0 := rd_lt p hp 0
  have l1 := rd_lt p hp 1
  have l2 := rd_lt p hp 2
  have l3 := rd_lt p hp 3
  obtain ⟨m0a, m0b, m0c, -, -, -, -, m0e⟩ := byte_masks _ l0
  have c1 := is_continuation_char_iff _ l1
  unfold utf8_validate_seq CharAt
  have e11 : (1 <<< 11 : Nat) = 2048 := rfl
  have e16 : (1 <<< 16 : Nat) = 65536 := rfl
  simp only [m0a, m0b, m0c, m0e, and_0f, and_07, e11, e16]
  by_cases hA : 192 ≤ rd p 0 ∧ rd p 0 < 224
  · rw [if_pos hA, Option.map_eq_some']
    constructor
    · rintro ⟨w, hw, rfl⟩
      rw [validate_one_remaining_iff _ _ _ _ _ l1 (by omega)] at hw
      left
      refine ⟨rfl, ?_, hA.2, hw.1⟩
      omega
    · rintro (⟨rfl, h1, h2, h3⟩ | ⟨rfl, h⟩ | ⟨rfl, h⟩)
      · refine ⟨_, (validate_one_remaining_iff _ _ _ _ _ l1 (by omega)).mpr
          ⟨h3, rfl, ?_, ?_⟩, rfl⟩
        · omega
        · apply is_unicode_valid_small; omega
      · omega
      · omega
  · rw [if_neg hA]
    by_cases hB : 224 ≤ rd p 0 ∧ rd p 0 < 240
    · rw [if_pos hB, Option.map_eq_some']
      constructor
      · rintro ⟨w, hw, rfl⟩
        rw [validate_two_remaining_iff _ _ _ _ _ l1 l2 (by omega)] at hw
        obtain ⟨h1, h2, rfl, h4, h5⟩ := hw
        right; left
        exact ⟨rfl, hB.1, hB.2, h1, h2, h4, h5⟩
      · rintro (⟨rfl, h⟩ | ⟨rfl, _, _, h1, h2, h4, h5⟩ | ⟨rfl, h⟩)
        · omega
        · exact ⟨_, (validate_two_remaining_iff _ _ _ _ _ l1 l2 (by omega)).mpr
            ⟨h1, h2, rfl, h4, h5⟩, rfl⟩
        · omega
    · rw [if_neg hB]
      by_cases hC : 240 ≤ rd p 0 ∧ rd p 0 < 248
      · rw [if_pos hC]
        by_cases hc : is_continuation_char (rd p 1) = true
        · have hc1 := c1.mp hc
          simp only [hc, Bool.not_true, Bool.false_eq_true, if_false]
          rw [merge_eq _ _ (by omega)]
          rw [Option.map_eq_some']
          constructor
          · rintro ⟨w, hw, rfl⟩
            rw [validate_two_remaining_iff _ _ _ _ _ l2 l3 (by omega)] at hw
            obtain ⟨h1, h2, rfl, h4, h5⟩ := hw
            right; right
            exact ⟨rfl, hC.1, hC.2, hc1, h1, h2, h4, h5⟩
          · rintro (⟨rfl, h⟩ | ⟨rfl, h⟩ | ⟨rfl, _, _, _, h1, h2, h4, h5⟩)
            · omega
            · omega
            · exact ⟨_, (validate_two_remaining_iff _ _ _ _ _ l2 l3 (by omega)).mpr
                ⟨h1, h2, rfl, h4, h5⟩, rfl⟩
        · have hc3 : is_continuation_char (rd p 1) = false := by simpa using hc
          simp only [hc3, Bool.not_false, if_true]
          constructor
          · intro h; cases h
          · rintro (⟨rfl, h⟩ | ⟨rfl, h⟩ | ⟨rfl, _, _, h1, _⟩)
            · omega
            · omega
            · exact absurd (c1.mpr h1) hc
      · rw [if_neg hC]
        constructor
        · intro h; cases h
        · rintro (⟨rfl, h⟩ | ⟨rfl, h⟩ | ⟨rfl, h⟩) <;> omega

/-! ## The reference encoding -/

theorem unichar_len_eq_1 (v : Nat) : utf8_unichar_to_encoded_len (v : Int) = 1 ↔ v < 128 := by
  rw [unichar_len_nat]; split_ifs <;> simp <;> omega

theorem unichar_len_eq_2 (v : Nat) :
    utf8_unichar_to_encoded_len (v : Int) = 2 ↔ 128 ≤ v ∧ v < 2048 := by
  rw [unichar_len_nat]; split_ifs <;> simp <;> omega

theorem unichar_len_eq_3 (v : Nat) :
    utf8_unichar_to_encoded_len (v : Int) = 3 ↔ 2048 ≤ v ∧ v < 65536 := by
  rw [unichar_len_nat]; split_ifs <;> simp <;> omega

theorem unichar_len_eq_4 (v : Nat) :
    utf8_unichar_to_encoded_len (v : Int) = 4 ↔ 65536 ≤ v ∧ v < 2097152 := by
  rw [unichar_len_nat]; split_ifs <;> simp <;> omega

theorem unichar_len_eq_5 (v : Nat) :
    utf8_unichar_to_encoded_len (v : Int) = 5 ↔ 2097152 ≤ v ∧ v < 67108864 := by
  rw [unichar_len_nat]; split_ifs <;> simp <;> omega

theorem unichar_len_eq_6 (v : Nat) :
    utf8_unichar_to_encoded_len (v : Int) = 6 ↔ 67108864 ≤ v := by
  rw [unichar_len_nat]; split_ifs <;> simp <;> omega

theorem utf8_enc_1 (v : Nat) (h : v < 128) : utf8_enc v = [v] := by
  unfold utf8_enc
  simp only [(unichar_len_eq_1 v).mpr h, if_true]

theorem utf8_enc_2 (v : Nat) (h : 128 ≤ v ∧ v < 2048) :
    utf8_enc v = [0xC0 + v / 64, 0x80 + v % 64] := by
  unfold utf8_enc
  simp [(unichar_len_eq_2 v).mpr h]

theorem utf8_enc_3 (v : Nat) (h : 2048 ≤ v ∧ v < 65536) :
    utf8_enc v = [0xE0 + v / 4096, 0x80 + v / 64 % 64, 0x80 + v % 64] := by
  unfold utf8_enc
  simp [(unichar_len_eq_3 v).mpr h]

theorem utf8_enc_4 (v : Nat) (h : 65536 ≤ v ∧ v < 2097152) :
    utf8_enc v =
      [0xF0 + v / 262144, 0x80 + v / 4096 % 64, 0x80 + v / 64 % 64, 0x80 + v % 64] := by
  unfold utf8_enc
  simp [(unichar_len_eq_4 v).mpr h]

theorem utf8_enc_5 (v : Nat) (h : 2097152 ≤ v ∧ v < 67108864) :
    utf8_enc v =
      [0xF8 + v / 16777216, 0x80 + v / 262144 % 64, 0x80 + v / 4096 % 64,
        0x80 + v / 64 % 64, 0x80 + v % 64] := by
  unfold utf8_enc
  simp [(unichar_len_eq_5 v).mpr h]

theorem utf8_enc_6 (v : Nat) (h : 67108864 ≤ v) :
    utf8_enc v =
      [0xFC + v / 1073741824, 0x80 + v / 16777216 % 64, 0x80 + v / 262144 % 64,
        0x80 + v / 4096 % 64, 0x80 + v / 64 % 64, 0x80 + v % 64] := by
  unfold utf8_enc
  simp [(unichar_len_eq_6 v).mpr h]

theorem charAt_of_enc (v : Nat) (t : List Nat) (n : Nat)
    (hn : utf8_unichar_to_encoded_len (v : Int) = (n : Int))
    (h234 : n = 2 ∨ n = 3 ∨ n = 4) (hv : is_unicode_valid v = true) :
    CharAt (utf8_enc v ++ t) n := by
  unfold CharAt
  rcases h234 with rfl | rfl | rfl
  · have h := (unichar_len_eq_2 v).mp (by simpa using hn)
    left
    rw [utf8_enc_2 v h]
    simp only [List.cons_append, List.nil_append, rd_cons_zero, rd_cons_succ]
    refine ⟨trivial, ?_, ?_, ?_⟩ <;> omega
  · have h := (unichar_len_eq_3 v).mp (by simpa using hn)
    right; left
    rw [utf8_enc_3 v h]
    simp only [List.cons_append, List.nil_append, rd_cons_zero, rd_cons_succ]
    have e : ((0xE0 + v / 4096) % 16 * 64 + (0x80 + v / 64 % 64) % 64) * 64
        + (0x80 + v % 64) % 64 = v := by omega
    rw [e]
    refine ⟨trivial, ?_, ?_, ?_, ?_, ?_, hv⟩ <;> omega
  · have h := (unichar_len_eq_4 v).mp (by simpa using hn)
    right; right
    rw [utf8_enc_4 v h]
    simp only [List.cons_append, List.nil_append, rd_cons_zero, rd_cons_succ]
    have e : (((0xF0 + v / 262144) % 8 * 64 + (0x80 + v / 4096 % 64) % 64) * 64
        + (0x80 + v / 64 % 64) % 64) * 64 + (0x80 + v % 64) % 64 = v := by omega
    rw [e]
    refine ⟨trivial, ?_, ?_, ?_, ?_, ?_, ?_, hv⟩ <;> omega

theorem enc_of_charAt (p : List Nat) (n : Nat) (h : CharAt p n) :
    ∃ v : Nat, utf8_unichar_to_encoded_len (v : Int) = (n : Int) ∧ (n = 2 ∨ n = 3 ∨ n = 4) ∧
      is_unicode_valid v = true ∧ p.take n = utf8_enc v ∧ p = utf8_enc v ++ p.drop n := by
  rcases h with ⟨rfl, h0, h0b, h1⟩ | ⟨rfl, h0, h0b, h1, h2, hm, hv⟩ |
      ⟨rfl, h0, h0b, h1, h2, h3, hm, hv⟩
  · have hs := shape2 p (by omega) (by omega)
    have hr : 128 ≤ rd p 0 % 32 * 64 + rd p 1 % 64 ∧ rd p 0 % 32 * 64 + rd p 1 % 64 < 2048 := by
      omega
    have he : utf8_enc (rd p 0 % 32 * 64 + rd p 1 % 64) = [rd p 0, rd p 1] := by
      rw [utf8_enc_2 _ hr]
      congr 1
      · omega
      · congr 1; omega
    refine ⟨rd p 0 % 32 * 64 + rd p 1 % 64, ?_, Or.inl rfl, ?_, ?_, ?_⟩
    · simpa using (unichar_len_eq_2 _).mpr hr
    · apply is_unicode_valid_small; omega
    · rw [he]; conv_lhs => rw [hs]
      simp
    · rw [he]; conv_lhs => rw [hs]
      simp
  · have hs := shape3 p (by omega) (by omega) (by omega)
    have hr : 2048 ≤ (rd p 0 % 16 * 64 + rd p 1 % 64) * 64 + rd p 2 % 64 ∧
        (rd p 0 % 16 * 64 + rd p 1 % 64) * 64 + rd p 2 % 64 < 65536 := by
      omega
    have he : utf8_enc ((rd p 0 % 16 * 64 + rd p 1 % 64) * 64 + rd p 2 % 64)
        = [rd p 0, rd p 1, rd p 2] := by
      rw [utf8_enc_3 _ hr]
      congr 1
      · omega
      · congr 1
        · omega
        · congr 1; omega
    refine ⟨_, ?_, Or.inr (Or.inl rfl), hv, ?_, ?_⟩
    · simpa using (unichar_len_eq_3 _).mpr hr
    · rw [he]; conv_lhs => rw [hs]
      simp
    · rw [he]; conv_lhs => rw [hs]
      simp
  · have hs := shape4 p (by omega) (by omega) (by omega) (by omega)
    have hr : 65536 ≤ ((rd p 0 % 8 * 64 + rd p 1 % 64) * 64 + rd p 2 % 64) * 64 + rd p 3 % 64 ∧
        ((rd p 0 % 8 * 64 + rd p 1 % 64) * 64 + rd p 2 % 64) * 64 + rd p 3 % 64 < 2097152 := by
      omega
    have he : utf8_enc (((rd p 0 % 8 * 64 + rd p 1 % 64) * 64 + rd p 2 % 64) * 64 + rd p 3 % 64)
        = [rd p 0, rd p 1, rd p 2, rd p 3] := by
      rw [utf8_enc_4 _ hr]
      congr 1
      · omega
      · congr 1
        · omega
        · congr 1
          · omega
          · congr 1; omega
    refine ⟨_, ?_, Or.inr (Or.inr rfl), hv, ?_, ?_⟩
    · simpa using (unichar_len_eq_4 _).mpr hr
    · rw [he]; conv_lhs => rw [hs]
      simp
    · rw [he]; conv_lhs => rw [hs]
      simp

/-! ## One character of `utf8_encoded_valid_unichar` -/

theorem toNat_mod_u32 (u : Nat) (h : u < 4294967296) :
    ((u : Int) % 4294967296).toNat = u := by
  omega

theorem unichar_len_neg : utf8_unichar_to_encoded_len (-1) = 1 := by decide

theorem expected_len_eq (p : List Nat) (hp : IsBytes p) :
    utf8_encoded_expected_len p =
      if rd p 0 < 128 then 1
      else if rd p 0 < 192 then 0
      else if rd p 0 < 224 then 2
      else if rd p 0 < 240 then 3
      else if rd p 0 < 248 then 4
      else if rd p 0 < 252 then 5
      else if rd p 0 < 254 then 6
      else 0 := by
  have l0 := rd_lt p hp 0
  obtain ⟨ma, mb, mc, md, me, -, -, -⟩ := byte_masks _ l0
  unfold utf8_encoded_expected_len
  simp only [ma, mb, mc, md, me]
  split_ifs <;> first | rfl | omega

theorem valid_unichar_ascii (p : List Nat) (h : rd p 0 < 128) :
    utf8_encoded_valid_unichar p = 1 := by
  unfold utf8_encoded_valid_unichar utf8_encoded_expected_len
  simp [h]

theorem to_unichar_loop_succ (p : List Nat) (hp : IsBytes p) (n i u : Nat) :
    utf8_encoded_to_unichar_loop p (n + 1) i u =
      if 128 ≤ rd p i ∧ rd p i < 192 then
        utf8_encoded_to_unichar_loop p n (i + 1) (u * 64 + rd p i % 64)
      else -1 := by
  have l := rd_lt p hp i
  obtain ⟨-, -, -, -, -, mc, -, -⟩ := byte_masks _ l
  rw [utf8_encoded_to_unichar_loop]
  simp only [shl6_or, ne_eq, mc]
  split_ifs <;> first | rfl | contradiction

theorem to_unichar_loop_zero (p : List Nat) (i u : Nat) :
    utf8_encoded_to_unichar_loop p 0 i u = (u : Int) := rfl

theorem check_loop_zero (p : List Nat) (i : Nat) : utf8_encoded_check_loop p 0 i = true := rfl

theorem check_loop_succ (p : List Nat) (hp : IsBytes p) (n i : Nat) :
    utf8_encoded_check_loop p (n + 1) i =
      if 128 ≤ rd p i then utf8_encoded_check_loop p n (i + 1) else false := by
  have l := rd_lt p hp i
  obtain ⟨-, -, -, -, -, -, mh, -⟩ := byte_masks _ l
  rw [utf8_encoded_check_loop]
  simp only [ne_eq, mh]
  split_ifs <;> first | rfl | contradiction

theorem valid_unichar_unfold (p : List Nat) (n : Int)
    (el : utf8_encoded_expected_len p = n) (h0 : n ≠ 0) (h1 : n ≠ 1) :
    utf8_encoded_valid_unichar p =
      if utf8_encoded_check_loop p n.toNat 0 = true then
        if utf8_unichar_to_encoded_len (utf8_encoded_to_unichar p) = n then
          if is_unicode_valid ((utf8_encoded_to_unichar p) % 4294967296).toNat = true then n
          else -1
        else -1
      else -1 := by
  unfold utf8_encoded_valid_unichar
  simp only [el]
  rw [if_neg h0, if_neg h1]
  split_ifs <;> simp_all

theorem to_unichar_2 (p : List Nat) (hp : IsBytes p) (el : utf8_encoded_expected_len p = 2) :
    utf8_encoded_to_unichar p =
      if 128 ≤ rd p 1 ∧ rd p 1 < 192 then ((rd p 0 % 32 * 64 + rd p 1 % 64 : Nat) : Int)
      else -1 := by
  unfold utf8_encoded_to_unichar
  simp only [el]
  rw [if_neg (by decide), if_pos trivial]
  simp only [to_unichar_loop_succ p hp, to_unichar_loop_zero, Nat.reduceAdd, and_1f]

theorem to_unichar_3 (p : List Nat) (hp : IsBytes p) (el : utf8_encoded_expected_len p = 3) :
    utf8_encoded_to_unichar p =
      if 128 ≤ rd p 1 ∧ rd p 1 < 192 then
        if 128 ≤ rd p 2 ∧ rd p 2 < 192 then
          (((rd p 0 % 16 * 64 + rd p 1 % 64) * 64 + rd p 2 % 64 : Nat) : Int)
        else -1
      else -1 := by
  unfold utf8_encoded_to_unichar
  simp only [el]
  rw [if_neg (by decide), if_neg (by decide), if_pos trivial]
  simp only [to_unichar_loop_succ p hp, to_unichar_loop_zero, Nat.reduceAdd, and_0f]

theorem to_unichar_4 (p : List Nat) (hp : IsBytes p) (el : utf8_encoded_expected_len p = 4) :
    utf8_encoded_to_unichar p =
      if 128 ≤ rd p 1 ∧ rd p 1 < 192 then
        if 128 ≤ rd p 2 ∧ rd p 2 < 192 then
          if 128 ≤ rd p 3 ∧ rd p 3 < 192 then
            ((((rd p 0 % 8 * 64 + rd p 1 % 64) * 64 + rd p 2 % 64) * 64 + rd p 3 % 64 : Nat) : Int)
          else -1
        else -1
      else -1 := by
  unfold utf8_encoded_to_unichar
  simp only [el]
  rw [if_neg (by decide), if_neg (by decide), if_neg (by decide), if_pos trivial]
  simp only [to_unichar_loop_succ p hp, to_unichar_loop_zero, Nat.reduceAdd, and_07]

theorem to_unichar_5 (p : List Nat) (hp : IsBytes p) (el : utf8_encoded_expected_len p = 5) :
    utf8_encoded_to_unichar p =
      if 128 ≤ rd p 1 ∧ rd p 1 < 192 then
        if 128 ≤ rd p 2 ∧ rd p 2 < 192 then
          if 128 ≤ rd p 3 ∧ rd p 3 < 192 then
            if 128 ≤ rd p 4 ∧ rd p 4 < 192 then
              (((((rd p 0 % 4 * 64 + rd p 1 % 64) * 64 + rd p 2 % 64) * 64 + rd p 3 % 64) * 64
                + rd p 4 % 64 : Nat) : Int)
            else -1
          else -1
        else -1
      else -1 := by
  unfold utf8_encoded_to_unichar
  simp only [el]
  rw [if_neg (by decide), if_neg (by decide), if_neg (by decide), if_neg (by decide), if_pos trivial]
  simp only [to_unichar_loop_succ p hp, to_unichar_loop_zero, Nat.reduceAdd, and_03]

theorem to_unichar_6 (p : List Nat) (hp : IsBytes p) (el : utf8_encoded_expected_len p = 6) :
    utf8_encoded_to_unichar p =
      if 128 ≤ rd p 1 ∧ rd p 1 < 192 then
        if 128 ≤ rd p 2 ∧ rd p 2 < 192 then
          if 128 ≤ rd p 3 ∧ rd p 3 < 192 then
            if 128 ≤ rd p 4 ∧ rd p 4 < 192 then
              if 128 ≤ rd p 5 ∧ rd p 5 < 192 then
                ((((((rd p 0 % 2 * 64 + rd p 1 % 64) * 64 + rd p 2 % 64) * 64 + rd p 3 % 64) * 64
                  + rd p 4 % 64) * 64 + rd p 5 % 64 : Nat) : Int)
              else -1
            else -1
          else -1
        else -1
      else -1 := by
  unfold utf8_encoded_to_unichar
  simp only [el]
  rw [if_neg (by decide), if_neg (by decide), if_neg (by decide), if_neg (by decide),
    if_neg (by decide), if_pos trivial]
  simp only [to_unichar_loop_succ p hp, to_unichar_loop_zero, Nat.reduceAdd, and_01]

theorem check_loop_true (p : List Nat) (hp : IsBytes p) :
    ∀ n i : Nat, (∀ k, k < n → 128 ≤ rd p (i + k)) → utf8_encoded_check_loop p n i = true := by
  intro n
  induction n with
  | zero => intro i _; rfl
  | succ n ih =>
    intro i h
    rw [check_loop_succ p hp, if_pos (by simpa using h 0 (by omega))]
    apply ih
    intro k hk
    have := h (k + 1) (by omega)
    rwa [show i + 1 + k = i + (k + 1) by omega]

theorem valid_unichar_2 (p : List Nat) (hp : IsBytes p) (h : 192 ≤ rd p 0 ∧ rd p 0 < 224) :
    utf8_encoded_valid_unichar p =
      if 194 ≤ rd p 0 ∧ 128 ≤ rd p 1 ∧ rd p 1 < 192 then 2 else -1 := by
  have e := expected_len_eq p hp
  have el : utf8_encoded_expected_len p = 2 := by
    rw [e]; split_ifs <;> first | rfl | omega
  rw [valid_unichar_unfold p 2 el (by decide) (by decide), to_unichar_2 p hp el]
  by_cases c1 : 128 ≤ rd p 1 ∧ rd p 1 < 192
  · have hck : utf8_encoded_check_loop p (2 : Int).toNat 0 = true := by
      apply check_loop_true p hp
      intro k hk
      have hk2 : k < 2 := hk
      obtain rfl | rfl : k = 0 ∨ k = 1 := by omega
      · simp only [Nat.add_zero]; omega
      · simp only [Nat.zero_add]; omega
    rw [if_pos hck, if_pos c1, toNat_mod_u32 _ (by omega), is_unicode_valid_small _ (by omega)]
    simp only [unichar_len_eq_2, if_true]
    split_ifs <;> first | rfl | (exfalso; omega)
  · rw [if_neg c1, unichar_len_neg, if_neg (show ¬ ((1 : Int) = 2) by decide), ite_self, if_neg (fun hh => c1 hh.2)]

theorem valid_unichar_3 (p : List Nat) (hp : IsBytes p) (h : 224 ≤ rd p 0 ∧ rd p 0 < 240) :
    utf8_encoded_valid_unichar p =
      if (128 ≤ rd p 1 ∧ rd p 1 < 192) ∧ (128 ≤ rd p 2 ∧ rd p 2 < 192) ∧
          2048 ≤ (rd p 0 % 16 * 64 + rd p 1 % 64) * 64 + rd p 2 % 64 ∧
          is_unicode_valid ((rd p 0 % 16 * 64 + rd p 1 % 64) * 64 + rd p 2 % 64) = true
      then 3 else -1 := by
  have e := expected_len_eq p hp
  have el : utf8_encoded_expected_len p = 3 := by
    rw [e]; split_ifs <;> first | rfl | omega
  rw [valid_unichar_unfold p 3 el (by decide) (by decide), to_unichar_3 p hp el]
  by_cases c1 : 128 ≤ rd p 1 ∧ rd p 1 < 192
  · by_cases c2 : 128 ≤ rd p 2 ∧ rd p 2 < 192
    · have hck : utf8_encoded_check_loop p (3 : Int).toNat 0 = true := by
        apply check_loop_true p hp
        intro k hk
        have hk2 : k < 3 := hk
        obtain rfl | rfl | rfl : k = 0 ∨ k = 1 ∨ k = 2 := by omega
        · simp only [Nat.add_zero]; omega
        · simp only [Nat.zero_add]; omega
        · simp only [Nat.zero_add]; omega
      rw [if_pos hck, if_pos c1, if_pos c2, toNat_mod_u32 _ (by omega)]
      simp only [unichar_len_eq_3]
      by_cases hm : 2048 ≤ (rd p 0 % 16 * 64 + rd p 1 % 64) * 64 + rd p 2 % 64
      · rw [if_pos ⟨hm, by omega⟩]
        by_cases hv : is_unicode_valid ((rd p 0 % 16 * 64 + rd p 1 % 64) * 64 + rd p 2 % 64) = true
        · rw [if_pos hv, if_pos ⟨c1, c2, hm, hv⟩]
        · rw [if_neg hv, if_neg (fun hh => hv hh.2.2.2)]
      · rw [if_neg (fun hh => hm hh.1), if_neg (fun hh => hm hh.2.2.1)]
    · rw [if_pos c1, if_neg c2, unichar_len_neg, if_neg (show ¬ ((1 : Int) = 3) by decide), ite_self,
        if_neg (fun hh => c2 hh.2.1)]
  · rw [if_neg c1, unichar_len_neg, if_neg (show ¬ ((1 : Int) = 3) by decide), ite_self, if_neg (fun hh => c1 hh.1)]

theorem valid_unichar_4 (p : List Nat) (hp : IsBytes p) (h : 240 ≤ rd p 0 ∧ rd p 0 < 248) :
    utf8_encoded_valid_unichar p =
      if (128 ≤ rd p 1 ∧ rd p 1 < 192) ∧ (128 ≤ rd p 2 ∧ rd p 2 < 192) ∧
          (128 ≤ rd p 3 ∧ rd p 3 < 192) ∧
          65536 ≤ ((rd p 0 % 8 * 64 + rd p 1 % 64) * 64 + rd p 2 % 64) * 64 + rd p 3 % 64 ∧
          is_unicode_valid
            (((rd p 0 % 8 * 64 + rd p 1 % 64) * 64 + rd p 2 % 64) * 64 + rd p 3 % 64) = true
      then 4 else -1 := by
  have e := expected_len_eq p hp
  have el : utf8_encoded_expected_len p = 4 := by
    rw [e]; split_ifs <;> first | rfl | omega
  rw [valid_unichar_unfold p 4 el (by decide) (by decide), to_unichar_4 p hp el]
  by_cases c1 : 128 ≤ rd p 1 ∧ rd p 1 < 192
  · by_cases c2 : 128 ≤ rd p 2 ∧ rd p 2 < 192
    · by_cases c3 : 128 ≤ rd p 3 ∧ rd p 3 < 192
      · have hck : utf8_encoded_check_loop p (4 : Int).toNat 0 = true := by
          apply check_loop_true p hp
          intro k hk
          have hk2 : k < 4 := hk
          obtain rfl | rfl | rfl | rfl : k = 0 ∨ k = 1 ∨ k = 2 ∨ k = 3 := by omega
          · simp only [Nat.add_zero]; omega
          · simp only [Nat.zero_add]; omega
          · simp only [Nat.zero_add]; omega
          · simp only [Nat.zero_add]; omega
        rw [if_pos hck, if_pos c1, if_pos c2, if_pos c3, toNat_mod_u32 _ (by omega)]
        simp only [unichar_len_eq_4]
        by_cases hm :
            65536 ≤ ((rd p 0 % 8 * 64 + rd p 1 % 64) * 64 + rd p 2 % 64) * 64 + rd p 3 % 64
        · rw [if_pos ⟨hm, by omega⟩]
          by_cases hv : is_unicode_valid
              (((rd p 0 % 8 * 64 + rd p 1 % 64) * 64 + rd p 2 % 64) * 64 + rd p 3 % 64) = true
          · rw [if_pos hv, if_pos ⟨c1, c2, c3, hm, hv⟩]
          · rw [if_neg hv, if_neg (fun hh => hv hh.2.2.2.2)]
        · rw [if_neg (fun hh => hm hh.1), if_neg (fun hh => hm hh.2.2.2.1)]
      · rw [if_pos c1, if_pos c2, if_neg c3, unichar_len_neg, if_neg (show ¬ ((1 : Int) = 4) by decide), ite_self,
          if_neg (fun hh => c3 hh.2.2.1)]
    · rw [if_pos c1, if_neg c2, unichar_len_neg, if_neg (show ¬ ((1 : Int) = 4) by decide), ite_self,
        if_neg (fun hh => c2 hh.2.1)]
  · rw [if_neg c1, unichar_len_neg, if_neg (show ¬ ((1 : Int) = 4) by decide), ite_self, if_neg (fun hh => c1 hh.1)]

theorem is_unicode_valid_big (v : Nat) (h : 0x110000 ≤ v) : is_unicode_valid v = false := by
  unfold is_unicode_valid
  rw [if_pos h]

theorem valid_unichar_0 (p : List Nat) (el : utf8_encoded_expected_len p = 0) :
    utf8_encoded_valid_unichar p = -1 := by
  unfold utf8_encoded_valid_unichar
  simp only [el]
  rfl

theorem long_form_rejected (u n : Int) (hn : n = 5 ∨ n = 6)
    (hu : u = -1 ∨ ∃ V : Nat, u = (V : Int) ∧ V < 2147483648) :
    (if utf8_unichar_to_encoded_len u = n then
      if is_unicode_valid (u % 4294967296).toNat = true then n else -1
    else -1) = -1 := by
  rcases hu with rfl | ⟨V, rfl, hV⟩
  · rw [unichar_len_neg, if_neg (by omega)]
  · by_cases hl : utf8_unichar_to_encoded_len (V : Int) = n
    · rw [if_pos hl, toNat_mod_u32 _ (by omega)]
      have hbig : 0x110000 ≤ V := by
        rcases hn with rfl | rfl
        · have := (unichar_len_eq_5 V).mp hl; omega
        · have := (unichar_len_eq_6 V).mp hl; omega
      rw [is_unicode_valid_big V hbig]
      simp
    · rw [if_neg hl]

theorem valid_unichar_5 (p : List Nat) (hp : IsBytes p) (h : 248 ≤ rd p 0 ∧ rd p 0 < 252) :
    utf8_encoded_valid_unichar p = -1 := by
  have e := expected_len_eq p hp
  have el : utf8_encoded_expected_len p = 5 := by
    rw [e]; split_ifs <;> first | rfl | omega
  rw [valid_unichar_unfold p 5 el (by decide) (by decide)]
  have l1 := rd_lt p hp 1
  rw [long_form_rejected _ 5 (Or.inl rfl), ite_self]
  rw [to_unichar_5 p hp el]
  split_ifs
  · right; exact ⟨_, rfl, by omega⟩
  all_goals left; rfl

theorem valid_unichar_6 (p : List Nat) (hp : IsBytes p) (h : 252 ≤ rd p 0 ∧ rd p 0 < 254) :
    utf8_encoded_valid_unichar p = -1 := by
  have e := expected_len_eq p hp
  have el : utf8_encoded_expected_len p = 6 := by
    rw [e]; split_ifs <;> first | rfl | omega
  rw [valid_unichar_unfold p 6 el (by decide) (by decide)]
  rw [long_form_rejected _ 6 (Or.inr rfl), ite_self]
  rw [to_unichar_6 p hp el]
  split_ifs
  · right; exact ⟨_, rfl, by omega⟩
  all_goals left; rfl

theorem charAt_2_iff (p : List Nat) :
    CharAt p 2 ↔ 194 ≤ rd p 0 ∧ 128 ≤ rd p 1 ∧ rd p 1 < 192 ∧ rd p 0 < 224 := by
  unfold CharAt
  constructor
  · rintro (⟨-, h⟩ | ⟨h, -⟩ | ⟨h, -⟩)
    · omega
    · omega
    · omega
  · intro h; left; omega

theorem charAt_3_iff (p : List Nat) :
    CharAt p 3 ↔ (224 ≤ rd p 0 ∧ rd p 0 < 240) ∧ (128 ≤ rd p 1 ∧ rd p 1 < 192) ∧
      (128 ≤ rd p 2 ∧ rd p 2 < 192) ∧
      2048 ≤ (rd p 0 % 16 * 64 + rd p 1 % 64) * 64 + rd p 2 % 64 ∧
      is_unicode_valid ((rd p 0 % 16 * 64 + rd p 1 % 64) * 64 + rd p 2 % 64) = true := by
  unfold CharAt
  constructor
  · rintro (⟨h, -⟩ | ⟨-, h1, h2, h3, h4, h5, h6⟩ | ⟨h, -⟩)
    · omega
    · exact ⟨⟨h1, h2⟩, h3, h4, h5, h6⟩
    · omega
  · rintro ⟨⟨h1, h2⟩, h3, h4, h5, h6⟩; right; left; exact ⟨rfl, h1, h2, h3, h4, h5, h6⟩

theorem charAt_4_iff (p : List Nat) :
    CharAt p 4 ↔ (240 ≤ rd p 0 ∧ rd p 0 < 248) ∧ (128 ≤ rd p 1 ∧ rd p 1 < 192) ∧
      (128 ≤ rd p 2 ∧ rd p 2 < 192) ∧ (128 ≤ rd p 3 ∧ rd p 3 < 192) ∧
      65536 ≤ ((rd p 0 % 8 * 64 + rd p 1 % 64) * 64 + rd p 2 % 64) * 64 + rd p 3 % 64 ∧
      is_unicode_valid
        (((rd p 0 % 8 * 64 + rd p 1 % 64) * 64 + rd p 2 % 64) * 64 + rd p 3 % 64) = true := by
  unfold CharAt
  constructor
  · rintro (⟨h, -⟩ | ⟨h, -⟩ | ⟨-, h1, h2, h3, h4, h5, h6, h7⟩)
    · omega
    · omega
    · exact ⟨⟨h1, h2⟩, h3, h4, h5, h6, h7⟩
  · rintro ⟨⟨h1, h2⟩, h3, h4, h5, h6, h7⟩; right; right; exact ⟨rfl, h1, h2, h3, h4, h5, h6, h7⟩

theorem charAt_len (p : List Nat) (n : Nat) (h : CharAt p n) : n = 2 ∨ n = 3 ∨ n = 4 := by
  rcases h with ⟨h, -⟩ | ⟨h, -⟩ | ⟨h, -⟩ <;> omega

theorem charAt_lead (p : List Nat) (n : Nat) (h : CharAt p n) :
    (n = 2 ∧ 192 ≤ rd p 0 ∧ rd p 0 < 224) ∨ (n = 3 ∧ 224 ≤ rd p 0 ∧ rd p 0 < 240) ∨
      (n = 4 ∧ 240 ≤ rd p 0 ∧ rd p 0 < 248) := by
  rcases h with ⟨h, h1, h2, -⟩ | ⟨h, h1, h2, -⟩ | ⟨h, h1, h2, -⟩ <;> omega

/-- Value of `utf8_encoded_valid_unichar` on every byte string. -/
theorem valid_unichar_cases (p : List Nat) (hp : IsBytes p) :
    (rd p 0 < 128 ∧ utf8_encoded_valid_unichar p = 1) ∨
    (128 ≤ rd p 0 ∧ CharAt p 2 ∧ utf8_encoded_valid_unichar p = 2) ∨
    (128 ≤ rd p 0 ∧ CharAt p 3 ∧ utf8_encoded_valid_unichar p = 3) ∨
    (128 ≤ rd p 0 ∧ CharAt p 4 ∧ utf8_encoded_valid_unichar p = 4) ∨
    (128 ≤ rd p 0 ∧ (∀ n, ¬ CharAt p n) ∧ utf8_encoded_valid_unichar p = -1) := by
  have l0 := rd_lt p hp 0
  have e := expected_len_eq p hp
  by_cases h1 : rd p 0 < 128
  · left; exact ⟨h1, valid_unichar_ascii p h1⟩
  right
  by_cases h2 : rd p 0 < 192
  · right; right; right
    refine ⟨by omega, ?_, valid_unichar_0 p (by rw [e, if_neg h1, if_pos h2])⟩
    intro n hc
    have := charAt_lead p n hc
    omega
  by_cases h3 : rd p 0 < 224
  · have hv := valid_unichar_2 p hp ⟨by omega, h3⟩
    by_cases hc : 194 ≤ rd p 0 ∧ 128 ≤ rd p 1 ∧ rd p 1 < 192
    · rw [if_pos hc] at hv
      left; exact ⟨by omega, (charAt_2_iff p).mpr (by omega), hv⟩
    · rw [if_neg hc] at hv
      right; right; right
      refine ⟨by omega, ?_, hv⟩
      intro n hn
      rcases charAt_lead p n hn with ⟨rfl, -⟩ | ⟨-, h⟩ | ⟨-, h⟩
      · exact hc (by have := (charAt_2_iff p).mp hn; omega)
      · omega
      · omega
  by_cases h4 : rd p 0 < 240
  · have hv := valid_unichar_3 p hp ⟨by omega, h4⟩
    split_ifs at hv with hc
    · right; left; exact ⟨by omega, (charAt_3_iff p).mpr ⟨⟨by omega, h4⟩, hc⟩, hv⟩
    · right; right; right
      refine ⟨by omega, ?_, hv⟩
      intro n hn
      rcases charAt_lead p n hn with ⟨-, h⟩ | ⟨rfl, -⟩ | ⟨-, h⟩
      · omega
      · exact hc ((charAt_3_iff p).mp hn).2
      · omega
  by_cases h5 : rd p 0 < 248
  · have hv := valid_unichar_4 p hp ⟨by omega, h5⟩
    split_ifs at hv with hc
    · right; right; left; exact ⟨by omega, (charAt_4_iff p).mpr ⟨⟨by omega, h5⟩, hc⟩, hv⟩
    · right; right; right
      refine ⟨by omega, ?_, hv⟩
      intro n hn
      rcases charAt_lead p n hn with ⟨-, h⟩ | ⟨-, h⟩ | ⟨rfl, -⟩
      · omega
      · omega
      · exact hc ((charAt_4_iff p).mp hn).2
  right; right; right
  have hno : ∀ n, ¬ CharAt p n := by
    intro n hn
    have := charAt_lead p n hn
    omega
  by_cases h6 : rd p 0 < 252
  · exact ⟨by omega, hno, valid_unichar_5 p hp ⟨by omega, h6⟩⟩
  by_cases h7 : rd p 0 < 254
  · exact ⟨by omega, hno, valid_unichar_6 p hp ⟨by omega, h7⟩⟩
  · refine ⟨by omega, hno, valid_unichar_0 p ?_⟩
    rw [e]; split_ifs <;> first | rfl | omega

/-! ## One iteration of `utf8_validate` -/

theorem validate_go_nul (str p : List Nat) (o : Option (List Nat)) (fuel : Nat)
    (h : rd p 0 = 0) :
    utf8_validate_go str (fuel + 1) p o = some (CPtr.ptr (o.getD str)) := by
  cases o <;> rw [utf8_validate_go, if_pos h] <;> rfl

theorem validate_go_ascii (str p : List Nat) (o : Option (List Nat)) (fuel : Nat)
    (h0 : rd p 0 ≠ 0) (h : rd p 0 < 128) :
    utf8_validate_go str (fuel + 1) p o =
      utf8_validate_go str fuel (p.drop 1) (o.map fun out => out ++ [rd p 0]) := by
  cases o <;> rw [utf8_validate_go, if_neg h0, if_pos h]

theorem validate_go_seq (str p : List Nat) (o : Option (List Nat)) (fuel n : Nat)
    (h : 128 ≤ rd p 0) (hs : utf8_validate_seq p = some n) :
    utf8_validate_go str (fuel + 1) p o =
      utf8_validate_go str fuel (p.drop n) (o.map fun out => out ++ p.take n) := by
  cases o <;> rw [utf8_validate_go, if_neg (by omega), if_neg (by omega), hs]

theorem validate_go_err_filter (str p out : List Nat) (fuel : Nat)
    (h : 128 ≤ rd p 0) (hs : utf8_validate_seq p = none) :
    utf8_validate_go str (fuel + 1) p (some out) =
      utf8_validate_go str fuel (p.drop 1) (some (out ++ [FILTER_CHAR])) := by
  rw [utf8_validate_go, if_neg (by omega), if_neg (by omega), hs]

theorem validate_go_err_null (str p : List Nat) (fuel : Nat)
    (h : 128 ≤ rd p 0) (hs : utf8_validate_seq p = none) :
    utf8_validate_go str (fuel + 1) p none = some CPtr.NULL := by
  rw [utf8_validate_go, if_neg (by omega), if_neg (by omega), hs]

theorem validate_seq_size (p : List Nat) (n : Nat) (h : utf8_validate_seq p = some n) :
    n = 2 ∨ n = 3 ∨ n = 4 := by
  unfold utf8_validate_seq at h
  simp only [] at h
  split_ifs at h
  all_goals first
    | (rw [Option.map_eq_some'] at h; obtain ⟨_, _, rfl⟩ := h; simp)
    | cases h

theorem rd_pos_length (p : List Nat) (k : Nat) (h : rd p k ≠ 0) : k < p.length := by
  by_contra hc
  apply h
  unfold rd
  rw [List.getD_eq_getElem?_getD, List.getElem?_eq_none (by omega)]
  rfl

theorem length_drop_lt (p : List Nat) (n : Nat) (hn : 0 < n) (h : rd p 0 ≠ 0) :
    (p.drop n).length < p.length := by
  have := rd_pos_length p 0 h
  rw [List.length_drop]
  omega

/-- In filter mode the loop returns the bytes stored so far followed by a
continuation that depends on the remaining input only. -/
theorem validate_go_filter (p : List Nat) :
    ∃ r : List Nat, ∀ (fuel : Nat) (str out : List Nat), p.length < fuel →
      utf8_validate_go str fuel p (some out) = some (CPtr.ptr (out ++ r)) := by
  generalize hlen : p.length = len
  induction len using Nat.strong_induction_on generalizing p with
  | _ len ih =>
    subst hlen
    by_cases h0 : rd p 0 = 0
    · refine ⟨[], ?_⟩
      intro fuel str out hf
      obtain ⟨f, rfl⟩ : ∃ f, fuel = f + 1 := ⟨fuel - 1, by omega⟩
      rw [validate_go_nul _ _ _ _ h0]
      simp
    · by_cases h1 : rd p 0 < 128
      · obtain ⟨r, hr⟩ := ih (p.drop 1).length (by
          have := length_drop_lt p 1 (by omega) h0; omega) (p.drop 1) rfl
        refine ⟨rd p 0 :: r, ?_⟩
        intro fuel str out hf
        obtain ⟨f, rfl⟩ : ∃ f, fuel = f + 1 := ⟨fuel - 1, by omega⟩
        rw [validate_go_ascii _ _ _ _ h0 h1]
        have := length_drop_lt p 1 (by omega) h0
        simp only [Option.map_some']
        rw [hr f str _ (by omega)]
        simp
      · cases hs : utf8_validate_seq p with
        | some n =>
          have hn := validate_seq_size p n hs
          have hl := length_drop_lt p n (by omega) h0
          obtain ⟨r, hr⟩ := ih (p.drop n).length (by omega) (p.drop n) rfl
          refine ⟨p.take n ++ r, ?_⟩
          intro fuel str out hf
          obtain ⟨f, rfl⟩ : ∃ f, fuel = f + 1 := ⟨fuel - 1, by omega⟩
          rw [validate_go_seq _ _ _ _ _ (by omega) hs]
          simp only [Option.map_some']
          rw [hr f str _ (by omega)]
          simp
        | none =>
          have hl := length_drop_lt p 1 (by omega) h0
          obtain ⟨r, hr⟩ := ih (p.drop 1).length (by omega) (p.drop 1) rfl
          refine ⟨FILTER_CHAR :: r, ?_⟩
          intro fuel str out hf
          obtain ⟨f, rfl⟩ : ∃ f, fuel = f + 1 := ⟨fuel - 1, by omega⟩
          rw [validate_go_err_filter _ _ _ _ (by omega) hs]
          rw [hr f str _ (by omega)]
          simp

theorem validate_go_filter_eq (p : List Nat) (fuel : Nat) (str out : List Nat)
    (hf : p.length < fuel) :
    utf8_validate_go str fuel p (some out) = some (CPtr.ptr (out ++ utf8_filter_bytes p)) := by
  obtain ⟨r, hr⟩ := validate_go_filter p
  have h1 : utf8_filter_bytes p = r := by
    unfold utf8_filter_bytes utf8_filter utf8_validate
    rw [hr _ _ _ (by omega)]
    simp
  rw [h1, hr _ _ _ hf]

theorem utf8_filter_eq (s : List Nat) : utf8_filter s = some (CPtr.ptr (utf8_filter_bytes s)) := by
  have := validate_go_filter_eq s (s.length + 1) s [] (by omega)
  simpa [utf8_filter, utf8_validate] using this

theorem filter_bytes_nul (p : List Nat) (h : rd p 0 = 0) : utf8_filter_bytes p = [] := by
  have h1 := utf8_filter_eq p
  unfold utf8_filter utf8_validate at h1
  rw [validate_go_nul _ _ _ _ h] at h1
  simpa using h1.symm

theorem filter_bytes_ascii (p : List Nat) (h0 : rd p 0 ≠ 0) (h : rd p 0 < 128) :
    utf8_filter_bytes p = rd p 0 :: utf8_filter_bytes (p.drop 1) := by
  have h1 := utf8_filter_eq p
  unfold utf8_filter utf8_validate at h1
  have hl := length_drop_lt p 1 (by omega) h0
  rw [validate_go_ascii _ _ _ _ h0 h, Option.map_some',
    validate_go_filter_eq _ _ _ _ (by omega)] at h1
  simpa using h1.symm

theorem filter_bytes_seq (p : List Nat) (n : Nat) (h : 128 ≤ rd p 0)
    (hs : utf8_validate_seq p = some n) :
    utf8_filter_bytes p = p.take n ++ utf8_filter_bytes (p.drop n) := by
  have h1 := utf8_filter_eq p
  unfold utf8_filter utf8_validate at h1
  have hn := validate_seq_size p n hs
  have hl := length_drop_lt p n (by omega) (by omega)
  rw [validate_go_seq _ _ _ _ _ h hs, Option.map_some',
    validate_go_filter_eq _ _ _ _ (by omega)] at h1
  simpa using h1.symm

theorem filter_bytes_err (p : List Nat) (h : 128 ≤ rd p 0)
    (hs : utf8_validate_seq p = none) :
    utf8_filter_bytes p = FILTER_CHAR :: utf8_filter_bytes (p.drop 1) := by
  have h1 := utf8_filter_eq p
  unfold utf8_filter utf8_validate at h1
  have hl := length_drop_lt p 1 (by omega) (by omega)
  rw [validate_go_err_filter _ _ _ _ h hs, validate_go_filter_eq _ _ _ _ (by omega)] at h1
  simpa using h1.symm

/-! ## Valid text, unit by unit -/

theorem isBytes_drop (p : List Nat) (n : Nat) (h : IsBytes p) : IsBytes (p.drop n) :=
  fun b hb => h b (List.mem_of_mem_drop hb)

theorem nulFree_drop (p : List Nat) (n : Nat) (h : NulFree p) : NulFree (p.drop n) :=
  fun b hb => h b (List.mem_of_mem_drop hb)

theorem nulFree_rd (p : List Nat) (h : NulFree p) (hp : p ≠ []) : rd p 0 ≠ 0 := by
  cases p with
  | nil => exact absurd rfl hp
  | cons b t => rw [rd_cons_zero]; exact h b (List.mem_cons_self _ _)

theorem enc_length (v n : Nat) (hn : utf8_unichar_to_encoded_len (v : Int) = (n : Int))
    (h234 : n = 2 ∨ n = 3 ∨ n = 4) : (utf8_enc v).length = n := by
  rcases h234 with rfl | rfl | rfl
  · rw [utf8_enc_2 v ((unichar_len_eq_2 v).mp (by exact_mod_cast hn))]
    simp only [List.length_cons, List.length_nil]
  · rw [utf8_enc_3 v ((unichar_len_eq_3 v).mp (by exact_mod_cast hn))]
    simp only [List.length_cons, List.length_nil]
  · rw [utf8_enc_4 v ((unichar_len_eq_4 v).mp (by exact_mod_cast hn))]
    simp only [List.length_cons, List.length_nil]

theorem multibyte_charAt (u t : List Nat) (h : IsMultibyteChar u) :
    ∃ n, CharAt (u ++ t) n ∧ u.length = n := by
  unfold IsMultibyteChar at h
  obtain ⟨v, hl, hv, hu⟩ := h
  rw [hu]
  rcases hl with hl | hl | hl
  · have h2 : utf8_unichar_to_encoded_len (v : Int) = ((2 : Nat) : Int) := by exact_mod_cast hl
    exact ⟨2, charAt_of_enc v t 2 h2 (Or.inl rfl) hv, enc_length v 2 h2 (Or.inl rfl)⟩
  · have h3 : utf8_unichar_to_encoded_len (v : Int) = ((3 : Nat) : Int) := by exact_mod_cast hl
    exact ⟨3, charAt_of_enc v t 3 h3 (Or.inr (Or.inl rfl)) hv,
      enc_length v 3 h3 (Or.inr (Or.inl rfl))⟩
  · have h4 : utf8_unichar_to_encoded_len (v : Int) = ((4 : Nat) : Int) := by exact_mod_cast hl
    exact ⟨4, charAt_of_enc v t 4 h4 (Or.inr (Or.inr rfl)) hv,
      enc_length v 4 h4 (Or.inr (Or.inr rfl))⟩

theorem charAt_multibyte (p : List Nat) (n : Nat) (h : CharAt p n) :
    IsMultibyteChar (p.take n) ∧ p = p.take n ++ p.drop n ∧ (p.take n).length = n := by
  obtain ⟨v, hl, h234, hv, ht, hp⟩ := enc_of_charAt p n h
  refine ⟨⟨v, ?_, hv, ht⟩, (List.take_append_drop n p).symm, ?_⟩
  · rcases h234 with rfl | rfl | rfl
    · left; simpa using hl
    · right; left; simpa using hl
    · right; right; simpa using hl
  · rw [ht]; exact enc_length v n hl h234

theorem charAt_unique (p : List Nat) (n m : Nat) (h1 : CharAt p n) (h2 : CharAt p m) : n = m := by
  have a := charAt_lead p n h1
  have b := charAt_lead p m h2
  omega

theorem validText_nil : IsValidText [] := ⟨[], by simp, by simp⟩

theorem validText_cons_unit (u t : List Nat) (hu : IsValidUnit u) (ht : IsValidText t) :
    IsValidText (u ++ t) := by
  obtain ⟨us, h1, rfl⟩ := ht
  refine ⟨u :: us, ?_, by simp⟩
  intro x hx
  rcases List.mem_cons.mp hx with rfl | hx
  · exact hu
  · exact h1 x hx

theorem validUnit_ne_nil (u : List Nat) (hu : IsValidUnit u) : u ≠ [] := by
  rcases hu with ⟨b, -, rfl⟩ | hm
  · simp
  · obtain ⟨n, hc, hl⟩ := multibyte_charAt u [] hm
    have := charAt_len _ _ hc
    intro h
    rw [h] at hl
    simp at hl
    omega

/-- A non-empty valid text starts with a valid unit followed by a valid text. -/
theorem validText_split (p : List Nat) (hp : p ≠ []) (h : IsValidText p) :
    ∃ u t, IsValidUnit u ∧ IsValidText t ∧ p = u ++ t := by
  obtain ⟨us, h1, rfl⟩ := h
  induction us with
  | nil => simp at hp
  | cons u us _ =>
    exact ⟨u, us.flatten, h1 u (List.mem_cons_self _ _),
      ⟨us, fun x hx => h1 x (List.mem_cons_of_mem _ hx), rfl⟩, by simp⟩

theorem validText_ascii_iff (b : Nat) (t : List Nat) (hb : b < 128) :
    IsValidText (b :: t) ↔ IsValidText t := by
  constructor
  · intro h
    obtain ⟨u, t', hu, ht', he⟩ := validText_split _ (by simp) h
    rcases hu with ⟨c, -, rfl⟩ | hm
    · simp at he
      rw [he.2]; exact ht'
    · obtain ⟨n, hc, -⟩ := multibyte_charAt u t' hm
      rw [← he] at hc
      have := charAt_lead _ _ hc
      rw [rd_cons_zero] at this
      omega
  · intro h
    exact validText_cons_unit [b] t (Or.inl ⟨b, hb, rfl⟩) h

theorem validText_multi_iff (p : List Nat) (h0 : 128 ≤ rd p 0) :
    IsValidText p ↔ ∃ n, CharAt p n ∧ IsValidText (p.drop n) := by
  constructor
  · intro h
    have hne : p ≠ [] := by
      rintro rfl
      rw [rd_nil] at h0
      omega
    obtain ⟨u, t', hu, ht', he⟩ := validText_split _ hne h
    rcases hu with ⟨c, hc, rfl⟩ | hm
    · rw [he] at h0
      simp [rd] at h0
      omega
    · obtain ⟨n, hc, hl⟩ := multibyte_charAt u t' hm
      refine ⟨n, by rw [he]; exact hc, ?_⟩
      rw [he, ← hl, List.drop_left]
      exact ht'
  · rintro ⟨n, hc, ht⟩
    obtain ⟨hm, he, -⟩ := charAt_multibyte p n hc
    rw [he]
    exact validText_cons_unit _ _ (Or.inr hm) ht

/-- In validate-only mode the loop returns `str` on valid text and `NULL` on
anything else. -/
theorem validate_go_null_mode (p : List Nat) (hb : IsBytes p) (hz : NulFree p)
    (fuel : Nat) (str : List Nat) (hf : p.length < fuel) :
    (IsValidText p ∧ utf8_validate_go str fuel p none = some (CPtr.ptr str)) ∨
    (¬ IsValidText p ∧ utf8_validate_go str fuel p none = some CPtr.NULL) := by
  generalize hlen : p.length = len
  induction len using Nat.strong_induction_on generalizing p fuel with
  | _ len ih =>
    subst hlen
    obtain ⟨f, rfl⟩ : ∃ f, fuel = f + 1 := ⟨fuel - 1, by omega⟩
    by_cases hne : p = []
    · subst hne
      left
      exact ⟨validText_nil, validate_go_nul _ _ _ _ (rd_nil 0)⟩
    · have h0 := nulFree_rd p hz hne
      by_cases h1 : rd p 0 < 128
      · have hl := length_drop_lt p 1 (by omega) h0
        have hs := shape1 p h0
        have hiff : IsValidText p ↔ IsValidText (p.drop 1) := by
          conv_lhs => rw [hs]
          exact validText_ascii_iff _ _ h1
        rw [validate_go_ascii _ _ _ _ h0 h1, Option.map_none']
        rcases ih _ hl (p.drop 1) (isBytes_drop p 1 hb) (nulFree_drop p 1 hz) f (by omega) rfl
          with ⟨a, b⟩ | ⟨a, b⟩
        · left; exact ⟨hiff.mpr a, b⟩
        · right; exact ⟨fun hh => a (hiff.mp hh), b⟩
      · have hiff := validText_multi_iff p (by omega)
        cases hs : utf8_validate_seq p with
        | some n =>
          have hc := (validate_seq_iff p hb n).mp hs
          have hn := validate_seq_size p n hs
          have hl := length_drop_lt p n (by omega) h0
          rw [validate_go_seq _ _ _ _ _ (by omega) hs, Option.map_none']
          rcases ih _ hl (p.drop n) (isBytes_drop p n hb) (nulFree_drop p n hz) f (by omega) rfl
            with ⟨a, b⟩ | ⟨a, b⟩
          · left; exact ⟨hiff.mpr ⟨n, hc, a⟩, b⟩
          · right
            refine ⟨?_, b⟩
            intro hh
            obtain ⟨m, hm, ht⟩ := hiff.mp hh
            rw [charAt_unique p m n hm hc] at ht
            exact a ht
        | none =>
          right
          refine ⟨?_, validate_go_err_null _ _ _ (by omega) hs⟩
          intro hh
          obtain ⟨m, hm, -⟩ := hiff.mp hh
          rw [(validate_seq_iff p hb m).mpr hm] at hs
          cases hs

/-! ## Filtering, unit by unit -/

theorem charAt_iff_take (p : List Nat) (n : Nat) :
    CharAt p n ↔ ∃ v : Nat, utf8_unichar_to_encoded_len (v : Int) = (n : Int) ∧
      (n = 2 ∨ n = 3 ∨ n = 4) ∧ is_unicode_valid v = true ∧ p.take n = utf8_enc v := by
  constructor
  · intro h
    obtain ⟨v, h1, h2, h3, h4, -⟩ := enc_of_charAt p n h
    exact ⟨v, h1, h2, h3, h4⟩
  · rintro ⟨v, h1, h2, h3, h4⟩
    have := charAt_of_enc v (p.drop n) n h1 h2 h3
    rwa [← h4, List.take_append_drop] at this

theorem enc_isBytes (v : Nat) (h : v < 2147483648) : IsBytes (utf8_enc v) := by
  intro b hb
  by_cases h1 : v < 128
  · rw [utf8_enc_1 v h1] at hb; simp at hb; omega
  by_cases h2 : v < 2048
  · rw [utf8_enc_2 v ⟨by omega, h2⟩] at hb; simp at hb; omega
  by_cases h3 : v < 65536
  · rw [utf8_enc_3 v ⟨by omega, h3⟩] at hb; simp at hb; omega
  by_cases h4 : v < 2097152
  · rw [utf8_enc_4 v ⟨by omega, h4⟩] at hb; simp at hb; omega
  by_cases h5 : v < 67108864
  · rw [utf8_enc_5 v ⟨by omega, h5⟩] at hb; simp at hb; omega
  · rw [utf8_enc_6 v (by omega)] at hb; simp at hb; omega

theorem multibyte_isBytes (u : List Nat) (h : IsMultibyteChar u) : IsBytes u := by
  obtain ⟨v, -, hv, hu⟩ := h
  rw [hu]
  exact enc_isBytes v (by have := is_unicode_valid_lt v hv; omega)

theorem isBytes_append (a b : List Nat) (ha : IsBytes a) (hb : IsBytes b) : IsBytes (a ++ b) := by
  intro x hx
  rcases List.mem_append.mp hx with h | h
  · exact ha x h
  · exact hb x h

theorem isBytes_cons (a : Nat) (b : List Nat) (ha : a < 256) (hb : IsBytes b) :
    IsBytes (a :: b) := by
  intro x hx
  rcases List.mem_cons.mp hx with h | h
  · omega
  · exact hb x h

theorem isBytes_take (p : List Nat) (n : Nat) (h : IsBytes p) : IsBytes (p.take n) :=
  fun b hb => h b (List.mem_of_mem_take hb)

theorem filter_bytes_cons_ascii (a : Nat) (t : List Nat) (h0 : 0 < a) (h : a < 128) :
    utf8_filter_bytes (a :: t) = a :: utf8_filter_bytes t := by
  have := filter_bytes_ascii (a :: t) (by rw [rd_cons_zero]; omega) (by rw [rd_cons_zero]; exact h)
  simpa [rd_cons_zero] using this

theorem filter_bytes_append_multibyte (u t : List Nat) (hu : IsMultibyteChar u)
    (ht : IsBytes t) : utf8_filter_bytes (u ++ t) = u ++ utf8_filter_bytes t := by
  obtain ⟨n, hc, hl⟩ := multibyte_charAt u t hu
  have hb : IsBytes (u ++ t) := isBytes_append u t (multibyte_isBytes u hu) ht
  have hs := (validate_seq_iff (u ++ t) hb n).mpr hc
  have hlead := charAt_lead _ _ hc
  rw [filter_bytes_seq (u ++ t) n (by omega) hs, ← hl, List.take_left, List.drop_left]

theorem filter_bytes_cons_err (b : Nat) (t : List Nat) (h : 128 ≤ b)
    (hs : utf8_validate_seq (b :: t) = none) :
    utf8_filter_bytes (b :: t) = FILTER_CHAR :: utf8_filter_bytes t := by
  have := filter_bytes_err (b :: t) (by rw [rd_cons_zero]; exact h) hs
  simpa using this

theorem filter_bytes_fixed (s : List Nat) (hb : IsBytes s) :
    IsBytes (utf8_filter_bytes s) ∧
      utf8_filter_bytes (utf8_filter_bytes s) = utf8_filter_bytes s := by
  generalize hlen : s.length = len
  induction len using Nat.strong_induction_on generalizing s with
  | _ len ih =>
    subst hlen
    by_cases h0 : rd s 0 = 0
    · rw [filter_bytes_nul s h0]
      exact ⟨by intro b hb; simp at hb, filter_bytes_nul [] (rd_nil 0)⟩
    · by_cases h1 : rd s 0 < 128
      · have hl := length_drop_lt s 1 (by omega) h0
        obtain ⟨i1, i2⟩ := ih _ hl (s.drop 1) (isBytes_drop s 1 hb) rfl
        rw [filter_bytes_ascii s h0 h1]
        refine ⟨isBytes_cons _ _ (by omega) i1, ?_⟩
        rw [filter_bytes_cons_ascii _ _ (by omega) h1, i2]
      · cases hs : utf8_validate_seq s with
        | some n =>
          have hn := validate_seq_size s n hs
          have hl := length_drop_lt s n (by omega) h0
          obtain ⟨i1, i2⟩ := ih _ hl (s.drop n) (isBytes_drop s n hb) rfl
          have hc := (validate_seq_iff s hb n).mp hs
          obtain ⟨hm, -, -⟩ := charAt_multibyte s n hc
          rw [filter_bytes_seq s n (by omega) hs]
          refine ⟨isBytes_append _ _ (isBytes_take s n hb) i1, ?_⟩
          rw [filter_bytes_append_multibyte _ _ hm i1, i2]
        | none =>
          have hl := length_drop_lt s 1 (by omega) h0
          obtain ⟨i1, i2⟩ := ih _ hl (s.drop 1) (isBytes_drop s 1 hb) rfl
          rw [filter_bytes_err s (by omega) hs]
          refine ⟨isBytes_cons _ _ (by decide) i1, ?_⟩
          rw [filter_bytes_cons_ascii _ _ (by decide) (by decide), i2]

/-! ## Round trip through the reference encoding -/

theorem expected_len_enc (v : Nat) (h : v < 2147483648) :
    utf8_encoded_expected_len (utf8_enc v) = utf8_unichar_to_encoded_len (v : Int) := by
  rw [expected_len_eq _ (enc_isBytes v h), unichar_len_nat]
  by_cases h1 : v < 128
  · rw [utf8_enc_1 v h1, rd_cons_zero]; split_ifs <;> first | rfl | omega
  by_cases h2 : v < 2048
  · rw [utf8_enc_2 v ⟨by omega, h2⟩, rd_cons_zero]; split_ifs <;> first | rfl | omega
  by_cases h3 : v < 65536
  · rw [utf8_enc_3 v ⟨by omega, h3⟩, rd_cons_zero]; split_ifs <;> first | rfl | omega
  by_cases h4 : v < 2097152
  · rw [utf8_enc_4 v ⟨by omega, h4⟩, rd_cons_zero]; split_ifs <;> first | rfl | omega
  by_cases h5 : v < 67108864
  · rw [utf8_enc_5 v ⟨by omega, h5⟩, rd_cons_zero]; split_ifs <;> first | rfl | omega
  · rw [utf8_enc_6 v (by omega), rd_cons_zero]; split_ifs <;> first | rfl | omega

theorem to_unichar_enc (v : Nat) (h : v < 2147483648) :
    utf8_encoded_to_unichar (utf8_enc v) = (v : Int) := by
  have hb := enc_isBytes v h
  have el := expected_len_enc v h
  by_cases h1 : v < 128
  · rw [(unichar_len_eq_1 v).mpr h1] at el
    unfold utf8_encoded_to_unichar
    simp only [el, if_true]
    rw [utf8_enc_1 v h1, rd_cons_zero]
  by_cases h2 : v < 2048
  · have hr : 128 ≤ v ∧ v < 2048 := ⟨by omega, h2⟩
    rw [(unichar_len_eq_2 v).mpr hr] at el
    rw [to_unichar_2 _ hb el, utf8_enc_2 v hr]
    simp only [rd_cons_zero, rd_cons_succ]
    rw [if_pos (by omega)]
    omega
  by_cases h3 : v < 65536
  · have hr : 2048 ≤ v ∧ v < 65536 := ⟨by omega, h3⟩
    rw [(unichar_len_eq_3 v).mpr hr] at el
    rw [to_unichar_3 _ hb el, utf8_enc_3 v hr]
    simp only [rd_cons_zero, rd_cons_succ]
    rw [if_pos (by omega), if_pos (by omega)]
    omega
  by_cases h4 : v < 2097152
  · have hr : 65536 ≤ v ∧ v < 2097152 := ⟨by omega, h4⟩
    rw [(unichar_len_eq_4 v).mpr hr] at el
    rw [to_unichar_4 _ hb el, utf8_enc_4 v hr]
    simp only [rd_cons_zero, rd_cons_succ]
    rw [if_pos (by omega), if_pos (by omega), if_pos (by omega)]
    omega
  by_cases h5 : v < 67108864
  · have hr : 2097152 ≤ v ∧ v < 67108864 := ⟨by omega, h5⟩
    rw [(unichar_len_eq_5 v).mpr hr] at el
    rw [to_unichar_5 _ hb el, utf8_enc_5 v hr]
    simp only [rd_cons_zero, rd_cons_succ]
    rw [if_pos (by omega), if_pos (by omega), if_pos (by omega), if_pos (by omega)]
    omega
  · have hr : 67108864 ≤ v := by omega
    rw [(unichar_len_eq_6 v).mpr hr] at el
    rw [to_unichar_6 _ hb el, utf8_enc_6 v hr]
    simp only [rd_cons_zero, rd_cons_succ]
    rw [if_pos (by omega), if_pos (by omega), if_pos (by omega), if_pos (by omega),
      if_pos (by omega)]
    omega

theorem valid_unichar_enc (v : Nat) (h : v < 2147483648) :
    utf8_encoded_valid_unichar (utf8_enc v) =
      if v < 128 ∨ is_unicode_valid v = true then utf8_unichar_to_encoded_len (v : Int)
      else -1 := by
  have hb := enc_isBytes v h
  have el := expected_len_enc v h
  have tu := to_unichar_enc v h
  by_cases h1 : v < 128
  · rw [if_pos (Or.inl h1), (unichar_len_eq_1 v).mpr h1]
    apply valid_unichar_ascii
    rw [utf8_enc_1 v h1, rd_cons_zero]; exact h1
  · have hne0 : utf8_unichar_to_encoded_len (v : Int) ≠ 0 := by
      rw [unichar_len_nat]; split_ifs <;> decide
    have hne1 : utf8_unichar_to_encoded_len (v : Int) ≠ 1 := by
      intro hh; exact h1 ((unichar_len_eq_1 v).mp hh)
    have hck : utf8_encoded_check_loop (utf8_enc v)
        (utf8_unichar_to_encoded_len (v : Int)).toNat 0 = true := by
      apply check_loop_true _ hb
      intro k hk
      rw [Nat.zero_add]
      rw [unichar_len_nat] at hk
      by_cases h2 : v < 2048
      · rw [utf8_enc_2 v ⟨by omega, h2⟩]
        rw [if_neg h1, if_pos h2] at hk
        have hk2 : k < 2 := hk
        obtain rfl | rfl : k = 0 ∨ k = 1 := by omega
        all_goals simp only [rd_cons_zero, rd_cons_succ]; omega
      by_cases h3 : v < 65536
      · rw [utf8_enc_3 v ⟨by omega, h3⟩]
        rw [if_neg h1, if_neg h2, if_pos h3] at hk
        have hk2 : k < 3 := hk
        obtain rfl | rfl | rfl : k = 0 ∨ k = 1 ∨ k = 2 := by omega
        all_goals simp only [rd_cons_zero, rd_cons_succ]; omega
      by_cases h4 : v < 2097152
      · rw [utf8_enc_4 v ⟨by omega, h4⟩]
        rw [if_neg h1, if_neg h2, if_neg h3, if_pos h4] at hk
        have hk2 : k < 4 := hk
        obtain rfl | rfl | rfl | rfl : k = 0 ∨ k = 1 ∨ k = 2 ∨ k = 3 := by omega
        all_goals simp only [rd_cons_zero, rd_cons_succ]; omega
      by_cases h5 : v < 67108864
      · rw [utf8_enc_5 v ⟨by omega, h5⟩]
        rw [if_neg h1, if_neg h2, if_neg h3, if_neg h4, if_pos h5] at hk
        have hk2 : k < 5 := hk
        obtain rfl | rfl | rfl | rfl | rfl : k = 0 ∨ k = 1 ∨ k = 2 ∨ k = 3 ∨ k = 4 := by omega
        all_goals simp only [rd_cons_zero, rd_cons_succ]; omega
      · rw [utf8_enc_6 v (by omega)]
        rw [if_neg h1, if_neg h2, if_neg h3, if_neg h4, if_neg h5] at hk
        have hk2 : k < 6 := hk
        obtain rfl | rfl | rfl | rfl | rfl | rfl :
          k = 0 ∨ k = 1 ∨ k = 2 ∨ k = 3 ∨ k = 4 ∨ k = 5 := by omega
        all_goals simp only [rd_cons_zero, rd_cons_succ]; omega
    rw [valid_unichar_unfold _ _ el hne0 hne1, if_pos hck, tu, if_pos rfl,
      toNat_mod_u32 v (by omega)]
    by_cases hv : is_unicode_valid v = true
    · rw [if_pos hv, if_pos (Or.inr hv)]
    · rw [if_neg hv, if_neg (by rintro (hh | hh); exact h1 hh; exact hv hh)]

/-! ## The escaped encoding `E` -/

theorem whitelisted_eq (c : Nat) (h0 : c ≠ 0) :
    (is_utf8_encoding_whitelisted c none = 0) ↔ in_udev_alphabet c = false := by
  unfold is_utf8_encoding_whitelisted in_udev_alphabet strchr
  simp only [List.mem_cons, List.mem_singleton, List.not_mem_nil, or_false, h0, decide_False,
    Bool.or_false]
  split_ifs with h
  · simp at h ⊢
    omega
  · simp at h ⊢
    omega

theorem valid_unichar_gt_one (s : List Nat) (hb : IsBytes s)
    (h : utf8_encoded_valid_unichar s > 1) :
    ∃ n : Nat, utf8_encoded_valid_unichar s = (n : Int) ∧ CharAt s n ∧
      (n = 2 ∨ n = 3 ∨ n = 4) ∧ (s.take n).length = n ∧ 128 ≤ rd s 0 := by
  rcases valid_unichar_cases s hb with ⟨-, h1⟩ | ⟨h0, hc, h1⟩ | ⟨h0, hc, h1⟩ | ⟨h0, hc, h1⟩ |
      ⟨-, -, h1⟩
  · omega
  · exact ⟨2, by rw [h1]; rfl, hc, by simp, (charAt_multibyte s 2 hc).2.2, h0⟩
  · exact ⟨3, by rw [h1]; rfl, hc, by simp, (charAt_multibyte s 3 hc).2.2, h0⟩
  · exact ⟨4, by rw [h1]; rfl, hc, by simp, (charAt_multibyte s 4 hc).2.2, h0⟩
  · omega

theorem escape_go_fuel (s : List Nat) (hb : IsBytes s) :
    ∀ fuel, s.length ≤ fuel → udev_escape_go fuel s = udev_escape s := by
  generalize hlen : s.length = len
  induction len using Nat.strong_induction_on generalizing s with
  | _ len ih =>
    subst hlen
    have key : ∀ fuel, s.length ≤ fuel → ∀ fuel2, s.length ≤ fuel2 →
        udev_escape_go fuel s = udev_escape_go fuel2 s := by
      intro fuel hf fuel2 hf2
      by_cases h0 : rd s 0 = 0
      · cases fuel <;> cases fuel2 <;> simp [udev_escape_go, h0]
      · have hpos := rd_pos_length s 0 h0
        obtain ⟨f, rfl⟩ : ∃ f, fuel = f + 1 := ⟨fuel - 1, by omega⟩
        obtain ⟨f2, rfl⟩ : ∃ f, fuel2 = f + 1 := ⟨fuel2 - 1, by omega⟩
        have hrec : ∀ n, 0 < n →
            udev_escape_go f (s.drop n) = udev_escape_go f2 (s.drop n) := by
          intro n hn
          have hl := length_drop_lt s n hn h0
          rw [ih _ hl (s.drop n) (isBytes_drop s n hb) rfl f (by omega),
            ih _ hl (s.drop n) (isBytes_drop s n hb) rfl f2 (by omega)]
        rw [udev_escape_go, udev_escape_go]
        by_cases hv : utf8_encoded_valid_unichar s > 1
        · obtain ⟨n, hn, -, h234, -, -⟩ := valid_unichar_gt_one s hb hv
          rw [if_neg h0, if_neg h0, if_pos hv, if_pos hv, hn, Int.toNat_ofNat,
            hrec n (by omega)]
        · rw [if_neg h0, if_neg h0, if_neg hv, if_neg hv, hrec 1 (by omega)]
    intro fuel hf
    exact key fuel hf s.length (le_refl _)

theorem escape_nul (s : List Nat) (h0 : rd s 0 = 0) : udev_escape s = [] := by
  unfold udev_escape
  cases hs : s.length <;> simp [udev_escape_go, h0]

theorem escape_multi (s : List Nat) (hb : IsBytes s) (h0 : rd s 0 ≠ 0) (n : Nat)
    (hn : utf8_encoded_valid_unichar s = (n : Int)) (h1 : 1 < n) :
    udev_escape s = s.take n ++ udev_escape (s.drop n) := by
  have hpos := rd_pos_length s 0 h0
  have hl := length_drop_lt s n (by omega) h0
  unfold udev_escape
  obtain ⟨f, hf⟩ : ∃ f, s.length = f + 1 := ⟨s.length - 1, by omega⟩
  rw [hf, udev_escape_go, if_neg h0, if_pos (by rw [hn]; exact_mod_cast h1), hn, Int.toNat_ofNat,
    escape_go_fuel _ (isBytes_drop s n hb) f (by omega)]
  rfl

theorem escape_esc (s : List Nat) (hb : IsBytes s) (h0 : rd s 0 ≠ 0)
    (hv : ¬ utf8_encoded_valid_unichar s > 1)
    (he : rd s 0 = 92 ∨ in_udev_alphabet (rd s 0) = false) :
    udev_escape s =
      [92, 120, hexdigit (rd s 0 / 16), hexdigit (rd s 0 % 16)] ++ udev_escape (s.drop 1) := by
  have hpos := rd_pos_length s 0 h0
  have hl := length_drop_lt s 1 (by omega) h0
  unfold udev_escape
  obtain ⟨f, hf⟩ : ∃ f, s.length = f + 1 := ⟨s.length - 1, by omega⟩
  rw [hf, udev_escape_go, if_neg h0, if_neg hv, if_pos he,
    escape_go_fuel _ (isBytes_drop s 1 hb) f (by omega)]
  rfl

theorem escape_plain (s : List Nat) (hb : IsBytes s) (h0 : rd s 0 ≠ 0)
    (hv : ¬ utf8_encoded_valid_unichar s > 1)
    (he : ¬ (rd s 0 = 92 ∨ in_udev_alphabet (rd s 0) = false)) :
    udev_escape s = rd s 0 :: udev_escape (s.drop 1) := by
  have hpos := rd_pos_length s 0 h0
  have hl := length_drop_lt s 1 (by omega) h0
  unfold udev_escape
  obtain ⟨f, hf⟩ : ∃ f, s.length = f + 1 := ⟨s.length - 1, by omega⟩
  rw [hf, udev_escape_go, if_neg h0, if_neg hv, if_neg he,
    escape_go_fuel _ (isBytes_drop s 1 hb) f (by omega)]
  rfl

/-! ## Stores of `udev_encode_string` -/

theorem size_sub_eq (len j : Nat) (h : j ≤ len) (hlen : len < 18446744073709551616) :
    size_sub len j = len - j := by
  unfold size_sub
  omega

theorem apply_writes_append (m : Nat → Nat) (a b : List (Nat × Nat)) :
    apply_writes m (a ++ b) = apply_writes (apply_writes m a) b := by
  unfold apply_writes
  rw [List.foldl_append]

theorem apply_writes_cons (m : Nat → Nat) (i v : Nat) (w : List (Nat × Nat)) :
    apply_writes m ((i, v) :: w) = apply_writes (Function.update m i v) w := rfl

theorem apply_writes_nil (m : Nat → Nat) : apply_writes m [] = m := rfl

theorem memcpy_writes_mem (u : List Nat) :
    ∀ (j : Nat) (m : Nat → Nat),
      (∀ k, k < j → apply_writes m (memcpy_writes j u) k = m k) ∧
      (∀ k, k < u.length → apply_writes m (memcpy_writes j u) (j + k) = u.getD k 0) := by
  induction u with
  | nil =>
    intro j m
    exact ⟨fun k _ => rfl, fun k hk => by simp at hk⟩
  | cons b bs ih =>
    intro j m
    rw [memcpy_writes, apply_writes_cons]
    obtain ⟨h1, h2⟩ := ih (j + 1) (Function.update m j b)
    constructor
    · intro k hk
      rw [h1 k (by omega), Function.update_noteq (by omega)]
    · intro k hk
      cases k with
      | zero =>
        show apply_writes (Function.update m j b) (memcpy_writes (j + 1) bs) j = _
        rw [h1 j (by omega), Function.update_same]
        simp
      | succ k =>
        have := h2 k (by simpa using hk)
        rw [show j + (k + 1) = j + 1 + k by omega, this]
        simp

theorem sprintf_writes_mem (j c : Nat) (m : Nat → Nat) :
    (∀ k, k < j → apply_writes m (sprintf_writes j c) k = m k) ∧
    (∀ k, k < 4 → apply_writes m (sprintf_writes j c) (j + k) =
      [92, 120, hexdigit (c / 16), hexdigit (c % 16)].getD k 0) := by
  unfold sprintf_writes
  simp only [apply_writes_cons, apply_writes_nil]
  constructor
  · intro k hk
    rw [Function.update_noteq (by omega), Function.update_noteq (by omega),
      Function.update_noteq (by omega), Function.update_noteq (by omega),
      Function.update_noteq (by omega)]
  · intro k hk
    obtain rfl | rfl | rfl | rfl : k = 0 ∨ k = 1 ∨ k = 2 ∨ k = 3 := by omega
    · show Function.update _ _ _ j = _
      rw [Function.update_noteq (by omega), Function.update_noteq (by omega),
        Function.update_noteq (by omega), Function.update_noteq (by omega),
        Function.update_same]
      rfl
    · rw [Function.update_noteq (by omega), Function.update_noteq (by omega),
        Function.update_noteq (by omega), Function.update_same]
      rfl
    · rw [Function.update_noteq (by omega), Function.update_noteq (by omega),
        Function.update_same]
      rfl
    · rw [Function.update_noteq (by omega), Function.update_same]
      rfl

theorem single_write_mem (j c : Nat) (m : Nat → Nat) :
    (∀ k, k < j → apply_writes m [(j, c)] k = m k) ∧
    (∀ k, k < 1 → apply_writes m [(j, c)] (j + k) = [c].getD k 0) := by
  simp only [apply_writes_cons, apply_writes_nil]
  constructor
  · intro k hk
    rw [Function.update_noteq (by omega)]
  · intro k hk
    obtain rfl : k = 0 := by omega
    show Function.update m j c j = _
    rw [Function.update_same]
    rfl

/-- Stores that lay down `u` at `j`, followed by stores that lay down `l` and a
NUL after it, lay down `u ++ l` and a NUL at `j`. -/
theorem writes_compose (a b : List (Nat × Nat)) (j : Nat) (u l : List Nat)
    (ha : ∀ m : Nat → Nat, (∀ k, k < j → apply_writes m a k = m k) ∧
      (∀ k, k < u.length → apply_writes m a (j + k) = u.getD k 0))
    (hb : ∀ m : Nat → Nat, (∀ k, k < j + u.length → apply_writes m b k = m k) ∧
      (∀ k, k < l.length → apply_writes m b (j + u.length + k) = l.getD k 0) ∧
      apply_writes m b (j + u.length + l.length) = 0) :
    ∀ m : Nat → Nat, (∀ k, k < j → apply_writes m (a ++ b) k = m k) ∧
      (∀ k, k < (u ++ l).length → apply_writes m (a ++ b) (j + k) = (u ++ l).getD k 0) ∧
      apply_writes m (a ++ b) (j + (u ++ l).length) = 0 := by
  intro m
  rw [apply_writes_append]
  obtain ⟨a1, a2⟩ := ha m
  obtain ⟨b1, b2, b3⟩ := hb (apply_writes m a)
  refine ⟨?_, ?_, ?_⟩
  · intro k hk
    rw [b1 k (by omega), a1 k hk]
  · intro k hk
    by_cases hku : k < u.length
    · rw [b1 (j + k) (by omega), a2 k hku]
      simp [List.getD_eq_getElem?_getD, List.getElem?_append_left hku]
    · rw [List.length_append] at hk
      have := b2 (k - u.length) (by omega)
      rw [show j + u.length + (k - u.length) = j + k by omega] at this
      rw [this]
      simp [List.getD_eq_getElem?_getD, List.getElem?_append_right (by omega : u.length ≤ k)]
  · rw [List.length_append, ← Nat.add_assoc]
    exact b3

/-! ## One iteration of `udev_encode_string` -/

theorem encode_go_nul (len fuel j : Nat) (s : List Nat) (w : List (Nat × Nat))
    (h0 : rd s 0 = 0) :
    udev_encode_string_go len (fuel + 1) s j w =
      if size_sub len j < 1 then some (-1, w) else some (0, w ++ [(j, 0)]) := by
  rw [udev_encode_string_go, if_pos h0]

theorem encode_go_multi (len fuel j n : Nat) (s : List Nat) (w : List (Nat × Nat))
    (h0 : rd s 0 ≠ 0) (hn : utf8_encoded_valid_unichar s = (n : Int)) (h1 : 1 < n) :
    udev_encode_string_go len (fuel + 1) s j w =
      if size_sub len j < n then some (-1, w)
      else udev_encode_string_go len fuel (s.drop n) (j + n) (w ++ memcpy_writes j (s.take n)) := by
  rw [udev_encode_string_go, if_neg h0]
  simp only [hn, Int.toNat_ofNat]
  rw [if_pos (by exact_mod_cast h1)]

theorem encode_go_esc (len fuel j : Nat) (s : List Nat) (w : List (Nat × Nat))
    (h0 : rd s 0 ≠ 0) (hv : ¬ utf8_encoded_valid_unichar s > 1)
    (he : rd s 0 = 92 ∨ in_udev_alphabet (rd s 0) = false) :
    udev_encode_string_go len (fuel + 1) s j w =
      if size_sub len j < 4 then some (-1, w)
      else udev_encode_string_go len fuel (s.drop 1) (j + 4) (w ++ sprintf_writes j (rd s 0)) := by
  rw [udev_encode_string_go, if_neg h0]
  simp only []
  rw [if_neg hv, if_pos (by rw [whitelisted_eq _ h0]; exact he)]

theorem encode_go_plain (len fuel j : Nat) (s : List Nat) (w : List (Nat × Nat))
    (h0 : rd s 0 ≠ 0) (hv : ¬ utf8_encoded_valid_unichar s > 1)
    (he : ¬ (rd s 0 = 92 ∨ in_udev_alphabet (rd s 0) = false)) :
    udev_encode_string_go len (fuel + 1) s j w =
      if size_sub len j < 1 then some (-1, w)
      else udev_encode_string_go len fuel (s.drop 1) (j + 1) (w ++ [(j, rd s 0)]) := by
  rw [udev_encode_string_go, if_neg h0]
  simp only []
  rw [if_neg hv, if_neg (by rw [whitelisted_eq _ h0]; exact he)]

/-- With room for `E(s)` and a NUL the loop returns 0 and leaves exactly that in
the buffer from `j` on, without touching the bytes before `j`. -/
theorem encode_go_ok (len : Nat) (hlen : len < 18446744073709551616) (s : List Nat)
    (hb : IsBytes s) (fuel j : Nat) (w : List (Nat × Nat)) (hf : s.length < fuel)
    (hroom : j + (udev_escape s).length + 1 ≤ len) :
    ∃ w1, udev_encode_string_go len fuel s j w = some (0, w ++ w1) ∧
      ∀ m : Nat → Nat, (∀ k, k < j → apply_writes m w1 k = m k) ∧
        (∀ k, k < (udev_escape s).length →
          apply_writes m w1 (j + k) = (udev_escape s).getD k 0) ∧
        apply_writes m w1 (j + (udev_escape s).length) = 0 := by
  generalize hl : s.length = n
  induction n using Nat.strong_induction_on generalizing s fuel j w with
  | _ n ih =>
    subst hl
    obtain ⟨f, rfl⟩ : ∃ f, fuel = f + 1 := ⟨fuel - 1, by omega⟩
    by_cases h0 : rd s 0 = 0
    · rw [escape_nul s h0] at hroom ⊢
      simp only [List.length_nil, Nat.add_zero] at hroom ⊢
      rw [encode_go_nul _ _ _ _ _ h0, size_sub_eq len j (by omega) hlen, if_neg (by omega)]
      refine ⟨[(j, 0)], rfl, ?_⟩
      intro m
      simp only [apply_writes_cons, apply_writes_nil]
      refine ⟨?_, ?_, ?_⟩
      · intro k hk; rw [Function.update_noteq (by omega)]
      · intro k hk; omega
      · rw [Function.update_same]
    · by_cases hv : utf8_encoded_valid_unichar s > 1
      · obtain ⟨c, hc, -, h234, htl, -⟩ := valid_unichar_gt_one s hb hv
        have hc1 : 1 < c := by omega
        have he := escape_multi s hb h0 c hc hc1
        rw [he] at hroom ⊢
        rw [List.length_append, htl] at hroom
        have hdl := length_drop_lt s c (by omega) h0
        rw [encode_go_multi _ _ _ _ _ _ h0 hc hc1, size_sub_eq len j (by omega) hlen,
          if_neg (by omega)]
        obtain ⟨w2, hw2, hm2⟩ := ih _ hdl (s.drop c) (isBytes_drop s c hb) f (j + c)
          (w ++ memcpy_writes j (s.take c)) (by omega) (by omega) rfl
        refine ⟨memcpy_writes j (s.take c) ++ w2, by rw [hw2, List.append_assoc], ?_⟩
        apply writes_compose _ _ _ _ _ (memcpy_writes_mem (s.take c) j)
        rw [htl]
        exact hm2
      · by_cases hesc : rd s 0 = 92 ∨ in_udev_alphabet (rd s 0) = false
        · have he := escape_esc s hb h0 hv hesc
          rw [he] at hroom ⊢
          rw [List.length_append] at hroom
          simp only [List.length_cons, List.length_nil] at hroom
          have hdl := length_drop_lt s 1 (by omega) h0
          rw [encode_go_esc _ _ _ _ _ h0 hv hesc, size_sub_eq len j (by omega) hlen,
            if_neg (by omega)]
          obtain ⟨w2, hw2, hm2⟩ := ih _ hdl (s.drop 1) (isBytes_drop s 1 hb) f (j + 4)
            (w ++ sprintf_writes j (rd s 0)) (by omega) (by omega) rfl
          refine ⟨sprintf_writes j (rd s 0) ++ w2, by rw [hw2, List.append_assoc], ?_⟩
          exact writes_compose _ _ _ _ _ (sprintf_writes_mem j (rd s 0)) hm2
        · have he := escape_plain s hb h0 hv hesc
          rw [he] at hroom ⊢
          rw [List.length_cons] at hroom
          have hdl := length_drop_lt s 1 (by omega) h0
          rw [encode_go_plain _ _ _ _ _ h0 hv hesc, size_sub_eq len j (by omega) hlen,
            if_neg (by omega)]
          obtain ⟨w2, hw2, hm2⟩ := ih _ hdl (s.drop 1) (isBytes_drop s 1 hb) f (j + 1)
            (w ++ [(j, rd s 0)]) (by omega) (by omega) rfl
          refine ⟨[(j, rd s 0)] ++ w2, by rw [hw2, List.append_assoc], ?_⟩
          exact writes_compose _ _ _ [rd s 0] _ (single_write_mem j (rd s 0)) hm2

/-- Without room for `E(s)` and a NUL the loop returns -1. -/
theorem encode_go_fail (len : Nat) (hlen : len < 18446744073709551616) (s : List Nat)
    (hb : IsBytes s) (fuel j : Nat) (w : List (Nat × Nat)) (hf : s.length < fuel)
    (hj : j ≤ len) (hroom : len < j + (udev_escape s).length + 1) :
    ∃ w1, udev_encode_string_go len fuel s j w = some (-1, w1) := by
  generalize hl : s.length = n
  induction n using Nat.strong_induction_on generalizing s fuel j w with
  | _ n ih =>
    subst hl
    obtain ⟨f, rfl⟩ : ∃ f, fuel = f + 1 := ⟨fuel - 1, by omega⟩
    by_cases h0 : rd s 0 = 0
    · rw [escape_nul s h0] at hroom
      simp only [List.length_nil, Nat.add_zero] at hroom
      rw [encode_go_nul _ _ _ _ _ h0, size_sub_eq len j (by omega) hlen, if_pos (by omega)]
      exact ⟨w, rfl⟩
    · by_cases hv : utf8_encoded_valid_unichar s > 1
      · obtain ⟨c, hc, -, h234, htl, -⟩ := valid_unichar_gt_one s hb hv
        have hc1 : 1 < c := by omega
        rw [escape_multi s hb h0 c hc hc1, List.length_append, htl] at hroom
        have hdl := length_drop_lt s c (by omega) h0
        rw [encode_go_multi _ _ _ _ _ _ h0 hc hc1, size_sub_eq len j (by omega) hlen]
        by_cases hcap : len - j < c
        · rw [if_pos hcap]; exact ⟨w, rfl⟩
        · rw [if_neg hcap]
          exact ih _ hdl (s.drop c) (isBytes_drop s c hb) f (j + c) _ (by omega) (by omega)
            (by omega) rfl
      · by_cases hesc : rd s 0 = 92 ∨ in_udev_alphabet (rd s 0) = false
        · rw [escape_esc s hb h0 hv hesc, List.length_append] at hroom
          simp only [List.length_cons, List.length_nil] at hroom
          have hdl := length_drop_lt s 1 (by omega) h0
          rw [encode_go_esc _ _ _ _ _ h0 hv hesc, size_sub_eq len j (by omega) hlen]
          by_cases hcap : len - j < 4
          · rw [if_pos hcap]; exact ⟨w, rfl⟩
          · rw [if_neg hcap]
            exact ih _ hdl (s.drop 1) (isBytes_drop s 1 hb) f (j + 4) _ (by omega) (by omega)
              (by omega) rfl
        · rw [escape_plain s hb h0 hv hesc, List.length_cons] at hroom
          have hdl := length_drop_lt s 1 (by omega) h0
          rw [encode_go_plain _ _ _ _ _ h0 hv hesc, size_sub_eq len j (by omega) hlen]
          by_cases hcap : len - j < 1
          · rw [if_pos hcap]; exact ⟨w, rfl⟩
          · rw [if_neg hcap]
            exact ih _ hdl (s.drop 1) (isBytes_drop s 1 hb) f (j + 1) _ (by omega) (by omega)
              (by omega) rfl

/-! ## The companion decoder -/

theorem decode_keep (c : Nat) (x : List Nat) (hc : c ≠ 92) :
    udev_decode (c :: x) = c :: udev_decode x := by
  unfold udev_decode
  rw [udev_decode_go, if_neg (fun h => hc h.1)]

theorem decode_append_keep (u x : List Nat) (hu : ∀ b ∈ u, b ≠ 92) :
    udev_decode (u ++ x) = u ++ udev_decode x := by
  induction u with
  | nil => rfl
  | cons b bs ih =>
    rw [List.cons_append, decode_keep _ _ (hu b (List.mem_cons_self _ _)),
      ih (fun y hy => hu y (List.mem_cons_of_mem _ hy)), List.cons_append]

theorem unhex_hexdigit (n : Nat) (h : n < 16) : unhex (hexdigit n) = some n := by
  unfold unhex hexdigit
  split_ifs <;> first | (congr 1; omega) | omega

theorem decode_esc (c : Nat) (x : List Nat) (hc : c < 256) :
    udev_decode ([92, 120, hexdigit (c / 16), hexdigit (c % 16)] ++ x) = c :: udev_decode x := by
  unfold udev_decode
  simp only [List.cons_append, List.nil_append]
  rw [udev_decode_go]
  simp only [rd_cons_zero, rd_cons_succ, unhex_hexdigit (c / 16) (by omega),
    unhex_hexdigit (c % 16) (by omega), Option.isSome_some, Option.getD_some, and_self, if_true]
  congr 1
  omega

theorem charAt_take_high (s : List Nat) (n : Nat) (h : CharAt s n) :
    ∀ b ∈ s.take n, 128 ≤ b := by
  obtain ⟨v, hl, h234, -, ht, -⟩ := enc_of_charAt s n h
  rw [ht]
  intro b hb
  rcases h234 with rfl | rfl | rfl
  · rw [utf8_enc_2 v ((unichar_len_eq_2 v).mp (by exact_mod_cast hl))] at hb
    simp at hb; omega
  · rw [utf8_enc_3 v ((unichar_len_eq_3 v).mp (by exact_mod_cast hl))] at hb
    simp at hb; omega
  · rw [utf8_enc_4 v ((unichar_len_eq_4 v).mp (by exact_mod_cast hl))] at hb
    simp at hb; omega

theorem hexdigit_pos (n : Nat) : hexdigit n ≠ 0 := by
  unfold hexdigit
  split_ifs <;> omega

/-- Decoding `E(s)` gives `s` back, and `E(s)` holds no NUL. -/
theorem decode_escape (s : List Nat) (hb : IsBytes s) (hz : NulFree s) :
    udev_decode (udev_escape s) = s ∧ NulFree (udev_escape s) := by
  generalize hl : s.length = n
  induction n using Nat.strong_induction_on generalizing s with
  | _ n ih =>
    subst hl
    by_cases hne : s = []
    · subst hne
      rw [escape_nul [] (rd_nil 0)]
      exact ⟨rfl, by intro b hb; simp at hb⟩
    · have h0 := nulFree_rd s hz hne
      have hs1 := shape1 s h0
      by_cases hv : utf8_encoded_valid_unichar s > 1
      · obtain ⟨c, hc, hca, h234, htl, -⟩ := valid_unichar_gt_one s hb hv
        have hdl := length_drop_lt s c (by omega) h0
        obtain ⟨i1, i2⟩ := ih _ hdl (s.drop c) (isBytes_drop s c hb) (nulFree_drop s c hz) rfl
        have hhigh := charAt_take_high s c hca
        rw [escape_multi s hb h0 c hc (by omega)]
        constructor
        · rw [decode_append_keep _ _ (fun b hb => by have := hhigh b hb; omega), i1,
            List.take_append_drop]
        · intro b hbm
          rcases List.mem_append.mp hbm with h | h
          · have := hhigh b h; omega
          · exact i2 b h
      · have hdl := length_drop_lt s 1 (by omega) h0
        obtain ⟨i1, i2⟩ := ih _ hdl (s.drop 1) (isBytes_drop s 1 hb) (nulFree_drop s 1 hz) rfl
        have hlt := rd_lt s hb 0
        by_cases hesc : rd s 0 = 92 ∨ in_udev_alphabet (rd s 0) = false
        · rw [escape_esc s hb h0 hv hesc]
          constructor
          · rw [decode_esc _ _ hlt, i1, ← hs1]
          · intro b hbm
            rcases List.mem_append.mp hbm with h | h
            · simp only [List.mem_cons, List.mem_singleton, List.not_mem_nil, or_false] at h
              rcases h with rfl | rfl | rfl | rfl
              · decide
              · decide
              · exact hexdigit_pos _
              · exact hexdigit_pos _
            · exact i2 b h
        · rw [escape_plain s hb h0 hv hesc]
          constructor
          · rw [decode_keep _ _ (fun h => hesc (Or.inl h)), i1, ← hs1]
          · intro b hbm
            rcases List.mem_cons.mp hbm with rfl | h
            · exact h0
            · exact i2 b h

theorem read_cstr_eq (m : Nat → Nat) (l : List Nat) :
    ∀ (cap i : Nat), l.length < cap → NulFree l →
      (∀ k, k < l.length → m (i + k) = l.getD k 0) → m (i + l.length) = 0 →
      read_cstr m cap i = l := by
  induction l with
  | nil =>
    intro cap i hc _ _ h0
    obtain ⟨c, rfl⟩ : ∃ c, cap = c + 1 := ⟨cap - 1, by simp at hc; omega⟩
    rw [read_cstr, if_pos (by simpa using h0)]
  | cons b bs ih =>
    intro cap i hc hz hk h0
    obtain ⟨c, rfl⟩ : ∃ c, cap = c + 1 := ⟨cap - 1, by simp at hc; omega⟩
    have hb0 : m i = b := by simpa using hk 0 (by simp)
    rw [read_cstr, hb0, if_neg (hz b (List.mem_cons_self _ _))]
    congr 1
    apply ih c (i + 1) (by simpa using hc) (fun y hy => hz y (List.mem_cons_of_mem _ hy))
    · intro k hk2
      have := hk (k + 1) (by simpa using hk2)
      rw [show i + 1 + k = i + (k + 1) by omega, this]
      simp
    · rw [show i + 1 + bs.length = i + (b :: bs).length by simp; omega]
      exact h0

/-- Outcome of `udev_encode_string` in terms of `E`. -/
theorem encode_string_outcome (s : List Nat) (len : Nat) (hb : IsBytes s)
    (hlen : len < 18446744073709551616) :
    ((udev_escape s).length + 1 ≤ len ∧
      ∃ w, udev_encode_string s len = some (0, w) ∧
        ∀ m : Nat → Nat,
          (∀ k, k < (udev_escape s).length → apply_writes m w k = (udev_escape s).getD k 0) ∧
          apply_writes m w (udev_escape s).length = 0) ∨
    (¬ (udev_escape s).length + 1 ≤ len ∧ ∃ w, udev_encode_string s len = some (-1, w)) := by
  by_cases hroom : (udev_escape s).length + 1 ≤ len
  · left
    obtain ⟨w1, hw, hm⟩ := encode_go_ok len hlen s hb (s.length + 1) 0 [] (by omega) (by omega)
    refine ⟨hroom, w1, by simpa [udev_encode_string] using hw, ?_⟩
    intro m
    obtain ⟨-, h2, h3⟩ := hm m
    refine ⟨?_, by simpa using h3⟩
    intro k hk
    simpa using h2 k hk
  · right
    exact ⟨hroom, encode_go_fail len hlen s hb (s.length + 1) 0 [] (by omega) (by omega)
      (by omega)⟩

/-! ## The claims -/

/-- C1 (evaluation at the failing input): for `str = "/"` and `len = 4` the call
returns -1, yet `sprintf` has stored its terminating NUL at index 4, which is
not below `len`. -/
theorem C1_store_at_len :
    udev_encode_string [47] 4 = some (-1, [(0, 92), (1, 120), (2, 50), (3, 102), (4, 0)]) ∧
      (4, 0) ∈ [(0, 92), (1, 120), (2, 50), (3, 102), ((4 : Nat), (0 : Nat))] := by
  decide

/-- C2 (evaluation at the failing input): with `length = 1` and a buffer that
starts with the 2-byte leader `0xC3`, the scan dereferences index 1, which is
not below `length`, and returns false on the `0x41` found there.  When the byte
at index 1 is the continuation byte `0xA9` it is accepted, `length` wraps from 0
to `2^64 - 1`, and the scan goes on to indexes 2 and 3, returning false only at
the control byte `0x01` at index 3. -/
theorem C2_read_past_length :
    utf8_is_printable [0xC3, 0x41] 1 = (some false, [0, 1]) ∧
      utf8_is_printable_go 4 0 [0xC3, 0xA9, 0x41, 0x01] 1 = (some false, [0, 1, 2, 3]) ∧
      size_sub (size_sub 1 1) 1 = 18446744073709551615 := by
  decide

/-- C3: for a NUL-free byte string `s`, `utf8_is_valid s` returns `s` exactly
when `s` is a concatenation of units that are one byte below `0x80` or the
minimal 2-, 3- or 4-byte encoding of a scalar accepted by `is_unicode_valid`,
and returns `NULL` in every other case. -/
theorem C3_utf8_is_valid_iff_units (s : List Nat) (hb : IsBytes s) (hz : NulFree s) :
    (utf8_is_valid s = some (CPtr.ptr s) ↔
      ∃ us : List (List Nat), (∀ u ∈ us, IsValidUnit u) ∧ s = us.flatten) ∧
    ((¬ ∃ us : List (List Nat), (∀ u ∈ us, IsValidUnit u) ∧ s = us.flatten) →
      utf8_is_valid s = some CPtr.NULL) := by
  have h := validate_go_null_mode s hb hz (s.length + 1) s (by omega)
  change (IsValidText s ∧ utf8_is_valid s = some (CPtr.ptr s)) ∨
    (¬ IsValidText s ∧ utf8_is_valid s = some CPtr.NULL) at h
  change (utf8_is_valid s = some (CPtr.ptr s) ↔ IsValidText s) ∧
    (¬ IsValidText s → utf8_is_valid s = some CPtr.NULL)
  rcases h with ⟨a, b⟩ | ⟨a, b⟩
  · exact ⟨⟨fun _ => a, fun _ => b⟩, fun hn => absurd a hn⟩
  · refine ⟨⟨fun hv => ?_, fun hv => absurd hv a⟩, fun _ => b⟩
    rw [b] at hv
    cases hv

/-- C3 at `"A\xC3\xA9"`. -/
theorem C3_utf8_is_valid_iff_units_witness :
    IsBytes [65, 0xC3, 0xA9] ∧ NulFree [65, 0xC3, 0xA9] ∧
    ((utf8_is_valid [65, 0xC3, 0xA9] = some (CPtr.ptr [65, 0xC3, 0xA9]) ↔
      ∃ us : List (List Nat), (∀ u ∈ us, IsValidUnit u) ∧ [65, 0xC3, 0xA9] = us.flatten) ∧
    ((¬ ∃ us : List (List Nat), (∀ u ∈ us, IsValidUnit u) ∧ [65, 0xC3, 0xA9] = us.flatten) →
      utf8_is_valid [65, 0xC3, 0xA9] = some CPtr.NULL)) :=
  ⟨by decide, by decide, C3_utf8_is_valid_iff_units [65, 0xC3, 0xA9] (by decide) (by decide)⟩

/-- C4 (evaluation at the failing input): `C3 80` is the well-formed, minimal
encoding of U+00C0, which `is_unicode_control` does not flag, yet
`utf8_is_printable` returns false on it: the leader is masked with `0x1e`, so the
scalar it tests is `0x80`. -/
theorem C4_printable_rejects_U00C0 :
    utf8_enc 0xC0 = [0xC3, 0x80] ∧ is_unicode_control 0xC0 = false ∧
      (utf8_is_printable [0xC3, 0x80] 2).1 = some false ∧
      merge_continuation_char (0xC3 &&& 0x1e) 0x80 = 0x80 := by
  decide

/-- C5: `utf8_encoded_valid_unichar p` is 1 when the first byte is below `0x80`;
it is `n` in {2, 3, 4} exactly when the first `n` bytes of `p` are the minimal
`n`-byte encoding of a scalar accepted by `is_unicode_valid`; and it is -1 in
every other case. -/
theorem C5_valid_unichar_spec (p : List Nat) (hb : IsBytes p) :
    (rd p 0 < 0x80 → utf8_encoded_valid_unichar p = 1) ∧
    (∀ n : Nat, n = 2 ∨ n = 3 ∨ n = 4 →
      (utf8_encoded_valid_unichar p = (n : Int) ↔
        ∃ v : Nat, utf8_unichar_to_encoded_len (v : Int) = (n : Int) ∧
          is_unicode_valid v = true ∧ p.take n = utf8_enc v)) ∧
    (0x80 ≤ rd p 0 →
      (¬ ∃ n v : Nat, (n = 2 ∨ n = 3 ∨ n = 4) ∧
          utf8_unichar_to_encoded_len (v : Int) = (n : Int) ∧
          is_unicode_valid v = true ∧ p.take n = utf8_enc v) →
      utf8_encoded_valid_unichar p = -1) := by
  have hiff : ∀ n : Nat, n = 2 ∨ n = 3 ∨ n = 4 →
      (CharAt p n ↔ ∃ v : Nat, utf8_unichar_to_encoded_len (v : Int) = (n : Int) ∧
          is_unicode_valid v = true ∧ p.take n = utf8_enc v) := by
    intro n hn
    rw [charAt_iff_take]
    constructor
    · rintro ⟨v, h1, -, h3, h4⟩; exact ⟨v, h1, h3, h4⟩
    · rintro ⟨v, h1, h3, h4⟩; exact ⟨v, h1, hn, h3, h4⟩
  have hcases := valid_unichar_cases p hb
  refine ⟨fun h => valid_unichar_ascii p h, ?_, ?_⟩
  · intro n hn
    rw [← hiff n hn]
    rcases hcases with ⟨h0, h1⟩ | ⟨h0, hc, h1⟩ | ⟨h0, hc, h1⟩ | ⟨h0, hc, h1⟩ | ⟨h0, hc, h1⟩
    · constructor
      · intro h; rw [h1] at h; omega
      · intro h; have := charAt_lead p n h; omega
    · constructor
      · intro h; rw [h1] at h; obtain rfl : n = 2 := by omega
        exact hc
      · intro h; rw [h1, charAt_unique p n 2 h hc]; rfl
    · constructor
      · intro h; rw [h1] at h; obtain rfl : n = 3 := by omega
        exact hc
      · intro h; rw [h1, charAt_unique p n 3 h hc]; rfl
    · constructor
      · intro h; rw [h1] at h; obtain rfl : n = 4 := by omega
        exact hc
      · intro h; rw [h1, charAt_unique p n 4 h hc]; rfl
    · constructor
      · intro h; rw [h1] at h; omega
      · intro h; exact absurd h (hc n)
  · intro h0 hno
    rcases hcases with ⟨h0', h1⟩ | ⟨-, hc, h1⟩ | ⟨-, hc, h1⟩ | ⟨-, hc, h1⟩ | ⟨-, -, h1⟩
    · omega
    · obtain ⟨v, a, b, c⟩ := (hiff 2 (by simp)).mp hc
      exact absurd ⟨2, v, by simp, a, b, c⟩ hno
    · obtain ⟨v, a, b, c⟩ := (hiff 3 (by simp)).mp hc
      exact absurd ⟨3, v, by simp, a, b, c⟩ hno
    · obtain ⟨v, a, b, c⟩ := (hiff 4 (by simp)).mp hc
      exact absurd ⟨4, v, by simp, a, b, c⟩ hno
    · exact h1

/-- C5 at the three bytes of U+20AC followed by `"A"`. -/
theorem C5_valid_unichar_spec_witness :
    IsBytes [0xE2, 0x82, 0xAC, 65] ∧
    ((rd [0xE2, 0x82, 0xAC, 65] 0 < 0x80 →
        utf8_encoded_valid_unichar [0xE2, 0x82, 0xAC, 65] = 1) ∧
    (∀ n : Nat, n = 2 ∨ n = 3 ∨ n = 4 →
      (utf8_encoded_valid_unichar [0xE2, 0x82, 0xAC, 65] = (n : Int) ↔
        ∃ v : Nat, utf8_unichar_to_encoded_len (v : Int) = (n : Int) ∧
          is_unicode_valid v = true ∧ [0xE2, 0x82, 0xAC, 65].take n = utf8_enc v)) ∧
    (0x80 ≤ rd [0xE2, 0x82, 0xAC, 65] 0 →
      (¬ ∃ n v : Nat, (n = 2 ∨ n = 3 ∨ n = 4) ∧
          utf8_unichar_to_encoded_len (v : Int) = (n : Int) ∧
          is_unicode_valid v = true ∧ [0xE2, 0x82, 0xAC, 65].take n = utf8_enc v) →
      utf8_encoded_valid_unichar [0xE2, 0x82, 0xAC, 65] = -1)) :=
  ⟨by decide, C5_valid_unichar_spec [0xE2, 0x82, 0xAC, 65] (by decide)⟩

/-- C6: `udev_encode_string s out len` returns 0 exactly when `E(s)` and a NUL
fit in `len` bytes, the buffer then holds `E(s)` followed by a NUL, and otherwise
the call returns -1; `"a/b"` gives `"a\x2fb"` and the two bytes `C3 A9` of
`"h\xC3\xA9llo"` are copied as they are. -/
theorem C6_udev_encode_string_spec (s : List Nat) (len : Nat) (hb : IsBytes s)
    (hz : NulFree s) (hlen : len < 18446744073709551616) :
    ((∃ w, udev_encode_string s len = some (0, w)) ↔ (udev_escape s).length + 1 ≤ len) ∧
    (∀ w, udev_encode_string s len = some (0, w) → ∀ init : Nat → Nat,
      (∀ k, k < (udev_escape s).length → apply_writes init w k = (udev_escape s).getD k 0) ∧
      apply_writes init w (udev_escape s).length = 0 ∧
      read_cstr (apply_writes init w) len 0 = udev_escape s) ∧
    (¬ (udev_escape s).length + 1 ≤ len → ∃ w, udev_encode_string s len = some (-1, w)) ∧
    udev_escape [97, 47, 98] = [97, 92, 120, 50, 102, 98] ∧
    udev_escape [104, 0xC3, 0xA9, 108, 108, 111] = [104, 0xC3, 0xA9, 108, 108, 111] := by
  refine ⟨?_, ?_, ?_, by decide, by decide⟩
  · rcases encode_string_outcome s len hb hlen with ⟨h1, w, hw, -⟩ | ⟨h1, w, hw⟩
    · exact ⟨fun _ => h1, fun _ => ⟨w, hw⟩⟩
    · constructor
      · rintro ⟨w2, hw2⟩
        rw [hw] at hw2
        simp at hw2
      · intro h; exact absurd h h1
  · intro w hw init
    rcases encode_string_outcome s len hb hlen with ⟨h1, w2, hw2, hm⟩ | ⟨h1, w2, hw2⟩
    · rw [hw] at hw2
      obtain rfl : w = w2 := by simpa using hw2
      obtain ⟨m1, m2⟩ := hm init
      refine ⟨m1, m2, ?_⟩
      apply read_cstr_eq _ _ len 0 (by omega) (decode_escape s hb hz).2
      · intro k hk; simpa using m1 k hk
      · simpa using m2
    · rw [hw] at hw2
      simp at hw2
  · intro h
    rcases encode_string_outcome s len hb hlen with ⟨h1, -⟩ | ⟨-, w, hw⟩
    · exact absurd h1 h
    · exact ⟨w, hw⟩

/-- C6 at `"a/b"` with a buffer of 7 bytes. -/
theorem C6_udev_encode_string_spec_witness :
    IsBytes [97, 47, 98] ∧ NulFree [97, 47, 98] ∧ 7 < 18446744073709551616 ∧
    (((∃ w, udev_encode_string [97, 47, 98] 7 = some (0, w)) ↔
      (udev_escape [97, 47, 98]).length + 1 ≤ 7) ∧
    (∀ w, udev_encode_string [97, 47, 98] 7 = some (0, w) → ∀ init : Nat → Nat,
      (∀ k, k < (udev_escape [97, 47, 98]).length →
        apply_writes init w k = (udev_escape [97, 47, 98]).getD k 0) ∧
      apply_writes init w (udev_escape [97, 47, 98]).length = 0 ∧
      read_cstr (apply_writes init w) 7 0 = udev_escape [97, 47, 98]) ∧
    (¬ (udev_escape [97, 47, 98]).length + 1 ≤ 7 →
      ∃ w, udev_encode_string [97, 47, 98] 7 = some (-1, w)) ∧
    udev_escape [97, 47, 98] = [97, 92, 120, 50, 102, 98] ∧
    udev_escape [104, 0xC3, 0xA9, 108, 108, 111] = [104, 0xC3, 0xA9, 108, 108, 111]) :=
  ⟨by decide, by decide, by decide,
    C6_udev_encode_string_spec [97, 47, 98] 7 (by decide) (by decide) (by decide)⟩

/-- C7: the string that a successful `udev_encode_string` leaves in the buffer
is mapped back to its input by the decoder that turns every `\xHH` into the byte
`0xHH`; hence two inputs that encode successfully to equal strings are equal. -/
theorem C7_udev_encode_string_injective (s1 s2 : List Nat) (len1 len2 : Nat)
    (w1 w2 : List (Nat × Nat)) (init1 init2 : Nat → Nat)
    (hb1 : IsBytes s1) (hz1 : NulFree s1) (hlen1 : len1 < 18446744073709551616)
    (hb2 : IsBytes s2) (hz2 : NulFree s2) (hlen2 : len2 < 18446744073709551616)
    (h1 : udev_encode_string s1 len1 = some (0, w1))
    (h2 : udev_encode_string s2 len2 = some (0, w2)) :
    udev_decode (read_cstr (apply_writes init1 w1) len1 0) = s1 ∧
    (read_cstr (apply_writes init1 w1) len1 0 = read_cstr (apply_writes init2 w2) len2 0 →
      s1 = s2) := by
  have key : ∀ (s : List Nat) (len : Nat) (w : List (Nat × Nat)) (init : Nat → Nat),
      IsBytes s → NulFree s → len < 18446744073709551616 →
      udev_encode_string s len = some (0, w) →
      udev_decode (read_cstr (apply_writes init w) len 0) = s := by
    intro s len w init hb hz hlen hw
    rcases encode_string_outcome s len hb hlen with ⟨h1, w2, hw2, hm⟩ | ⟨h1, w2, hw2⟩
    · rw [hw] at hw2
      obtain rfl : w = w2 := by simpa using hw2
      obtain ⟨m1, m2⟩ := hm init
      obtain ⟨d1, d2⟩ := decode_escape s hb hz
      rw [read_cstr_eq _ (udev_escape s) len 0 (by omega) d2 (by intro k hk; simpa using m1 k hk)
        (by simpa using m2)]
      exact d1
    · rw [hw] at hw2
      simp at hw2
  have k1 := key s1 len1 w1 init1 hb1 hz1 hlen1 h1
  have k2 := key s2 len2 w2 init2 hb2 hz2 hlen2 h2
  refine ⟨k1, fun he => ?_⟩
  rw [← k1, ← k2, he]

/-- C7 at `"a/b"` encoded into buffers of 7 and of 8 bytes. -/
theorem C7_udev_encode_string_injective_witness :
    IsBytes [97, 47, 98] ∧ NulFree [97, 47, 98] ∧ 7 < 18446744073709551616 ∧
    8 < 18446744073709551616 ∧
    udev_encode_string [97, 47, 98] 7 =
      some (0, [(0, 97), (1, 92), (2, 120), (3, 50), (4, 102), (5, 0), (5, 98), (6, 0)]) ∧
    udev_encode_string [97, 47, 98] 8 =
      some (0, [(0, 97), (1, 92), (2, 120), (3, 50), (4, 102), (5, 0), (5, 98), (6, 0)]) ∧
    udev_decode (read_cstr (apply_writes (fun _ => 1)
      [(0, 97), (1, 92), (2, 120), (3, 50), (4, 102), (5, 0), (5, 98), (6, 0)]) 7 0)
      = [97, 47, 98] ∧
    (read_cstr (apply_writes (fun _ => 1)
        [(0, 97), (1, 92), (2, 120), (3, 50), (4, 102), (5, 0), (5, 98), (6, 0)]) 7 0 =
      read_cstr (apply_writes (fun _ => 2)
        [(0, 97), (1, 92), (2, 120), (3, 50), (4, 102), (5, 0), (5, 98), (6, 0)]) 8 0 →
      [97, 47, 98] = [97, 47, 98]) :=
  ⟨by decide, by decide, by decide, by decide, by decide, by decide,
    C7_udev_encode_string_injective [97, 47, 98] [97, 47, 98] 7 8 _ _ (fun _ => 1) (fun _ => 2)
      (by decide) (by decide) (by decide) (by decide) (by decide) (by decide)
      (by decide) (by decide)⟩

/-- C8: with `r` the string `utf8_filter t` returns: a byte `b ≥ 0x80` at which no
valid multi-byte character starts gives `'_' :: r` for `b :: t`; a byte
`a < 0x80` gives `a :: r`; a valid multi-byte character `u` gives `u ++ r`; and
`'A', 0xFF, 'B'` filters to `'A', '_', 'B'`. -/
theorem C8_utf8_filter_resync (t : List Nat) (ht : IsBytes t) :
    ∃ r : List Nat, utf8_filter t = some (CPtr.ptr r) ∧
      (∀ b : Nat, 0x80 ≤ b → b < 256 →
        (¬ ∃ u t1 : List Nat, IsMultibyteChar u ∧ b :: t = u ++ t1) →
        utf8_filter (b :: t) = some (CPtr.ptr (FILTER_CHAR :: r))) ∧
      (∀ a : Nat, 0 < a → a < 0x80 → utf8_filter (a :: t) = some (CPtr.ptr (a :: r))) ∧
      (∀ u : List Nat, IsMultibyteChar u → utf8_filter (u ++ t) = some (CPtr.ptr (u ++ r))) ∧
      utf8_filter [65, 0xFF, 66] = some (CPtr.ptr [65, 95, 66]) := by
  refine ⟨utf8_filter_bytes t, utf8_filter_eq t, ?_, ?_, ?_, by decide⟩
  · intro b hb1 hb2 hno
    rw [utf8_filter_eq, filter_bytes_cons_err b t hb1]
    cases hs : utf8_validate_seq (b :: t) with
    | none => rfl
    | some n =>
      exfalso
      have hc := (validate_seq_iff (b :: t) (isBytes_cons b t hb2 ht) n).mp hs
      obtain ⟨hm, he, -⟩ := charAt_multibyte _ n hc
      exact hno ⟨_, _, hm, he⟩
  · intro a h0 h1
    rw [utf8_filter_eq, filter_bytes_cons_ascii a t h0 h1]
  · intro u hu
    rw [utf8_filter_eq, filter_bytes_append_multibyte u t hu ht]

/-- C8 at the tail `"B"`. -/
theorem C8_utf8_filter_resync_witness :
    IsBytes [66] ∧
    ∃ r : List Nat, utf8_filter [66] = some (CPtr.ptr r) ∧
      (∀ b : Nat, 0x80 ≤ b → b < 256 →
        (¬ ∃ u t1 : List Nat, IsMultibyteChar u ∧ b :: [66] = u ++ t1) →
        utf8_filter (b :: [66]) = some (CPtr.ptr (FILTER_CHAR :: r))) ∧
      (∀ a : Nat, 0 < a → a < 0x80 → utf8_filter (a :: [66]) = some (CPtr.ptr (a :: r))) ∧
      (∀ u : List Nat, IsMultibyteChar u →
        utf8_filter (u ++ [66]) = some (CPtr.ptr (u ++ r))) ∧
      utf8_filter [65, 0xFF, 66] = some (CPtr.ptr [65, 95, 66]) :=
  ⟨by decide, C8_utf8_filter_resync [66] (by decide)⟩

/-- C9: `utf8_filter` is idempotent: filtering the string it returns gives that
string again. -/
theorem C9_utf8_filter_idempotent (s : List Nat) (hb : IsBytes s) :
    ∃ r : List Nat, utf8_filter s = some (CPtr.ptr r) ∧ utf8_filter r = some (CPtr.ptr r) := by
  refine ⟨utf8_filter_bytes s, utf8_filter_eq s, ?_⟩
  rw [utf8_filter_eq, (filter_bytes_fixed s hb).2]

/-- C9 at `"A\xE2\x82B"`. -/
theorem C9_utf8_filter_idempotent_witness :
    IsBytes [65, 0xE2, 0x82, 66] ∧
    ∃ r : List Nat, utf8_filter [65, 0xE2, 0x82, 66] = some (CPtr.ptr r) ∧
      utf8_filter r = some (CPtr.ptr r) :=
  ⟨by decide, C9_utf8_filter_idempotent [65, 0xE2, 0x82, 66] (by decide)⟩

/-- C10 (counterexample): U+FFFE needs 3 bytes, `EF BF BE`, and
`utf8_encoded_valid_unichar` returns -1 on them, not 3. -/
theorem C10_counterexample :
    utf8_enc 0xFFFE = [0xEF, 0xBF, 0xBE] ∧
      utf8_unichar_to_encoded_len 0xFFFE = 3 ∧
      utf8_encoded_valid_unichar (utf8_enc 0xFFFE) = -1 ∧
      ¬ (utf8_encoded_valid_unichar (utf8_enc 0xFFFE) = utf8_unichar_to_encoded_len 0xFFFE) := by
  decide

/-- C10 (amended): for every `v` below `2^31`, `enc v` has
`utf8_unichar_to_encoded_len v` bytes and decodes to `v`, and
`utf8_encoded_valid_unichar (enc v)` is that length when `v < 0x80` or
`is_unicode_valid v`, and -1 otherwise. -/
theorem C10_round_trip (v : Nat) (hv : v < 2147483648) :
    ((utf8_enc v).length : Int) = utf8_unichar_to_encoded_len (v : Int) ∧
    utf8_encoded_to_unichar (utf8_enc v) = (v : Int) ∧
    utf8_encoded_valid_unichar (utf8_enc v) =
      (if v < 0x80 ∨ is_unicode_valid v = true then utf8_unichar_to_encoded_len (v : Int)
      else -1) := by
  refine ⟨?_, to_unichar_enc v hv, valid_unichar_enc v hv⟩
  rw [unichar_len_nat]
  by_cases h1 : v < 128
  · rw [utf8_enc_1 v h1, if_pos h1]; rfl
  by_cases h2 : v < 2048
  · rw [utf8_enc_2 v ⟨by omega, h2⟩, if_neg h1, if_pos h2]; rfl
  by_cases h3 : v < 65536
  · rw [utf8_enc_3 v ⟨by omega, h3⟩, if_neg h1, if_neg h2, if_pos h3]; rfl
  by_cases h4 : v < 2097152
  · rw [utf8_enc_4 v ⟨by omega, h4⟩, if_neg h1, if_neg h2, if_neg h3, if_pos h4]; rfl
  by_cases h5 : v < 67108864
  · rw [utf8_enc_5 v ⟨by omega, h5⟩, if_neg h1, if_neg h2, if_neg h3, if_neg h4, if_pos h5]; rfl
  · rw [utf8_enc_6 v (by omega), if_neg h1, if_neg h2, if_neg h3, if_neg h4, if_neg h5]; rfl

/-- C10 (amended) at U+20AC. -/
theorem C10_round_trip_witness :
    8364 < 2147483648 ∧
    (((utf8_enc 8364).length : Int) = utf8_unichar_to_encoded_len ((8364 : Nat) : Int) ∧
    utf8_encoded_to_unichar (utf8_enc 8364) = ((8364 : Nat) : Int) ∧
    utf8_encoded_valid_unichar (utf8_enc 8364) =
      (if 8364 < 0x80 ∨ is_unicode_valid 8364 = true then
        utf8_unichar_to_encoded_len ((8364 : Nat) : Int)
      else -1)) :=
  ⟨by decide, C10_round_trip 8364 (by decide)⟩

/-! ## ASCII helpers -/

theorem ascii_is_valid_go_eq (str : List Nat) :
    ∀ p : List Nat, NulFree p →
      ((∀ b ∈ p, b < 0x80) → ascii_is_valid_go str p = CPtr.ptr str) ∧
      ((¬ ∀ b ∈ p, b < 0x80) → ascii_is_valid_go str p = CPtr.NULL) := by
  intro p
  induction p with
  | nil =>
    intro _
    exact ⟨fun _ => rfl, fun h => absurd (fun b hb => by simp at hb) h⟩
  | cons c rest ih =>
    intro hz
    have hc0 : c ≠ 0 := hz c (List.mem_cons_self _ _)
    obtain ⟨i1, i2⟩ := ih (fun b hb => hz b (List.mem_cons_of_mem _ hb))
    rw [ascii_is_valid_go, if_neg hc0]
    by_cases hc : c ≥ 128
    · rw [if_pos hc]
      refine ⟨fun h => ?_, fun _ => rfl⟩
      have := h c (List.mem_cons_self _ _)
      omega
    · rw [if_neg hc]
      constructor
      · intro h
        exact i1 (fun b hb => h b (List.mem_cons_of_mem _ hb))
      · intro h
        apply i2
        intro hall
        apply h
        intro b hb
        rcases List.mem_cons.mp hb with rfl | hb
        · omega
        · exact hall b hb

theorem ascii_filter_go_eq :
    ∀ (p d : List Nat), NulFree p →
      ascii_filter_go p d = d ++ p.filter (fun b => decide (b < 0x80)) := by
  intro p
  induction p with
  | nil => intro d _; simp [ascii_filter_go]
  | cons c rest ih =>
    intro d hz
    have hc0 : c ≠ 0 := hz c (List.mem_cons_self _ _)
    have hz2 : NulFree rest := fun b hb => hz b (List.mem_cons_of_mem _ hb)
    rw [ascii_filter_go, if_neg hc0]
    by_cases hc : c < 128
    · rw [if_pos hc, ih _ hz2, List.filter_cons_of_pos (by simpa using hc)]
      simp
    · rw [if_neg hc, ih _ hz2, List.filter_cons_of_neg (by simpa using hc)]

/-! ## Size of the escaped encoding -/

theorem escape_length_le (s : List Nat) (hb : IsBytes s) :
    (udev_escape s).length ≤ 4 * s.length := by
  generalize hl : s.length = n
  induction n using Nat.strong_induction_on generalizing s with
  | _ n ih =>
    subst hl
    by_cases h0 : rd s 0 = 0
    · rw [escape_nul s h0]; simp
    · have hpos := rd_pos_length s 0 h0
      by_cases hv : utf8_encoded_valid_unichar s > 1
      · obtain ⟨c, hc, -, h234, htl, -⟩ := valid_unichar_gt_one s hb hv
        have hdl := length_drop_lt s c (by omega) h0
        have := ih _ hdl (s.drop c) (isBytes_drop s c hb) rfl
        rw [escape_multi s hb h0 c hc (by omega), List.length_append, htl]
        rw [List.length_drop] at this hdl
        omega
      · have hdl := length_drop_lt s 1 (by omega) h0
        have := ih _ hdl (s.drop 1) (isBytes_drop s 1 hb) rfl
        rw [List.length_drop] at this
        by_cases hesc : rd s 0 = 92 ∨ in_udev_alphabet (rd s 0) = false
        · rw [escape_esc s hb h0 hv hesc, List.length_append]
          simp only [List.length_cons, List.length_nil]
          omega
        · rw [escape_plain s hb h0 hv hesc, List.length_cons]
          omega

/-! ## Control characters and strict validation -/

theorem validText_append (a b : List Nat) (ha : IsValidText a) (hb : IsValidText b) :
    IsValidText (a ++ b) := by
  obtain ⟨us, h1, rfl⟩ := ha
  obtain ⟨vs, h2, rfl⟩ := hb
  refine ⟨us ++ vs, ?_, by simp⟩
  intro u hu
  rcases List.mem_append.mp hu with h | h
  · exact h1 u h
  · exact h2 u h

theorem validUnit_isBytes (u : List Nat) (hu : IsValidUnit u) : IsBytes u := by
  rcases hu with ⟨b, hb, rfl⟩ | hm
  · intro x hx
    simp at hx
    omega
  · exact multibyte_isBytes u hm

theorem validText_isBytes (s : List Nat) (h : IsValidText s) : IsBytes s := by
  obtain ⟨us, h1, rfl⟩ := h
  intro x hx
  obtain ⟨u, hu, hxu⟩ := List.mem_flatten.mp hx
  exact validUnit_isBytes u (h1 u hu) x hxu

theorem validText_unit (u : List Nat) (hu : IsValidUnit u) : IsValidText u :=
  ⟨[u], by simpa using hu, by simp⟩

theorem utf8_is_valid_of_validText (s : List Nat) (hz : NulFree s) (h : IsValidText s) :
    utf8_is_valid s = some (CPtr.ptr s) := by
  have hb := validText_isBytes s h
  rcases validate_go_null_mode s hb hz (s.length + 1) s (by omega) with ⟨-, b⟩ | ⟨a, -⟩
  · exact b
  · exact absurd h a

theorem utf8_is_valid_of_not_validText (s : List Nat) (hb : IsBytes s) (hz : NulFree s)
    (h : ¬ IsValidText s) : utf8_is_valid s = some CPtr.NULL := by
  rcases validate_go_null_mode s hb hz (s.length + 1) s (by omega) with ⟨a, -⟩ | ⟨-, b⟩
  · exact absurd a h
  · exact b

theorem control_enc_unit (c : Nat) (hc : is_unicode_control c = true) (hc0 : c ≠ 0) :
    IsValidUnit (utf8_enc c) ∧ NulFree (utf8_enc c) := by
  have hr : c < 0x20 ∨ (0x7F ≤ c ∧ c ≤ 0x9F) := by
    unfold is_unicode_control at hc
    simp at hc
    omega
  by_cases h1 : c < 128
  · rw [utf8_enc_1 c h1]
    refine ⟨Or.inl ⟨c, h1, rfl⟩, ?_⟩
    intro b hb
    simp at hb
    omega
  · have h2 : 128 ≤ c ∧ c < 2048 := by omega
    refine ⟨Or.inr ⟨c, Or.inl ((unichar_len_eq_2 c).mpr h2),
      is_unicode_valid_small c (by omega), rfl⟩, ?_⟩
    rw [utf8_enc_2 c h2]
    intro b hb
    simp at hb
    omega

/-! ## Shape of the filtered string -/

theorem filter_bytes_shape (s : List Nat) (hb : IsBytes s) (hz : NulFree s) :
    List.Forall₂ (fun o i => (o = i ∨ o = FILTER_CHAR) ∧ (i < 0x80 → o = i))
      (utf8_filter_bytes s) s := by
  generalize hl : s.length = n
  induction n using Nat.strong_induction_on generalizing s with
  | _ n ih =>
    subst hl
    cases s with
    | nil =>
      rw [filter_bytes_nul [] (rd_nil 0)]
      exact List.Forall₂.nil
    | cons c t =>
      have hc0 : c ≠ 0 := hz c (List.mem_cons_self _ _)
      have hbt : IsBytes t := fun b h => hb b (List.mem_cons_of_mem _ h)
      have hzt : NulFree t := fun b h => hz b (List.mem_cons_of_mem _ h)
      have iht := ih t.length (by simp) t hbt hzt rfl
      by_cases h1 : c < 128
      · rw [filter_bytes_cons_ascii c t (by omega) h1]
        exact List.Forall₂.cons ⟨Or.inl rfl, fun _ => rfl⟩ iht
      · cases hs : utf8_validate_seq (c :: t) with
        | some m =>
          have hm := validate_seq_size _ m hs
          have hr0 : rd (c :: t) 0 ≠ 0 := by rw [rd_cons_zero]; exact hc0
          have hdl := length_drop_lt (c :: t) m (by omega) hr0
          have ihd := ih _ hdl ((c :: t).drop m) (isBytes_drop _ m hb) (nulFree_drop _ m hz) rfl
          rw [filter_bytes_seq (c :: t) m (by rw [rd_cons_zero]; omega) hs]
          have hsame : List.Forall₂ (fun o i => (o = i ∨ o = FILTER_CHAR) ∧ (i < 0x80 → o = i))
              ((c :: t).take m) ((c :: t).take m) :=
            List.forall₂_same.mpr (fun x _ => ⟨Or.inl rfl, fun _ => rfl⟩)
          have := List.rel_append hsame ihd
          simp only [List.take_append_drop] at this
          exact this
        | none =>
          rw [filter_bytes_cons_err c t (by omega) hs]
          exact List.Forall₂.cons ⟨Or.inr rfl, fun h => absurd h h1⟩ iht

/-! ## The two validation policies -/

theorem unichar_walk_eq (p : List Nat) (hb : IsBytes p) (hz : NulFree p) (fuel : Nat)
    (hf : p.length < fuel) :
    (IsValidText p ∧ unichar_walk fuel p = some true) ∨
    (¬ IsValidText p ∧ unichar_walk fuel p = some false) := by
  generalize hlen : p.length = len
  induction len using Nat.strong_induction_on generalizing p fuel with
  | _ len ih =>
    subst hlen
    obtain ⟨f, rfl⟩ : ∃ f, fuel = f + 1 := ⟨fuel - 1, by omega⟩
    by_cases hne : p = []
    · subst hne
      left
      exact ⟨validText_nil, by rw [unichar_walk, if_pos (rd_nil 0)]⟩
    · have h0 := nulFree_rd p hz hne
      rw [unichar_walk, if_neg h0]
      have step : ∀ n : Nat, 0 < n → utf8_encoded_valid_unichar p = (n : Int) →
          (IsValidText p ↔ IsValidText (p.drop n)) →
          (IsValidText p ∧ (if utf8_encoded_valid_unichar p = -1 then some false
              else unichar_walk f (p.drop (utf8_encoded_valid_unichar p).toNat)) = some true) ∨
          (¬ IsValidText p ∧ (if utf8_encoded_valid_unichar p = -1 then some false
              else unichar_walk f (p.drop (utf8_encoded_valid_unichar p).toNat)) = some false) := by
        intro n hn hv hiff
        have hl := length_drop_lt p n hn h0
        rw [hv, if_neg (by omega), Int.toNat_ofNat]
        rcases ih _ hl (p.drop n) (isBytes_drop p n hb) (nulFree_drop p n hz) f (by omega) rfl
          with ⟨a, b⟩ | ⟨a, b⟩
        · left; exact ⟨hiff.mpr a, b⟩
        · right; exact ⟨fun hh => a (hiff.mp hh), b⟩
      have multi : ∀ n : Nat, CharAt p n → 128 ≤ rd p 0 →
          (IsValidText p ↔ IsValidText (p.drop n)) := by
        intro n hc h128
        rw [validText_multi_iff p h128]
        constructor
        · rintro ⟨m, hm, ht⟩
          rwa [charAt_unique p m n hm hc] at ht
        · intro ht; exact ⟨n, hc, ht⟩
      rcases valid_unichar_cases p hb with ⟨h1, hv⟩ | ⟨h1, hc, hv⟩ | ⟨h1, hc, hv⟩ | ⟨h1, hc, hv⟩ |
          ⟨h1, hc, hv⟩
      · apply step 1 (by omega) (by rw [hv]; rfl)
        have hs := shape1 p h0
        conv_lhs => rw [hs]
        exact validText_ascii_iff _ _ h1
      · exact step 2 (by omega) (by rw [hv]; rfl) (multi 2 hc h1)
      · exact step 3 (by omega) (by rw [hv]; rfl) (multi 3 hc h1)
      · exact step 4 (by omega) (by rw [hv]; rfl) (multi 4 hc h1)
      · right
        rw [hv, if_pos rfl]
        refine ⟨?_, rfl⟩
        intro hh
        obtain ⟨m, hm, -⟩ := (validText_multi_iff p h1).mp hh
        exact hc m hm

/-! ## Sequences that no valid text contains -/

theorem rd_append_right (a b : List Nat) (k : Nat) : rd (a ++ b) (a.length + k) = rd b k := by
  unfold rd
  rw [List.getD_eq_getElem?_getD, List.getD_eq_getElem?_getD,
    List.getElem?_append_right (by omega)]
  simp

theorem rd_append_left (a b : List Nat) (k : Nat) (h : k < a.length) :
    rd (a ++ b) k = rd a k := by
  unfold rd
  rw [List.getD_eq_getElem?_getD, List.getD_eq_getElem?_getD, List.getElem?_append_left h]

theorem charAt_cont_lt (p : List Nat) (n : Nat) (h : CharAt p n) :
    ∀ j, 1 ≤ j → j < n → rd p j < 192 := by
  intro j h1 h2
  rcases h with ⟨rfl, -, -, c1⟩ | ⟨rfl, -, -, c1, c2, -⟩ | ⟨rfl, -, -, c1, c2, c3, -⟩
  · obtain rfl : j = 1 := by omega
    omega
  · obtain rfl | rfl : j = 1 ∨ j = 2 := by omega
    · omega
    · omega
  · obtain rfl | rfl | rfl : j = 1 ∨ j = 2 ∨ j = 3 := by omega
    · omega
    · omega
    · omega

theorem validUnit_tail_lt (u : List Nat) (hu : IsValidUnit u) :
    ∀ j, 1 ≤ j → j < u.length → rd u j < 192 := by
  intro j h1 h2
  rcases hu with ⟨b, -, rfl⟩ | hm
  · simp at h2; omega
  · obtain ⟨n, hc, hl⟩ := multibyte_charAt u [] hm
    rw [List.append_nil] at hc
    exact charAt_cont_lt u n hc j h1 (by omega)

/-- A leader byte inside a valid text starts a unit: the text from there on is
valid text as well. -/
theorem validText_suffix_at_leader (pre q : List Nat) (hq : 192 ≤ rd q 0)
    (h : IsValidText (pre ++ q)) : IsValidText q := by
  generalize hl : pre.length = n
  induction n using Nat.strong_induction_on generalizing pre with
  | _ n ih =>
    subst hl
    by_cases hpre : pre = []
    · subst hpre; simpa using h
    · have hne : pre ++ q ≠ [] := by simp [hpre]
      obtain ⟨u, t, hu, ht, he⟩ := validText_split _ hne h
      have hune := validUnit_ne_nil u hu
      rcases List.append_eq_append_iff.mp he.symm with ⟨a, h1, h2⟩ | ⟨c, h1, h2⟩
      · have hlen : a.length < pre.length := by
          rw [h1, List.length_append]
          have : 0 < u.length := List.length_pos.mpr hune
          omega
        exact ih _ hlen a (by rw [← h2]; exact ht) rfl
      · cases c with
        | nil => rw [h2]; simpa using ht
        | cons x c1 =>
          exfalso
          have hx : rd q 0 = x := by rw [h2]; simp [rd]
          have hpl : 0 < pre.length := List.length_pos.mpr hpre
          have := validUnit_tail_lt u hu pre.length (by omega)
            (by rw [h1, List.length_append]; simp)
          rw [h1] at this
          have e := rd_append_right pre (x :: c1) 0
          rw [Nat.add_zero] at e
          rw [e, rd_cons_zero] at this
          omega

/-- No valid text contains a leader byte at which no valid character starts. -/
theorem not_validText_of_bad_leader (pre q : List Nat) (hq : 192 ≤ rd q 0)
    (hno : ∀ n, ¬ CharAt q n) : ¬ IsValidText (pre ++ q) := by
  intro h
  have hv := validText_suffix_at_leader pre q hq h
  obtain ⟨n, hc, -⟩ := (validText_multi_iff q (by omega)).mp hv
  exact hno n hc

theorem valid_unichar_of_no_char (q : List Nat) (hb : IsBytes q) (hq : 128 ≤ rd q 0)
    (hno : ∀ n, ¬ CharAt q n) : utf8_encoded_valid_unichar q = -1 := by
  rcases valid_unichar_cases q hb with ⟨h1, -⟩ | ⟨-, hc, -⟩ | ⟨-, hc, -⟩ | ⟨-, hc, -⟩ | ⟨-, -, hv⟩
  · omega
  · exact absurd hc (hno 2)
  · exact absurd hc (hno 3)
  · exact absurd hc (hno 4)
  · exact hv

theorem overlong_props (o post : List Nat) (ho : IsOverlong o) :
    IsBytes o ∧ NulFree o ∧ 192 ≤ rd (o ++ post) 0 ∧ ∀ n, ¬ CharAt (o ++ post) n := by
  rcases ho with ⟨c0, c1, rfl, h0, h0b, h1, hm⟩ | ⟨c0, c1, c2, rfl, h0, h0b, h1, h2, hm⟩ |
      ⟨c0, c1, c2, c3, rfl, h0, h0b, h1, h2, h3, hm⟩
  · refine ⟨?_, ?_, ?_, ?_⟩
    · intro b hb; simp at hb; omega
    · intro b hb; simp at hb; omega
    · simp [rd]; omega
    · intro n hc
      rcases charAt_lead _ _ hc with ⟨rfl, hl⟩ | ⟨-, hl⟩ | ⟨-, hl⟩
      · have := (charAt_2_iff _).mp hc
        simp only [List.cons_append, rd_cons_zero] at this
        omega
      · simp only [List.cons_append, rd_cons_zero] at hl; omega
      · simp only [List.cons_append, rd_cons_zero] at hl; omega
  · refine ⟨?_, ?_, ?_, ?_⟩
    · intro b hb; simp at hb; omega
    · intro b hb; simp at hb; omega
    · simp [rd]; omega
    · intro n hc
      rcases charAt_lead _ _ hc with ⟨-, hl⟩ | ⟨rfl, hl⟩ | ⟨-, hl⟩
      · simp only [List.cons_append, rd_cons_zero] at hl; omega
      · have := (charAt_3_iff _).mp hc
        simp only [List.cons_append, List.nil_append, rd_cons_zero, rd_cons_succ] at this
        omega
      · simp only [List.cons_append, rd_cons_zero] at hl; omega
  · refine ⟨?_, ?_, ?_, ?_⟩
    · intro b hb; simp at hb; omega
    · intro b hb; simp at hb; omega
    · simp [rd]; omega
    · intro n hc
      rcases charAt_lead _ _ hc with ⟨-, hl⟩ | ⟨-, hl⟩ | ⟨rfl, hl⟩
      · simp only [List.cons_append, rd_cons_zero] at hl; omega
      · simp only [List.cons_append, rd_cons_zero] at hl; omega
      · have := (charAt_4_iff _).mp hc
        simp only [List.cons_append, List.nil_append, rd_cons_zero, rd_cons_succ] at this
        omega

/-! ## Surrogates -/

theorem and_hi_mask (v : Nat) (h : v < 4294967296) :
    v &&& 0xFFFFF800 = v / 2048 * 2048 := by
  have e1 : (0xFFFFF800 : Nat) = (2 ^ 21 - 1) <<< 11 := by decide
  have e2 : v / 2048 * 2048 = ((v % 2 ^ 32) >>> 11) <<< 11 := by
    rw [Nat.shiftLeft_eq, Nat.shiftRight_eq_div_pow, Nat.mod_eq_of_lt (by omega)]
  rw [e2, e1]
  apply Nat.eq_of_testBit_eq
  intro i
  simp only [Nat.testBit_and, Nat.testBit_shiftLeft, Nat.testBit_shiftRight,
    Nat.testBit_two_pow_sub_one, Nat.testBit_mod_two_pow]
  by_cases hi : i ≥ 11
  · have e3 : 11 + (i - 11) = i := by omega
    rw [e3]
    by_cases h32 : i < 32
    · have : i - 11 < 21 := by omega
      simp [hi, h32, this]
    · have : ¬ i - 11 < 21 := by omega
      simp [hi, h32, this]
  · simp [hi]

theorem surrogate_mask_iff (v : Nat) (h : v < 4294967296) :
    (v &&& 0xFFFFF800 = 0xD800) ↔ (0xD800 ≤ v ∧ v ≤ 0xDFFF) := by
  rw [and_hi_mask v h]
  omega

theorem surrogate_invalid (v : Nat) (h : 0xD800 ≤ v ∧ v ≤ 0xDFFF) :
    is_unicode_valid v = false := by
  unfold is_unicode_valid
  rw [if_neg (by omega), if_pos ((surrogate_mask_iff v (by omega)).mpr h)]

/-! ## Control bytes and `utf8_is_printable` -/

theorem rd_drop (p : List Nat) (a b : Nat) : rd (p.drop a) b = rd p (a + b) := by
  unfold rd
  rw [List.getD_eq_getElem?_getD, List.getD_eq_getElem?_getD, List.getElem?_drop]

theorem size_sub_one (length : Nat) (h0 : 0 < length) (hlen : length < 18446744073709551616) :
    size_sub length 1 = length - 1 := by
  unfold size_sub
  omega

theorem printable_one_remaining_cases (min val pos : Nat) (p : List Nat) (length : Nat) :
    (printable_one_remaining min val pos p length).1 = none ∨
    (is_continuation_char (rd p 1) = true ∧
      ∃ val1, (printable_one_remaining min val pos p length).1 =
        some (val1, pos + 1, p.drop 1, size_sub length 1)) := by
  unfold printable_one_remaining
  simp only [rd_drop, Nat.add_zero]
  by_cases hc : is_continuation_char (rd p 1) = true
  · simp only [hc, Bool.not_true, Bool.false_eq_true, if_false]
    split_ifs
    · left; rfl
    · right; exact ⟨trivial, _, rfl⟩
  · left
    have : is_continuation_char (rd p 1) = false := by simpa using hc
    simp [this]

theorem printable_two_remaining_cases (min val pos : Nat) (p : List Nat) (length : Nat) :
    (printable_two_remaining min val pos p length).1 = none ∨
    (is_continuation_char (rd p 1) = true ∧ is_continuation_char (rd p 2) = true ∧
      ∃ val1, (printable_two_remaining min val pos p length).1 =
        some (val1, pos + 2, p.drop 2, size_sub (size_sub length 1) 1)) := by
  unfold printable_two_remaining
  simp only [rd_drop, Nat.add_zero]
  by_cases hc : is_continuation_char (rd p 1) = true
  · simp only [hc, Bool.not_true, Bool.false_eq_true, if_false]
    rcases printable_one_remaining_cases min (merge_continuation_char val (rd p 1)) (pos + 1)
      (p.drop 1) (size_sub length 1) with h | ⟨h1, v, h2⟩
    · left; exact h
    · right
      rw [rd_drop] at h1
      refine ⟨trivial, h1, v, ?_⟩
      rw [h2, List.drop_drop]
  · left
    have : is_continuation_char (rd p 1) = false := by simpa using hc
    simp [this]

/-- Outcome of the multi-byte branch: failure, or `n` continuation bytes
consumed, `n` being 1, 2 or 3. -/
theorem printable_multibyte_cases (pos : Nat) (p : List Nat) (length : Nat) :
    (printable_multibyte pos p length).1 = none ∨
    (is_continuation_char (rd p 1) = true ∧
      ∃ val1, (printable_multibyte pos p length).1 =
        some (val1, pos + 1, p.drop 1, size_sub length 1)) ∨
    (is_continuation_char (rd p 1) = true ∧ is_continuation_char (rd p 2) = true ∧
      ∃ val1, (printable_multibyte pos p length).1 =
        some (val1, pos + 2, p.drop 2, size_sub (size_sub length 1) 1)) ∨
    (is_continuation_char (rd p 1) = true ∧ is_continuation_char (rd p 2) = true ∧
      is_continuation_char (rd p 3) = true ∧
      ∃ val1, (printable_multibyte pos p length).1 =
        some (val1, pos + 3, p.drop 3, size_sub (size_sub (size_sub length 1) 1) 1)) := by
  unfold printable_multibyte
  simp only [rd_drop, Nat.add_zero]
  split_ifs with h1 h2 h3 h4 h5
  · rcases printable_one_remaining_cases 128 (rd p 0 &&& 0x1e) pos p length with h | h
    · left; exact h
    · right; left; exact h
  · rcases printable_two_remaining_cases (1 <<< 11) (rd p 0 &&& 0x0f) pos p length with h | h
    · left; exact h
    · right; right; left; exact h
  · left; rfl
  · left; rfl
  · have hc : is_continuation_char (rd p 1) = true := by simpa using h5
    rcases printable_two_remaining_cases (1 <<< 16)
      (merge_continuation_char (rd p 0 &&& 0x07) (rd p 1)) (pos + 1) (p.drop 1)
      (size_sub length 1) with h | ⟨c2, c3, v, h⟩
    · left; exact h
    · right; right; right
      rw [rd_drop] at c2 c3
      refine ⟨hc, c2, c3, v, ?_⟩
      simp only []
      rw [h, List.drop_drop]
  · left; rfl

theorem printable_go_none (fuel pos : Nat) (p : List Nat) (length : Nat) (h0 : length ≠ 0)
    (hr : (if rd p 0 < 128 then
        ((some (rd p 0, pos, p, length), []) : Option (Nat × Nat × List Nat × Nat) × List Nat)
      else printable_multibyte pos p length).1 = none) :
    (utf8_is_printable_go (fuel + 1) pos p length).1 = some false := by
  rw [utf8_is_printable_go, if_neg h0]
  simp only [hr]

theorem printable_go_some (fuel pos : Nat) (p : List Nat) (length : Nat) (h0 : length ≠ 0)
    (val pos1 : Nat) (p1 : List Nat) (length1 : Nat)
    (hr : (if rd p 0 < 128 then
        ((some (rd p 0, pos, p, length), []) : Option (Nat × Nat × List Nat × Nat) × List Nat)
      else printable_multibyte pos p length).1 = some (val, pos1, p1, length1)) :
    (utf8_is_printable_go (fuel + 1) pos p length).1 =
      if is_unicode_control val = true then some false
      else (utf8_is_printable_go fuel (pos1 + 1) (p1.drop 1) (size_sub length1 1)).1 := by
  rw [utf8_is_printable_go, if_neg h0]
  simp only [hr]
  split_ifs <;> rfl

theorem control_byte_not_cont (c : Nat) (h : c < 128) : is_continuation_char c = false := by
  have := is_continuation_char_iff c (by omega)
  by_contra hc
  have h2 := this.mp (by simpa using hc)
  omega

/-- A control byte inside the first `length` bytes makes the scan return false. -/
theorem printable_go_control (k : Nat) :
    ∀ (fuel pos : Nat) (p : List Nat) (length : Nat), k < fuel → k < length →
      length < 18446744073709551616 → rd p k < 128 → is_unicode_control (rd p k) = true →
      (utf8_is_printable_go fuel pos p length).1 = some false := by
  induction k using Nat.strong_induction_on with
  | _ k ih =>
    intro fuel pos p length hf hk hlen hlt hctl
    obtain ⟨f, rfl⟩ : ∃ f, fuel = f + 1 := ⟨fuel - 1, by omega⟩
    have h0 : length ≠ 0 := by omega
    have hnc := control_byte_not_cont (rd p k) hlt
    by_cases hc : rd p 0 < 128
    · rw [printable_go_some f pos p length h0 (rd p 0) pos p length (by rw [if_pos hc])]
      by_cases hcc : is_unicode_control (rd p 0) = true
      · rw [if_pos hcc]
      · rw [if_neg hcc]
        have hk0 : k ≠ 0 := by
          rintro rfl; exact hcc hctl
        rw [size_sub_one length (by omega) hlen]
        apply ih (k - 1) (by omega) f (pos + 1) (p.drop 1) (length - 1) (by omega) (by omega)
          (by omega)
        · rw [rd_drop, show 1 + (k - 1) = k by omega]; exact hlt
        · rw [rd_drop, show 1 + (k - 1) = k by omega]; exact hctl
    · have hk0 : k ≠ 0 := by
        rintro rfl; exact hc hlt
      rcases printable_multibyte_cases pos p length with h | ⟨c1, v, h⟩ | ⟨c1, c2, v, h⟩ |
          ⟨c1, c2, c3, v, h⟩
      · exact printable_go_none f pos p length h0 (by rw [if_neg hc]; exact h)
      · have hk1 : k ≠ 1 := by
          rintro rfl; rw [hnc] at c1; cases c1
        rw [printable_go_some f pos p length h0 v (pos + 1) (p.drop 1) (size_sub length 1)
          (by rw [if_neg hc]; exact h)]
        split_ifs
        · rfl
        · rw [size_sub_one length (by omega) hlen, size_sub_one (length - 1) (by omega) (by omega),
            List.drop_drop]
          apply ih (k - 2) (by omega) f _ _ _ (by omega) (by omega) (by omega)
          · rw [rd_drop, show 1 + 1 + (k - 2) = k by omega]; exact hlt
          · rw [rd_drop, show 1 + 1 + (k - 2) = k by omega]; exact hctl
      · have hk1 : k ≠ 1 := by
          rintro rfl; rw [hnc] at c1; cases c1
        have hk2 : k ≠ 2 := by
          rintro rfl; rw [hnc] at c2; cases c2
        rw [printable_go_some f pos p length h0 v (pos + 2) (p.drop 2)
          (size_sub (size_sub length 1) 1) (by rw [if_neg hc]; exact h)]
        split_ifs
        · rfl
        · rw [size_sub_one length (by omega) hlen, size_sub_one (length - 1) (by omega) (by omega),
            size_sub_one (length - 1 - 1) (by omega) (by omega), List.drop_drop]
          apply ih (k - 3) (by omega) f _ _ _ (by omega) (by omega) (by omega)
          · rw [rd_drop, show 2 + 1 + (k - 3) = k by omega]; exact hlt
          · rw [rd_drop, show 2 + 1 + (k - 3) = k by omega]; exact hctl
      · have hk1 : k ≠ 1 := by
          rintro rfl; rw [hnc] at c1; cases c1
        have hk2 : k ≠ 2 := by
          rintro rfl; rw [hnc] at c2; cases c2
        have hk3 : k ≠ 3 := by
          rintro rfl; rw [hnc] at c3; cases c3
        rw [printable_go_some f pos p length h0 v (pos + 3) (p.drop 3)
          (size_sub (size_sub (size_sub length 1) 1) 1) (by rw [if_neg hc]; exact h)]
        split_ifs
        · rfl
        · rw [size_sub_one length (by omega) hlen, size_sub_one (length - 1) (by omega) (by omega),
            size_sub_one (length - 1 - 1) (by omega) (by omega),
            size_sub_one (length - 1 - 1 - 1) (by omega) (by omega), List.drop_drop]
          apply ih (k - 4) (by omega) f _ _ _ (by omega) (by omega) (by omega)
          · rw [rd_drop, show 3 + 1 + (k - 4) = k by omega]; exact hlt
          · rw [rd_drop, show 3 + 1 + (k - 4) = k by omega]; exact hctl

/-- A buffer of ASCII bytes none of which is a control byte is printable. -/
theorem printable_go_ascii (s : List Nat) :
    ∀ (fuel pos : Nat) (rest : List Nat), s.length < fuel →
      s.length < 18446744073709551616 →
      (∀ b ∈ s, b < 128 ∧ is_unicode_control b = false) →
      (utf8_is_printable_go fuel pos (s ++ rest) s.length).1 = some true := by
  induction s with
  | nil =>
    intro fuel pos rest hf _ _
    obtain ⟨f, rfl⟩ : ∃ f, fuel = f + 1 := ⟨fuel - 1, by simp at hf; omega⟩
    rw [utf8_is_printable_go]
    simp
  | cons c t ih =>
    intro fuel pos rest hf hlen hall
    obtain ⟨f, rfl⟩ : ∃ f, fuel = f + 1 := ⟨fuel - 1, by omega⟩
    obtain ⟨hc, hcc⟩ := hall c (List.mem_cons_self _ _)
    have hr0 : rd (c :: t ++ rest) 0 = c := by simp [rd]
    rw [printable_go_some f pos _ _ (by simp) c pos (c :: t ++ rest) (c :: t).length
      (by rw [hr0, if_pos hc]), hcc]
    simp only [Bool.false_eq_true, if_false]
    rw [size_sub_one _ (by simp) hlen]
    simp only [List.length_cons, Nat.add_sub_cancel, List.cons_append, List.drop_succ_cons,
      List.drop_zero]
    simp only [List.length_cons] at hf hlen
    exact ih f (pos + 1) rest (by omega) (by omega)
      (fun b hb => hall b (List.mem_cons_of_mem _ hb))

theorem control_byte_iff (b : Nat) :
    is_control_byte b = true ↔ b < 128 ∧ is_unicode_control b = true := by
  unfold is_control_byte is_unicode_control
  simp
  omega

/-! ## `utf16_to_utf8` -/

theorem utf16_unit_val (b0 b1 : Nat) (h0 : b0 < 256) (h1 : b1 < 256) :
    ((b1 <<< 8) ||| b0) % 65536 = b0 + 256 * b1 := by
  have h := Nat.mul_add_lt_is_or (i := 8) (b := b0) (by omega) b1
  rw [Nat.shiftLeft_eq, show b1 * 2 ^ 8 = 2 ^ 8 * b1 by ring, ← h]
  omega

theorem utf16_enc_bytes (c : Nat) (hc : c < 65536) :
    (0xc0 ||| (c >>> 6)) % 256 = 0xC0 ||| (c >>> 6) ∨ 0x800 ≤ c := by
  by_cases h : c < 0x800
  · left
    apply Nat.mod_eq_of_lt
    have h1 : c >>> 6 < 2 ^ 8 := by rw [Nat.shiftRight_eq_div_pow]; omega
    exact Nat.or_lt_two_pow (by decide) h1
  · right; omega

theorem utf16_lead3_byte (c : Nat) (hc : c < 65536) :
    (0xe0 ||| (c >>> 12)) % 256 = 0xE0 ||| (c >>> 12) := by
  apply Nat.mod_eq_of_lt
  have h1 : c >>> 12 < 2 ^ 8 := by rw [Nat.shiftRight_eq_div_pow]; omega
  exact Nat.or_lt_two_pow (by decide) h1

theorem utf16_cont_byte (x : Nat) : (0x80 ||| (x &&& 0x3f)) % 256 = 0x80 ||| (x &&& 0x3F) := by
  apply Nat.mod_eq_of_lt
  have h1 : x &&& 0x3f < 2 ^ 8 := by rw [and_3f]; omega
  exact Nat.or_lt_two_pow (by decide) h1

theorem utf16_unit_enc_length (c : Nat) : (utf16_unit_enc c).length ≤ 3 := by
  unfold utf16_unit_enc
  split_ifs <;> simp

/-- The loop on the remaining buffer `p`: it stores the encodings of the units
before the first zero unit and a NUL, and reads inside the buffer only. -/
theorem utf16_go_eq (p : List Nat) :
    ∀ (fuel pos length : Nat) (t reads : List Nat), IsBytes p → p.length % 2 = 0 →
      length = pos + p.length → p.length / 2 < fuel →
      ∃ r1 : List Nat,
        utf16_to_utf8_go length fuel pos p t reads =
          some (t ++ ((units_before_zero (utf16_units p)).flatMap
            utf16_unit_enc ++ [0]), reads ++ r1) ∧
        (∀ i ∈ r1, i < length) ∧
        ((units_before_zero (utf16_units p)).flatMap
            utf16_unit_enc).length ≤ 3 * (p.length / 2) := by
  generalize hl : p.length = n
  induction n using Nat.strong_induction_on generalizing p with
  | _ n ih =>
    subst hl
    intro fuel pos length t reads hb heven hlen hf
    obtain ⟨f, rfl⟩ : ∃ f, fuel = f + 1 := ⟨fuel - 1, by omega⟩
    rcases p with _ | ⟨b0, _ | ⟨b1, rest⟩⟩
    · refine ⟨[], ?_, by simp, by simp [utf16_units, units_before_zero]⟩
      rw [utf16_to_utf8_go, if_neg (by simp at hlen; omega)]
      simp [utf16_units, units_before_zero]
    · simp at heven
    · have h0 : b0 < 256 := hb b0 (by simp)
      have h1 : b1 < 256 := hb b1 (by simp)
      have hbr : IsBytes rest := fun b h => hb b (by simp [h])
      simp only [List.length_cons] at heven hlen hf
      have hc : ((rd (b0 :: b1 :: rest) 1 <<< 8) ||| rd (b0 :: b1 :: rest) 0) % 65536
          = b0 + 256 * b1 := by
        rw [rd_cons_succ, rd_cons_zero, rd_cons_zero]
        exact utf16_unit_val b0 b1 h0 h1
      have hclt : b0 + 256 * b1 < 65536 := by omega
      obtain ⟨r1, hr, hin, hle⟩ := ih rest.length (by simp only [List.length_cons]; omega) rest rfl f (pos + 2) length
        (t ++ utf16_unit_enc (b0 + 256 * b1)) (reads ++ [pos + 1, pos]) hbr (by omega)
        (by omega) (by omega)
      have hdrop : (b0 :: b1 :: rest).drop 2 = rest := rfl
      rw [utf16_to_utf8_go, if_pos (by omega)]
      simp only [hc, hdrop]
      by_cases hz : b0 + 256 * b1 = 0
      · refine ⟨[pos + 1, pos], ?_, ?_, ?_⟩
        · rw [if_pos hz]
          simp [utf16_units, units_before_zero, hz]
        · intro i hi
          simp at hi
          omega
        · simp [utf16_units, units_before_zero, hz]
      · have hstep : utf16_to_utf8_go length f (pos + 2) rest
            (t ++ utf16_unit_enc (b0 + 256 * b1)) (reads ++ [pos + 1, pos]) =
            some (t ++ ((units_before_zero (utf16_units (b0 :: b1 :: rest))).flatMap
              utf16_unit_enc ++ [0]),
              reads ++ ([pos + 1, pos] ++ r1)) := by
          rw [hr]
          simp [utf16_units, units_before_zero, hz, List.append_assoc]
        refine ⟨[pos + 1, pos] ++ r1, ?_, ?_, ?_⟩
        · rw [if_neg hz, ← hstep]
          unfold utf16_unit_enc
          by_cases hA : b0 + 256 * b1 < 0x80
          · rw [if_pos hA, if_pos hA, Nat.mod_eq_of_lt (by omega)]
          · rw [if_neg hA, if_neg hA]
            by_cases hB : b0 + 256 * b1 < 0x800
            · rw [if_pos hB, if_pos hB, utf16_cont_byte]
              rcases utf16_enc_bytes _ hclt with e | e
              · rw [e]
              · omega
            · rw [if_neg hB, if_neg hB, utf16_cont_byte, utf16_cont_byte, utf16_lead3_byte _ hclt]
        · intro i hi
          rcases List.mem_append.mp hi with h | h
          · simp at h; omega
          · exact hin i h
        · have := utf16_unit_enc_length (b0 + 256 * b1)
          simp only [utf16_units, units_before_zero, hz, if_false, List.flatMap_cons,
            List.length_append, List.length_cons]
          omega

/-! ## The claims, continued -/

/-- C11: a string that contains a well-formed but overlong 2-, 3- or 4-byte
sequence makes `utf8_is_valid` return `NULL`, and `utf8_encoded_valid_unichar`
returns -1 at the first byte of the sequence; `C0 80` is such a sequence. -/
theorem C11_overlong_rejected (pre o post : List Nat) (ho : IsOverlong o)
    (hbpre : IsBytes pre) (hbpost : IsBytes post) (hzpre : NulFree pre) (hzpost : NulFree post) :
    utf8_is_valid (pre ++ (o ++ post)) = some CPtr.NULL ∧
    utf8_encoded_valid_unichar (o ++ post) = -1 ∧
    IsOverlong [0xC0, 0x80] := by
  obtain ⟨hbo, hzo, hlead, hno⟩ := overlong_props o post ho
  have hbq : IsBytes (o ++ post) := isBytes_append o post hbo hbpost
  refine ⟨?_, valid_unichar_of_no_char _ hbq (by omega) hno, ?_⟩
  · apply utf8_is_valid_of_not_validText _ (isBytes_append pre _ hbpre hbq)
    · intro b hb
      rcases List.mem_append.mp hb with h | h
      · exact hzpre b h
      · rcases List.mem_append.mp h with h | h
        · exact hzo b h
        · exact hzpost b h
    · exact not_validText_of_bad_leader pre _ hlead hno
  · left
    exact ⟨0xC0, 0x80, rfl, by decide, by decide, by decide, by decide⟩

/-- C11 at `"A"`, `C0 80`, `"B"`. -/
theorem C11_overlong_rejected_witness :
    IsOverlong [0xC0, 0x80] ∧ IsBytes [65] ∧ IsBytes [66] ∧ NulFree [65] ∧ NulFree [66] ∧
    (utf8_is_valid ([65] ++ ([0xC0, 0x80] ++ [66])) = some CPtr.NULL ∧
    utf8_encoded_valid_unichar ([0xC0, 0x80] ++ [66]) = -1 ∧
    IsOverlong [0xC0, 0x80]) :=
  ⟨Or.inl ⟨0xC0, 0x80, rfl, by decide, by decide, by decide, by decide⟩,
    by decide, by decide, by decide, by decide,
    C11_overlong_rejected [65] [0xC0, 0x80] [66]
      (Or.inl ⟨0xC0, 0x80, rfl, by decide, by decide, by decide, by decide⟩)
      (by decide) (by decide) (by decide) (by decide)⟩

/-- C12: on 32-bit values the mask test `(v & 0xFFFFF800) == 0xD800` holds
exactly for `0xD800 ≤ v ≤ 0xDFFF`; for such `v`, `is_unicode_valid v` is false,
the encoding of `v` is `ED`, a byte in `A0..BF`, a byte in `80..BF`, a string
that contains it makes `utf8_is_valid` return `NULL`, and
`utf8_encoded_valid_unichar` returns -1 on it; `ED A0 80` encodes `0xD800`. -/
theorem C12_surrogate_rejected (v : Nat) (hv : 0xD800 ≤ v ∧ v ≤ 0xDFFF)
    (pre post : List Nat) (hbpre : IsBytes pre) (hbpost : IsBytes post)
    (hzpre : NulFree pre) (hzpost : NulFree post) :
    (∀ w : Nat, w < 4294967296 → ((w &&& 0xFFFFF800 = 0xD800) ↔ (0xD800 ≤ w ∧ w ≤ 0xDFFF))) ∧
    is_unicode_valid v = false ∧
    (∃ c1 c2 : Nat, utf8_enc v = [0xED, c1, c2] ∧ 0xA0 ≤ c1 ∧ c1 ≤ 0xBF ∧
      0x80 ≤ c2 ∧ c2 ≤ 0xBF) ∧
    utf8_is_valid (pre ++ (utf8_enc v ++ post)) = some CPtr.NULL ∧
    utf8_encoded_valid_unichar (utf8_enc v ++ post) = -1 ∧
    utf8_enc 0xD800 = [0xED, 0xA0, 0x80] := by
  have hinv := surrogate_invalid v hv
  have henc := utf8_enc_3 v (by omega)
  have hbe : IsBytes (utf8_enc v) := enc_isBytes v (by omega)
  have hze : NulFree (utf8_enc v) := by
    rw [henc]; intro b hb; simp at hb; omega
  have hlead : 192 ≤ rd (utf8_enc v ++ post) 0 := by
    rw [henc]; simp [rd]; omega
  have hno : ∀ n, ¬ CharAt (utf8_enc v ++ post) n := by
    intro n hc
    rcases charAt_lead _ _ hc with ⟨-, hl⟩ | ⟨rfl, -⟩ | ⟨-, hl⟩
    · rw [henc] at hl; simp only [List.cons_append, rd_cons_zero] at hl; omega
    · have h3 := (charAt_3_iff _).mp hc
      rw [henc] at h3
      simp only [List.cons_append, List.nil_append, rd_cons_zero, rd_cons_succ] at h3
      have e : ((0xE0 + v / 4096) % 16 * 64 + (0x80 + v / 64 % 64) % 64) * 64
          + (0x80 + v % 64) % 64 = v := by omega
      rw [e, hinv] at h3
      exact absurd h3.2.2.2.2 (by simp)
    · rw [henc] at hl; simp only [List.cons_append, rd_cons_zero] at hl; omega
  have hbq : IsBytes (utf8_enc v ++ post) := isBytes_append _ post hbe hbpost
  refine ⟨surrogate_mask_iff, hinv, ?_, ?_, valid_unichar_of_no_char _ hbq (by omega) hno,
    by decide⟩
  · refine ⟨0x80 + v / 64 % 64, 0x80 + v % 64, ?_, by omega, by omega, by omega, by omega⟩
    rw [henc]
    have e0 : 0xE0 + v / 4096 = 0xED := by omega
    rw [e0]
  · apply utf8_is_valid_of_not_validText _ (isBytes_append pre _ hbpre hbq)
    · intro b hb
      rcases List.mem_append.mp hb with h | h
      · exact hzpre b h
      · rcases List.mem_append.mp h with h | h
        · exact hze b h
        · exact hzpost b h
    · exact not_validText_of_bad_leader pre _ hlead hno

/-- C12 at `0xD800` between `"A"` and `"B"`. -/
theorem C12_surrogate_rejected_witness :
    (0xD800 ≤ 0xD800 ∧ 0xD800 ≤ 0xDFFF) ∧ IsBytes [65] ∧ IsBytes [66] ∧ NulFree [65] ∧
    NulFree [66] ∧
    ((∀ w : Nat, w < 4294967296 →
      ((w &&& 0xFFFFF800 = 0xD800) ↔ (0xD800 ≤ w ∧ w ≤ 0xDFFF))) ∧
    is_unicode_valid 0xD800 = false ∧
    (∃ c1 c2 : Nat, utf8_enc 0xD800 = [0xED, c1, c2] ∧ 0xA0 ≤ c1 ∧ c1 ≤ 0xBF ∧
      0x80 ≤ c2 ∧ c2 ≤ 0xBF) ∧
    utf8_is_valid ([65] ++ (utf8_enc 0xD800 ++ [66])) = some CPtr.NULL ∧
    utf8_encoded_valid_unichar (utf8_enc 0xD800 ++ [66]) = -1 ∧
    utf8_enc 0xD800 = [0xED, 0xA0, 0x80]) :=
  ⟨by decide, by decide, by decide, by decide, by decide,
    C12_surrogate_rejected 0xD800 (by decide) [65] [66] (by decide) (by decide) (by decide)
      (by decide)⟩

/-- C13: a buffer that holds, within its length, a byte of `0x00..0x1F` other
than tab and newline, or `0x7F`, is not printable; a buffer of bytes below
`0x80` is printable exactly when it holds no such byte; a string with `0x01`
fails and `"a\tb\n"` passes. -/
theorem C13_printable_control_policy (s rest : List Nat)
    (hlen : s.length < 18446744073709551616) :
    ((∃ b ∈ s, is_control_byte b = true) →
      (utf8_is_printable (s ++ rest) s.length).1 = some false) ∧
    ((∀ b ∈ s, b < 0x80) →
      ((utf8_is_printable (s ++ rest) s.length).1 = some true ↔
        ∀ b ∈ s, is_control_byte b = false)) ∧
    (utf8_is_printable [97, 1, 98] 3).1 = some false ∧
    (utf8_is_printable [97, 9, 98, 10] 4).1 = some true := by
  have ha : (∃ b ∈ s, is_control_byte b = true) →
      (utf8_is_printable (s ++ rest) s.length).1 = some false := by
    rintro ⟨b, hb, hc⟩
    obtain ⟨k, hk, rfl⟩ := List.getElem_of_mem hb
    obtain ⟨h1, h2⟩ := (control_byte_iff _).mp hc
    have hrd : rd (s ++ rest) k = s[k] := by
      rw [rd_append_left s rest k hk]
      unfold rd
      rw [List.getD_eq_getElem _ _ hk]
    unfold utf8_is_printable
    apply printable_go_control k _ _ _ _ (by omega) hk hlen
    · rw [hrd]; exact h1
    · rw [hrd]; exact h2
  refine ⟨ha, ?_, by decide, by decide⟩
  intro hascii
  constructor
  · intro ht b hb
    by_contra hc
    have hc2 : is_control_byte b = true := by simpa using hc
    rw [ha ⟨b, hb, hc2⟩] at ht
    cases ht
  · intro hall
    unfold utf8_is_printable
    apply printable_go_ascii s _ _ rest (by omega) hlen
    intro b hb
    refine ⟨hascii b hb, ?_⟩
    have := hall b hb
    by_contra hc
    have hc2 : is_unicode_control b = true := by simpa using hc
    rw [(control_byte_iff b).mpr ⟨hascii b hb, hc2⟩] at this
    cases this

/-- C13 at the buffer `"a\x01"` followed in memory by `"z"`. -/
theorem C13_printable_control_policy_witness :
    [97, 1].length < 18446744073709551616 ∧
    (((∃ b ∈ [97, 1], is_control_byte b = true) →
      (utf8_is_printable ([97, 1] ++ [122]) [97, 1].length).1 = some false) ∧
    ((∀ b ∈ [97, 1], b < 0x80) →
      ((utf8_is_printable ([97, 1] ++ [122]) [97, 1].length).1 = some true ↔
        ∀ b ∈ [97, 1], is_control_byte b = false)) ∧
    (utf8_is_printable [97, 1, 98] 3).1 = some false ∧
    (utf8_is_printable [97, 9, 98, 10] 4).1 = some true) :=
  ⟨by decide, C13_printable_control_policy [97, 1] [122] (by decide)⟩

/-- C14 (counterexample): the string `"\x01"` holds the control character
U+0001 and `utf8_is_valid` returns it, not `NULL`. -/
theorem C14_counterexample :
    is_unicode_control 1 = true ∧ utf8_is_valid [1] = some (CPtr.ptr [1]) := by
  decide

/-- C14 (amended): control characters do not make `utf8_is_valid` fail: a
control character `c` other than NUL, encoded between two valid texts, gives a
string that `utf8_is_valid` returns unchanged. -/
theorem C14_control_accepted (pre post : List Nat) (c : Nat)
    (hc : is_unicode_control c = true) (hc0 : c ≠ 0)
    (hpre : IsValidText pre) (hpost : IsValidText post)
    (hzpre : NulFree pre) (hzpost : NulFree post) :
    utf8_is_valid (pre ++ utf8_enc c ++ post) = some (CPtr.ptr (pre ++ utf8_enc c ++ post)) := by
  obtain ⟨hu, hzu⟩ := control_enc_unit c hc hc0
  apply utf8_is_valid_of_validText
  · intro b hb
    rcases List.mem_append.mp hb with h | h
    · rcases List.mem_append.mp h with h | h
      · exact hzpre b h
      · exact hzu b h
    · exact hzpost b h
  · exact validText_append _ _ (validText_append _ _ hpre (validText_unit _ hu)) hpost

/-- C14 (amended) at `"A"`, U+0085, `"B"`. -/
theorem C14_control_accepted_witness :
    is_unicode_control 0x85 = true ∧ 0x85 ≠ 0 ∧ IsValidText [65] ∧ IsValidText [66] ∧
    NulFree [65] ∧ NulFree [66] ∧
    utf8_is_valid ([65] ++ utf8_enc 0x85 ++ [66]) =
      some (CPtr.ptr ([65] ++ utf8_enc 0x85 ++ [66])) :=
  ⟨by decide, by decide, validText_unit _ (Or.inl ⟨65, by decide, rfl⟩),
    validText_unit _ (Or.inl ⟨66, by decide, rfl⟩), by decide, by decide,
    C14_control_accepted [65] [66] 0x85 (by decide) (by decide)
      (validText_unit _ (Or.inl ⟨65, by decide, rfl⟩))
      (validText_unit _ (Or.inl ⟨66, by decide, rfl⟩)) (by decide) (by decide)⟩

/-- C15: for a buffer of even length, `utf16_to_utf8` stores the encodings of
the 16-bit units that precede the first zero unit, each unit on its own in 1, 2
or 3 bytes, and then a NUL; a buffer with the same units before its first zero
unit gives the same bytes; the units `0x0041, 0x0000` give `"A"`. -/
theorem C15_utf16_to_utf8_spec (s : List Nat) (hb : IsBytes s) (heven : s.length % 2 = 0) :
    (∃ reads : List Nat, utf16_to_utf8 s s.length =
      some ((units_before_zero (utf16_units s)).flatMap utf16_unit_enc ++ [0],
        reads)) ∧
    (∀ s2 : List Nat, IsBytes s2 → s2.length % 2 = 0 →
      units_before_zero (utf16_units s2) = units_before_zero (utf16_units s) →
      ∃ out reads reads2 : List Nat, utf16_to_utf8 s s.length = some (out, reads) ∧
        utf16_to_utf8 s2 s2.length = some (out, reads2)) ∧
    utf16_to_utf8 [0x41, 0x00, 0x00, 0x00] 4 = some ([0x41, 0], [1, 0, 3, 2]) ∧
    utf16_to_utf8 [0x41, 0x00, 0x00, 0x00, 0x42, 0x00] 6 = some ([0x41, 0], [1, 0, 3, 2]) := by
  have key : ∀ x : List Nat, IsBytes x → x.length % 2 = 0 →
      ∃ reads : List Nat, utf16_to_utf8 x x.length =
        some ((units_before_zero (utf16_units x)).flatMap utf16_unit_enc
          ++ [0], reads) := by
    intro x hx he
    obtain ⟨r1, hr, -, -⟩ := utf16_go_eq x ((x.length + 1) / 2 + 1) 0 x.length [] [] hx he (by omega)
      (by omega)
    exact ⟨r1, by simpa [utf16_to_utf8] using hr⟩
  refine ⟨key s hb heven, ?_, by decide, by decide⟩
  intro s2 hb2 he2 heq
  obtain ⟨r, hr⟩ := key s hb heven
  obtain ⟨r2, hr2⟩ := key s2 hb2 he2
  exact ⟨_, r, r2, hr, by rw [hr2, heq]⟩

/-- C15 at the units `0x0041, 0x20AC, 0x0000, 0x0042`. -/
theorem C15_utf16_to_utf8_spec_witness :
    IsBytes [0x41, 0, 0xAC, 0x20, 0, 0, 0x42, 0] ∧
    [0x41, 0, 0xAC, 0x20, 0, 0, 0x42, 0].length % 2 = 0 ∧
    ((∃ reads : List Nat, utf16_to_utf8 [0x41, 0, 0xAC, 0x20, 0, 0, 0x42, 0]
        [0x41, 0, 0xAC, 0x20, 0, 0, 0x42, 0].length =
      some ((units_before_zero (utf16_units [0x41, 0, 0xAC, 0x20, 0, 0, 0x42, 0])).flatMap
        utf16_unit_enc ++ [0], reads)) ∧
    (∀ s2 : List Nat, IsBytes s2 → s2.length % 2 = 0 →
      units_before_zero (utf16_units s2) =
        units_before_zero (utf16_units [0x41, 0, 0xAC, 0x20, 0, 0, 0x42, 0]) →
      ∃ out reads reads2 : List Nat,
        utf16_to_utf8 [0x41, 0, 0xAC, 0x20, 0, 0, 0x42, 0]
          [0x41, 0, 0xAC, 0x20, 0, 0, 0x42, 0].length = some (out, reads) ∧
        utf16_to_utf8 s2 s2.length = some (out, reads2)) ∧
    utf16_to_utf8 [0x41, 0x00, 0x00, 0x00] 4 = some ([0x41, 0], [1, 0, 3, 2]) ∧
    utf16_to_utf8 [0x41, 0x00, 0x00, 0x00, 0x42, 0x00] 6 = some ([0x41, 0], [1, 0, 3, 2])) :=
  ⟨by decide, by decide,
    C15_utf16_to_utf8_spec [0x41, 0, 0xAC, 0x20, 0, 0, 0x42, 0] (by decide) (by decide)⟩

/-- C16: for a buffer of even length, the bytes `utf16_to_utf8` stores, the NUL
included, number at most `(length*3+1)/2 + 1`, which is the size allocated
whenever `length*3+1` does not wrap in `size_t`, and every index it reads is
below `length`. -/
theorem C16_utf16_to_utf8_bounds (s : List Nat) (hb : IsBytes s) (heven : s.length % 2 = 0) :
    ∃ out reads : List Nat, utf16_to_utf8 s s.length = some (out, reads) ∧
      out.length ≤ (s.length * 3 + 1) / 2 + 1 ∧
      (∀ i ∈ reads, i < s.length) ∧
      (s.length * 3 + 1 < 18446744073709551616 →
        utf16_alloc_size s.length = (s.length * 3 + 1) / 2 + 1) := by
  obtain ⟨r1, hr, hin, hle⟩ := utf16_go_eq s ((s.length + 1) / 2 + 1) 0 s.length [] [] hb heven
    (by omega) (by omega)
  refine ⟨_, _, by simpa [utf16_to_utf8] using hr, ?_, ?_, ?_⟩
  · simp only [List.nil_append, List.length_append, List.length_cons, List.length_nil]
    omega
  · intro i hi
    exact hin i (by simpa using hi)
  · intro h
    unfold utf16_alloc_size
    rw [Nat.mod_eq_of_lt h, Nat.mod_eq_of_lt (by omega)]

/-- C16 at a buffer of two units that need three bytes each. -/
theorem C16_utf16_to_utf8_bounds_witness :
    IsBytes [0xAC, 0x20, 0xFF, 0xFF] ∧ [0xAC, 0x20, 0xFF, 0xFF].length % 2 = 0 ∧
    ∃ out reads : List Nat,
      utf16_to_utf8 [0xAC, 0x20, 0xFF, 0xFF] [0xAC, 0x20, 0xFF, 0xFF].length =
        some (out, reads) ∧
      out.length ≤ ([0xAC, 0x20, 0xFF, 0xFF].length * 3 + 1) / 2 + 1 ∧
      (∀ i ∈ reads, i < [0xAC, 0x20, 0xFF, 0xFF].length) ∧
      ([0xAC, 0x20, 0xFF, 0xFF].length * 3 + 1 < 18446744073709551616 →
        utf16_alloc_size [0xAC, 0x20, 0xFF, 0xFF].length =
          ([0xAC, 0x20, 0xFF, 0xFF].length * 3 + 1) / 2 + 1) :=
  ⟨by decide, by decide, C16_utf16_to_utf8_bounds [0xAC, 0x20, 0xFF, 0xFF] (by decide)
    (by decide)⟩

/-- C17 (counterexample): for `"/"` (n = 1) a capacity of 3 bytes is at least
`4/3 × 1 + 1`, yet the call fails; the encoding with its NUL needs 5 bytes. -/
theorem C17_counterexample :
    3 * 3 ≥ 4 * [47].length + 3 ∧
      udev_encode_string [47] 3 = some (-1, []) ∧
      (udev_escape [47]).length + 1 = 5 := by
  decide

/-- C17 (amended): the escaped encoding of an input of `n` bytes, with its
terminator, takes at most `4 × n + 1` bytes, so `udev_encode_string` succeeds
whenever the capacity is at least `4 × n + 1`. -/
theorem C17_escape_bound (s : List Nat) (len : Nat) (hb : IsBytes s)
    (hlen : len < 18446744073709551616) (hcap : 4 * s.length + 1 ≤ len) :
    (udev_escape s).length + 1 ≤ 4 * s.length + 1 ∧
      ∃ w, udev_encode_string s len = some (0, w) := by
  have h := escape_length_le s hb
  refine ⟨by omega, ?_⟩
  rcases encode_string_outcome s len hb hlen with ⟨-, w, hw, -⟩ | ⟨h1, -⟩
  · exact ⟨w, hw⟩
  · omega

/-- C17 (amended) at `"/"` with a buffer of 5 bytes. -/
theorem C17_escape_bound_witness :
    IsBytes [47] ∧ 5 < 18446744073709551616 ∧ 4 * [47].length + 1 ≤ 5 ∧
    ((udev_escape [47]).length + 1 ≤ 4 * [47].length + 1 ∧
      ∃ w, udev_encode_string [47] 5 = some (0, w)) :=
  ⟨by decide, by decide, by decide, C17_escape_bound [47] 5 (by decide) (by decide) (by decide)⟩

/-- C18: `ascii_filter s` is the subsequence of the bytes of `s` below `0x80`;
`ascii_is_valid s` is `s` when every byte is below `0x80` and `NULL` otherwise;
so both return `s` for valid ASCII. -/
theorem C18_ascii_filter_and_valid (s : List Nat) (hz : NulFree s) :
    ascii_filter s = CPtr.ptr (s.filter (fun b => decide (b < 0x80))) ∧
    ((∀ b ∈ s, b < 0x80) → ascii_is_valid s = CPtr.ptr s) ∧
    ((¬ ∀ b ∈ s, b < 0x80) → ascii_is_valid s = CPtr.NULL) ∧
    ((∀ b ∈ s, b < 0x80) → ascii_filter s = CPtr.ptr s) := by
  have hf : ascii_filter s = CPtr.ptr (s.filter (fun b => decide (b < 0x80))) := by
    unfold ascii_filter
    rw [ascii_filter_go_eq s [] hz, List.nil_append]
  obtain ⟨v1, v2⟩ := ascii_is_valid_go_eq s s hz
  refine ⟨hf, v1, v2, ?_⟩
  intro hall
  rw [hf, List.filter_eq_self.mpr (fun b hb => by simpa using hall b hb)]

/-- C18 at `"A\xC8B"`. -/
theorem C18_ascii_filter_and_valid_witness :
    NulFree [65, 200, 66] ∧
    (ascii_filter [65, 200, 66] =
      CPtr.ptr ([65, 200, 66].filter (fun b => decide (b < 0x80))) ∧
    ((∀ b ∈ [65, 200, 66], b < 0x80) → ascii_is_valid [65, 200, 66] = CPtr.ptr [65, 200, 66]) ∧
    ((¬ ∀ b ∈ [65, 200, 66], b < 0x80) → ascii_is_valid [65, 200, 66] = CPtr.NULL) ∧
    ((∀ b ∈ [65, 200, 66], b < 0x80) → ascii_filter [65, 200, 66] = CPtr.ptr [65, 200, 66])) :=
  ⟨by decide, C18_ascii_filter_and_valid [65, 200, 66] (by decide)⟩

/-- C19: `utf8_filter s` has the length of `s`, so it fits the `strlen(s) + 1`
bytes allocated for it, and each of its bytes is the byte of `s` at the same
index or the filler; bytes below `0x80` are kept. -/
theorem C19_utf8_filter_shape (s : List Nat) (hb : IsBytes s) (hz : NulFree s) :
    ∃ r : List Nat, utf8_filter s = some (CPtr.ptr r) ∧ r.length = s.length ∧
      r.length + 1 ≤ s.length + 1 ∧
      ∀ i, i < s.length →
        (r.getD i 0 = s.getD i 0 ∨ r.getD i 0 = FILTER_CHAR) ∧
        (s.getD i 0 < 0x80 → r.getD i 0 = s.getD i 0) := by
  have h := filter_bytes_shape s hb hz
  obtain ⟨hlen, hget⟩ := List.forall₂_iff_get.mp h
  refine ⟨utf8_filter_bytes s, utf8_filter_eq s, hlen, by omega, ?_⟩
  intro i hi
  have := hget i (by omega) hi
  rw [List.getD_eq_getElem _ _ (by omega : i < (utf8_filter_bytes s).length),
    List.getD_eq_getElem _ _ hi]
  exact this

/-- C19 at `"A\xFFB"`. -/
theorem C19_utf8_filter_shape_witness :
    IsBytes [65, 0xFF, 66] ∧ NulFree [65, 0xFF, 66] ∧
    ∃ r : List Nat, utf8_filter [65, 0xFF, 66] = some (CPtr.ptr r) ∧
      r.length = [65, 0xFF, 66].length ∧
      r.length + 1 ≤ [65, 0xFF, 66].length + 1 ∧
      ∀ i, i < [65, 0xFF, 66].length →
        (r.getD i 0 = [65, 0xFF, 66].getD i 0 ∨ r.getD i 0 = FILTER_CHAR) ∧
        ([65, 0xFF, 66].getD i 0 < 0x80 → r.getD i 0 = [65, 0xFF, 66].getD i 0) :=
  ⟨by decide, by decide, C19_utf8_filter_shape [65, 0xFF, 66] (by decide) (by decide)⟩

/-- C20: `utf8_is_valid s` is non-null exactly when the walk that calls
`utf8_encoded_valid_unichar` at each position reaches the terminating NUL, and
`NULL` exactly when some call returns -1. -/
theorem C20_validate_agrees_with_walk (s : List Nat) (hb : IsBytes s) (hz : NulFree s) :
    (utf8_is_valid s = some (CPtr.ptr s) ↔ unichar_walk (s.length + 1) s = some true) ∧
    (utf8_is_valid s = some CPtr.NULL ↔ unichar_walk (s.length + 1) s = some false) := by
  have hv := validate_go_null_mode s hb hz (s.length + 1) s (by omega)
  change (IsValidText s ∧ utf8_is_valid s = some (CPtr.ptr s)) ∨
    (¬ IsValidText s ∧ utf8_is_valid s = some CPtr.NULL) at hv
  rcases unichar_walk_eq s hb hz (s.length + 1) (by omega) with ⟨a, b⟩ | ⟨a, b⟩
  · rcases hv with ⟨-, c⟩ | ⟨c, -⟩
    · rw [b, c]; simp
    · exact absurd a c
  · rcases hv with ⟨c, -⟩ | ⟨-, c⟩
    · exact absurd c a
    · rw [b, c]; simp

/-- C20 at `"A\xC3\xA9\xC0"`. -/
theorem C20_validate_agrees_with_walk_witness :
    IsBytes [65, 0xC3, 0xA9, 0xC0] ∧ NulFree [65, 0xC3, 0xA9, 0xC0] ∧
    ((utf8_is_valid [65, 0xC3, 0xA9, 0xC0] = some (CPtr.ptr [65, 0xC3, 0xA9, 0xC0]) ↔
      unichar_walk ([65, 0xC3, 0xA9, 0xC0].length + 1) [65, 0xC3, 0xA9, 0xC0] = some true) ∧
    (utf8_is_valid [65, 0xC3, 0xA9, 0xC0] = some CPtr.NULL ↔
      unichar_walk ([65, 0xC3, 0xA9, 0xC0].length + 1) [65, 0xC3, 0xA9, 0xC0] = some false)) :=
  ⟨by decide, by decide,
    C20_validate_agrees_with_walk [65, 0xC3, 0xA9, 0xC0] (by decide) (by decide)⟩

end Utf8
